import Mathlib

/-!
Verification of the internal revision checkout engine of cvs2git
(cvs2svn_lib/checkout_internal.py).

The Python classes are embedded shallowly:

* `TextRecord` (FullTextRecord / DeltaTextRecord / CheckedOutTextRecord)
  becomes a structure with a `RecKind` variant tag.
* `TextRecordDatabase` becomes `DBState`: an association list of records
  plus the two backing stores and the `deferred_deletes` member.
* Database-like backing stores (IndexedDatabase / Database / NullDatabase,
  which live outside the provided sources) are modelled as finite maps
  plus capability flags; a `NullDatabase` is the empty store with every
  capability off, so that deletion is a no-op and reads and writes fail,
  exactly as an object with only a `__delitem__` method behaves.
* Python exceptions become the `Err` type in `Except`.
* Python integers are `Int` (a refcount can be decremented below zero).

The iterative discard cascade (`TextRecordDatabase.discard`) is written
with explicit fuel; a theorem below shows the fuel chosen by `discard`
is always sufficient, so the fuel-exhaustion branch is dead code.
-/

/-- Errors raised by the embedded code.  `keyError`, `attributeError`,
`assertionError` and `runtimeError` model the Python exceptions of the
same names; `internalError` models `cvs2svn_lib.common.InternalError`
(it carries the formatted message); `malformedDelta` models
`MalformedDeltaException`; `fatalError` models `FatalError`;
`fuelExhausted` marks exhaustion of recursion fuel (Python's
RecursionError); it is proved unreachable for `discard`. -/
inductive Err where
  | keyError : Err
  | attributeError : Err
  | assertionError : Err
  | runtimeError : Err
  | internalError : String → Err
  | malformedDelta : Err
  | fatalError : String → Err
  | fuelExhausted : Err
  deriving DecidableEq, Repr

/-- Decidable equality for Except values, used to evaluate the embedded
operations on concrete inputs. -/
instance {e a : Type} [DecidableEq e] [DecidableEq a] : DecidableEq (Except e a) :=
  fun x y =>
    match x, y with
    | .error u, .error v =>
        if h : u = v then isTrue (congrArg Except.error h)
        else isFalse (fun hc => h (Except.error.inj hc))
    | .ok u, .ok v =>
        if h : u = v then isTrue (congrArg Except.ok h)
        else isFalse (fun hc => h (Except.ok.inj hc))
    | .error _, .ok _ => isFalse (fun hc => Except.noConfusion hc)
    | .ok _, .error _ => isFalse (fun hc => Except.noConfusion hc)

/-- Discriminator used to state that an error is not an `InternalError`. -/
def Err.isInternalError : Err → Bool
  | .internalError _ => true
  | _ => false

/-- The variant tag of a TextRecord: `FullTextRecord`, `DeltaTextRecord`
(with its `pred_id` field) or `CheckedOutTextRecord`. -/
inductive RecKind where
  | fullText : RecKind
  | delta : Nat → RecKind
  | checkedOut : RecKind
  deriving DecidableEq, Repr

/-- Bookkeeping data for the text of a single CVSRevision
(class `TextRecord` and its three subclasses).  `id` is the cvs_rev_id,
`refcount` the number of times the text will still be retrieved. -/
structure TextRecord where
  id : Nat
  refcount : Int
  kind : RecKind
  deriving DecidableEq, Repr

/-- Lowercase hexadecimal digit characters, as produced by Python's
format code x. -/
def hexDigitChar (n : Nat) : Char :=
  if n = 0 then '0' else if n = 1 then '1' else if n = 2 then '2'
  else if n = 3 then '3' else if n = 4 then '4' else if n = 5 then '5'
  else if n = 6 then '6' else if n = 7 then '7' else if n = 8 then '8'
  else if n = 9 then '9' else if n = 10 then 'a' else if n = 11 then 'b'
  else if n = 12 then 'c' else if n = 13 then 'd' else if n = 14 then 'e'
  else 'f'

/-- Little-endian list of base-16 digits of `n` (empty for 0); the fuel
argument makes the recursion structural and `fuel >= n` is enough. -/
def hexDigitsLE : Nat → Nat → List Nat
  | 0, _ => []
  | fuel + 1, n => if n = 0 then [] else n % 16 :: hexDigitsLE fuel (n / 16)

/-- The key under which a fulltext is stored in the checkout database:
the Python expression format-x applied to the record id, i.e. lowercase
hexadecimal without prefix. -/
def toHexKey (n : Nat) : String :=
  if n = 0 then "0"
  else String.mk (((hexDigitsLE n n).map hexDigitChar).reverse)

/-- Value of a lowercase hexadecimal digit character. -/
def hexCharVal (c : Char) : Nat :=
  if c = '0' then 0 else if c = '1' then 1 else if c = '2' then 2
  else if c = '3' then 3 else if c = '4' then 4 else if c = '5' then 5
  else if c = '6' then 6 else if c = '7' then 7 else if c = '8' then 8
  else if c = '9' then 9 else if c = 'a' then 10 else if c = 'b' then 11
  else if c = 'c' then 12 else if c = 'd' then 13 else if c = 'e' then 14
  else 15

/-- Decode a little-endian hex digit character list. -/
def hexDecodeLE : List Char → Nat
  | [] => 0
  | c :: rest => hexCharVal c + 16 * hexDecodeLE rest

/-- Decode the string produced by `toHexKey`. -/
def hexKeyDecode (s : String) : Nat :=
  hexDecodeLE s.data.reverse

/-- A database-like backing store: a finite map from keys to strings plus
capability flags.  `readable` is whether the object has a usable
getitem method, `writable` likewise for setitem, and `deleteEnabled`
is whether its delitem method actually removes the entry (a
`NullDatabase` and the disabled IndexedDatabase of the output pass both
accept deletions and do nothing). -/
structure Store (κ : Type) where
  entries : List (κ × String)
  readable : Bool
  writable : Bool
  deleteEnabled : Bool
  deriving DecidableEq, Repr

/-- A do-nothing database (class `NullDatabase`): only `__delitem__`,
which does nothing. -/
def nullDatabase {κ : Type} : Store κ :=
  { entries := [], readable := false, writable := false, deleteEnabled := false }

/-- First value bound to `k` in an entry list. -/
def lookupE {κ : Type} [DecidableEq κ] : List (κ × String) → κ → Option String
  | [], _ => none
  | (k, v) :: rest, key => if k = key then some v else lookupE rest key

/-- Set `k` to `v` in an entry list (replace the first binding, else append). -/
def setE {κ : Type} [DecidableEq κ] : List (κ × String) → κ → String → List (κ × String)
  | [], key, v => [(key, v)]
  | (k, w) :: rest, key, v =>
      if k = key then (k, v) :: rest else (k, w) :: setE rest key v

/-- Remove the first binding of `k` from an entry list. -/
def eraseE {κ : Type} [DecidableEq κ] : List (κ × String) → κ → List (κ × String)
  | [], _ => []
  | (k, w) :: rest, key => if k = key then rest else (k, w) :: eraseE rest key

/-- `store[k]`: raises AttributeError when the store has no getitem
method (NullDatabase), KeyError when the key is absent. -/
def Store.read {κ : Type} [DecidableEq κ] (s : Store κ) (k : κ) : Except Err String :=
  if s.readable then
    match lookupE s.entries k with
    | some v => .ok v
    | none => .error .keyError
  else .error .attributeError

/-- `store[k] = v`: raises AttributeError when the store has no setitem
method. -/
def Store.write {κ : Type} [DecidableEq κ] (s : Store κ) (k : κ) (v : String) :
    Except Err (Store κ) :=
  if s.writable then .ok { s with entries := setE s.entries k v }
  else .error .attributeError

/-- `del store[k]`: a no-op unless deletion is enabled. -/
def Store.del {κ : Type} [DecidableEq κ] (s : Store κ) (k : κ) : Store κ :=
  if s.deleteEnabled then { s with entries := eraseE s.entries k } else s

/-- The record list of a `TextRecordDatabase`: the Python dict
text_records as an association list keyed by cvs_rev_id. -/
abbrev RecList := List (Nat × TextRecord)

/-- First record bound to `id` (dict lookup). -/
def lookupR : RecList → Nat → Option TextRecord
  | [], _ => none
  | (k, r) :: rest, id => if k = id then some r else lookupR rest id

/-- Replace the first record bound to `id` (dict update of an existing key). -/
def replaceR : RecList → Nat → TextRecord → RecList
  | [], _, _ => []
  | (k, r) :: rest, id, r' =>
      if k = id then (k, r') :: rest else (k, r) :: replaceR rest id r'

/-- Remove the first record bound to `id` (dict del). -/
def eraseR : RecList → Nat → RecList
  | [], _ => []
  | (k, r) :: rest, id => if k = id then rest else (k, r) :: eraseR rest id

/-- Python str() of a TextRecord, as defined by the three str methods:
the id (and pred_id) in lowercase hex and the refcount in decimal. -/
def TextRecord.str (r : TextRecord) : String :=
  match r.kind with
  | .fullText =>
      "FullTextRecord(" ++ toHexKey r.id ++ ", " ++ toString r.refcount ++ ")"
  | .delta pred =>
      "DeltaTextRecord(" ++ toHexKey pred ++ " -> " ++ toHexKey r.id ++ ", "
        ++ toString r.refcount ++ ")"
  | .checkedOut =>
      "CheckedOutTextRecord(" ++ toHexKey r.id ++ ", " ++ toString r.refcount ++ ")"

/-- The message of the InternalError raised by `discard` on a record
whose refcount is nonzero. -/
def discardErrMsg (r : TextRecord) : String :=
  "TextRecordDatabase.discard(" ++ r.str ++ ") called with refcount = "
    ++ toString r.refcount

/-- State of a `TextRecordDatabase`: the live records, the two backing
stores and the `deferred_deletes` member (`none` when no discard
cascade is active, `some worklist` while one runs).  The worklist is
kept in pop order: Python pops from the end of the list and extends at
the end, so the head of this list is the element Python would pop
next, and extending with `ids` prepends `ids.reverse`. -/
structure DBState where
  text_records : RecList
  delta_db : Store Nat
  checkout_db : Store String
  deferred_deletes : Option (List Nat)
  deriving DecidableEq, Repr

/-- `TextRecordDatabase.add`: requires that no record with the same id
is present (Python assert), then inserts. -/
def DBState.add (S : DBState) (r : TextRecord) : Except Err DBState :=
  match lookupR S.text_records r.id with
  | some _ => .error .assertionError
  | none => .ok { S with text_records := (r.id, r) :: S.text_records }

/-- `TextRecordDatabase.replace`: requires that a record with the same id
is present (Python assert), then overwrites it. -/
def DBState.replace (S : DBState) (r : TextRecord) : Except Err DBState :=
  match lookupR S.text_records r.id with
  | none => .error .assertionError
  | some _ => .ok { S with text_records := replaceR S.text_records r.id r }

/-- One run of the worklist loop inside `TextRecordDatabase.discard`.
Each iteration pops an id, checks its refcount is zero (else
InternalError), runs the record's `free` method --- which deletes the
record's backing-store entry and, for a DeltaTextRecord, decrements the
predecessor's refcount, appending the predecessor to the worklist when
that refcount reaches zero (the nested `discard` call sees
`deferred_deletes` set and only extends the list) --- and finally
deletes the record.  Returns `none` when the fuel runs out. -/
def runCascade : Nat → RecList → Store Nat → Store String → List Nat →
    Option (Except Err (RecList × Store Nat × Store String))
  | 0, _, _, _, _ => none
  | fuel + 1, recs, ddb, cdb, work =>
    match work with
    | [] => some (.ok (recs, ddb, cdb))
    | id :: rest =>
      match lookupR recs id with
      | none => some (.error .keyError)
      | some r =>
        if r.refcount ≠ 0 then some (.error (.internalError (discardErrMsg r)))
        else
          match r.kind with
          | .fullText => runCascade fuel (eraseR recs id) (ddb.del id) cdb rest
          | .checkedOut =>
              runCascade fuel (eraseR recs id) ddb (cdb.del (toHexKey id)) rest
          | .delta pred =>
            match lookupR recs pred with
            | none => some (.error .keyError)
            | some p =>
              runCascade fuel
                (eraseR (replaceR recs pred { p with refcount := p.refcount - 1 }) id)
                (ddb.del id) cdb
                (if p.refcount - 1 = 0 then pred :: rest else rest)

/-- `TextRecordDatabase.discard`: when no cascade is active, run the
iterative worklist loop to completion; when one is active, extend the
worklist and return at once.  The fuel given to the loop is proved
sufficient below, so the `fuelExhausted` branch never fires. -/
def DBState.discard (S : DBState) (ids : List Nat) : Except Err DBState :=
  match S.deferred_deletes with
  | some lst => .ok { S with deferred_deletes := some (ids.reverse ++ lst) }
  | none =>
    match runCascade (2 * S.text_records.length + ids.length + 1)
        S.text_records S.delta_db S.checkout_db ids.reverse with
    | none => .error .fuelExhausted
    | some (.error e) => .error e
    | some (.ok (recs, ddb, cdb)) =>
        .ok { text_records := recs, delta_db := ddb, checkout_db := cdb,
              deferred_deletes := none }

/-- `TextRecord.decrement_refcount`: decrement, and when the refcount
reaches zero ask the database to discard the record. -/
def decrementRefcount (S : DBState) (id : Nat) : Except Err DBState :=
  match lookupR S.text_records id with
  | none => .error .keyError
  | some r =>
    let r' : TextRecord := { r with refcount := r.refcount - 1 }
    let S' : DBState := { S with text_records := replaceR S.text_records id r' }
    if r'.refcount = 0 then S'.discard [id] else .ok S'

/-- Split a string into lines, each keeping its terminating newline
(a final fragment without newline is kept as-is). -/
def splitLinesAux : List Char → List Char → List String
  | [], [] => []
  | [], cur => [String.mk cur.reverse]
  | c :: rest, cur =>
      if c = '\n' then String.mk (c :: cur).reverse :: splitLinesAux rest []
      else splitLinesAux rest (c :: cur)

/-- Split a string into newline-terminated lines. -/
def splitLines (s : String) : List String :=
  splitLinesAux s.data []

/-- One RCS ed-style delta command. -/
inductive DeltaCmd where
  | add : Nat → List String → DeltaCmd
  | del : Nat → Nat → DeltaCmd
  deriving DecidableEq, Repr

/-- Parse a decimal number prefix of a character list. -/
def parseNatAux : List Char → Nat → Bool → Option (Nat × List Char)
  | [], acc, seen => if seen then some (acc, []) else none
  | c :: rest, acc, seen =>
      if c.isDigit then parseNatAux rest (acc * 10 + (c.toNat - 48)) true
      else if seen then some (acc, c :: rest) else none

/-- Modelled from the spec: the RCS delta format of section 6 ---
a-line-count and d-line-count commands on 1-based line numbers of the
predecessor text (the implementation, `cvs2svn_lib.rcs_stream`, is not
among the provided sources).  Parse the command lines of a delta; an
add command consumes its payload lines. -/
def parseCmds : Nat → List String → Except Err (List DeltaCmd)
  | 0, _ => .error .malformedDelta
  | _, [] => .ok []
  | fuel + 1, line :: rest =>
    match line.data with
    | 'a' :: cs =>
      match parseNatAux cs 0 false with
      | some (pos, ' ' :: cs') =>
        match parseNatAux cs' 0 false with
        | some (cnt, restChars) =>
          if restChars = ['\n'] ∨ restChars = [] then
            if cnt ≤ rest.length then
              match parseCmds fuel (rest.drop cnt) with
              | .ok cmds => .ok (.add pos (rest.take cnt) :: cmds)
              | .error e => .error e
            else .error .malformedDelta
          else .error .malformedDelta
        | none => .error .malformedDelta
      | _ => .error .malformedDelta
    | 'd' :: cs =>
      match parseNatAux cs 0 false with
      | some (pos, ' ' :: cs') =>
        match parseNatAux cs' 0 false with
        | some (cnt, restChars) =>
          if restChars = ['\n'] ∨ restChars = [] then
            match parseCmds fuel rest with
            | .ok cmds => .ok (.del pos cnt :: cmds)
            | .error e => .error e
          else .error .malformedDelta
        | none => .error .malformedDelta
      | _ => .error .malformedDelta
    | _ => .error .malformedDelta

/-- Modelled from the spec: apply parsed delta commands to a line list.
Commands refer to line numbers of the predecessor text; `off` tracks
the shift introduced by the commands already applied. -/
def applyCmds : List DeltaCmd → Int → List String → Except Err (List String)
  | [], _, lines => .ok lines
  | .del pos cnt :: rest, off, lines =>
      let p : Int := pos + off
      if 1 ≤ p ∧ p - 1 + cnt ≤ lines.length then
        applyCmds rest (off - cnt)
          (lines.take (p - 1).toNat ++ lines.drop ((p - 1).toNat + cnt))
      else .error .malformedDelta
  | .add pos payload :: rest, off, lines =>
      let p : Int := pos + off
      if 0 ≤ p ∧ p ≤ lines.length then
        applyCmds rest (off + payload.length)
          (lines.take p.toNat ++ payload ++ lines.drop p.toNat)
      else .error .malformedDelta

/-- Modelled from the spec: `RCSStream.apply_diff` --- apply an RCS
delta to a fulltext, failing with MalformedDelta on any parse or range
violation. -/
def applyDiff (text delta : String) : Except Err String :=
  match parseCmds (delta.length + 1) (splitLines delta) with
  | .error e => .error e
  | .ok cmds =>
    match applyCmds cmds 0 (splitLines text) with
    | .error e => .error e
    | .ok lines => .ok (String.join lines)

/-- A delta that replaces any `nNew`-line text by `oldLines`, used as
the reverse delta returned by `invertDiff`. -/
def mkReplaceDelta (nNew : Nat) (oldLines : List String) : String :=
  (if nNew = 0 then "" else "d1 " ++ toString nNew ++ "\n")
    ++ (if oldLines.isEmpty then ""
        else "a" ++ toString nNew ++ " " ++ toString oldLines.length ++ "\n"
          ++ String.join oldLines)

/-- Modelled from the spec: `RCSStream.invert_diff` --- apply the delta
to the held text and also return a reverse delta that transforms the
new content back to the old.  Returns (new stream text, reverse delta). -/
def invertDiff (text delta : String) : Except Err (String × String) :=
  match applyDiff text delta with
  | .error e => .error e
  | .ok newText =>
      .ok (newText, mkReplaceDelta (splitLines newText).length (splitLines text))

/-- `TextRecord.checkout`, dispatching on the variant as the three
subclasses do.  FullTextRecord: read the fulltext from the delta
database and decrement.  CheckedOutTextRecord: read it from the
checkout database under the hex key and decrement.  DeltaTextRecord:
recursively check out the predecessor, apply this record's delta text,
decrement, and either delete this record (refcount now zero: the
fulltext is stored nowhere and `free` is not called) or store the
fulltext in the checkout database and replace this record by a
CheckedOutTextRecord carrying the remaining refcount.  The fuel bounds
the recursion along pred_id links (Python recurses natively). -/
def checkout : Nat → DBState → Nat → Except Err (String × DBState)
  | 0, _, _ => .error .fuelExhausted
  | fuel + 1, S, id =>
    match lookupR S.text_records id with
    | none => .error .keyError
    | some r =>
      match r.kind with
      | .fullText =>
        match S.delta_db.read id with
        | .error e => .error e
        | .ok text =>
          match decrementRefcount S id with
          | .error e => .error e
          | .ok S' => .ok (text, S')
      | .checkedOut =>
        match S.checkout_db.read (toHexKey id) with
        | .error e => .error e
        | .ok text =>
          match decrementRefcount S id with
          | .error e => .error e
          | .ok S' => .ok (text, S')
      | .delta pred =>
        match checkout fuel S pred with
        | .error e => .error e
        | .ok (base_text, S1) =>
          match S1.delta_db.read id with
          | .error e => .error e
          | .ok delta_text =>
            match applyDiff base_text delta_text with
            | .error e => .error e
            | .ok text =>
              match lookupR S1.text_records id with
              | none => .error .keyError
              | some r1 =>
                if r1.refcount - 1 = 0 then
                  .ok (text, { S1 with text_records := eraseR S1.text_records id })
                else
                  match S1.checkout_db.write (toHexKey id) text with
                  | .error e => .error e
                  | .ok cdb =>
                    match DBState.replace { S1 with checkout_db := cdb }
                        { id := id, refcount := r1.refcount - 1,
                          kind := .checkedOut } with
                    | .error e => .error e
                    | .ok S2 => .ok (text, S2)

/-- Modelled from the spec: one revision of the CVSFileItems view
(`cvs2svn_lib.cvs_item` is not among the provided sources).  The flag
states whether the revision is a CVSRevisionModification, i.e. a
content-bearing (non-deletion) revision. -/
structure FileItem where
  id : Nat
  isModification : Bool
  deriving DecidableEq, Repr

/-- Add one to the refcount of the record with the given id (raises
KeyError when absent, as the Python dict lookup would). -/
def bumpRefcount (recs : RecList) (id : Nat) : Except Err RecList :=
  match lookupR recs id with
  | none => .error .keyError
  | some r => .ok (replaceR recs id { r with refcount := r.refcount + 1 })

/-- Second phase of `recompute_refcounts`: for every record in the
iteration snapshot, run `increment_dependency_refcounts`, which for a
DeltaTextRecord adds one to the predecessor's refcount and otherwise
does nothing.  (The Python loop iterates the live dict values, but only
reads the variant tag and pred_id, which never change, so folding over
a snapshot of the entries is equivalent.) -/
def incDeps : List (Nat × TextRecord) → RecList → Except Err RecList
  | [], acc => .ok acc
  | (_, r) :: rest, acc =>
    match r.kind with
    | .delta pred =>
      match bumpRefcount acc pred with
      | .error e => .error e
      | .ok acc' => incDeps rest acc'
    | _ => incDeps rest acc

/-- Third phase of `recompute_refcounts`: for each content-bearing
revision of the file-items view, add one to that record's refcount. -/
def incConsumers : List FileItem → RecList → Except Err RecList
  | [], acc => .ok acc
  | it :: rest, acc =>
    if it.isModification then
      match bumpRefcount acc it.id with
      | .error e => .error e
      | .ok acc' => incConsumers rest acc'
    else incConsumers rest acc

/-- `TextRecordDatabase.recompute_refcounts`: clear every refcount, add
one to each record's predecessor per delta record, then add one per
content-bearing revision in the file-items view. -/
def DBState.recompute_refcounts (S : DBState) (fi : List FileItem) :
    Except Err DBState :=
  let zeroed : RecList :=
    S.text_records.map (fun p => (p.1, { p.2 with refcount := 0 }))
  match incDeps zeroed zeroed with
  | .error e => .error e
  | .ok recs1 =>
    match incConsumers fi recs1 with
    | .error e => .error e
    | .ok recs2 => .ok { S with text_records := recs2 }

/-- `TextRecordDatabase.free_unused`: snapshot the ids of the records
whose refcount is zero, then discard them all. -/
def DBState.free_unused (S : DBState) : Except Err DBState :=
  S.discard ((S.text_records.filter (fun p => p.2.refcount = 0)).map Prod.fst)

/-- `TextRecordDatabase.log_leftovers`: the warning lines logged when
records remain; empty when the database is empty.  The leading line
renders the Python expression warning_prefix followed by the fixed
message (warning_prefix comes from `cvs2svn_lib.common`, not among the
provided sources; its exact text is irrelevant here). -/
def DBState.log_leftovers (S : DBState) : List String :=
  if S.text_records.isEmpty then []
  else
    "cvs2svn warning: internal problem: leftover revisions in the checkout cache:"
      :: S.text_records.map (fun p => "    " ++ p.2.str)

/-- `TextRecordDatabase.__setstate__`: rebuild the record map by adding
every serialized record, and bind both backing stores to a
NullDatabase with no cascade active. -/
def DBState.setstate (records : List TextRecord) : Except Err DBState :=
  let base : DBState :=
    { text_records := [], delta_db := nullDatabase, checkout_db := nullDatabase,
      deferred_deletes := none }
  records.foldlM (fun S r => S.add r) base

/-- Modelled from the spec: `is_trunk_revision` from
`cvs2svn_lib.common` (not among the provided sources): a trunk revision
number has exactly two dot-separated components. -/
def isTrunkRevision (rev : String) : Bool :=
  (rev.data.filter (fun c => c = '.')).length = 1

/-- Lookup in the original_ids map of CVSFileItems (revision number
string to cvs_rev_id); the map itself is external input. -/
def lookupIds : List (String × Nat) → String → Option Nat
  | [], _ => none
  | (k, v) :: rest, key => if k = key then some v else lookupIds rest key

/-- State of the rcsparse `_Sink`: the base_revisions map, the head and
1.1 revision markers, the set of revisions already seen, and the
running RCSStream (content plus the revision it represents), present
only between the head deltatext and the 1.1 deltatext of a trunk. -/
structure SinkState where
  base_revisions : List (String × String)
  head_revision : Option String
  revision_1_1 : Option String
  revisions_seen : List String
  stream : Option String
  stream_revision : Option String
  deriving DecidableEq, Repr

/-- `_Sink.__init__`. -/
def initSink : SinkState :=
  { base_revisions := [], head_revision := none, revision_1_1 := none,
    revisions_seen := [], stream := none, stream_revision := none }

/-- `_Sink.set_head_revision`. -/
def set_head_revision (st : SinkState) (revision : String) : SinkState :=
  { st with head_revision := some revision }

/-- `_Sink.define_revision`: record the base revision of `next` (or mark
revision_1_1 when there is no next and the revision is on trunk), and
the base revision of every listed branch root. -/
def define_revision (st : SinkState) (revision : String) (branches : List String)
    (next : Option String) : SinkState :=
  let st1 : SinkState :=
    match next with
    | some n => { st with base_revisions := setE st.base_revisions n revision }
    | none =>
        if isTrunkRevision revision then { st with revision_1_1 := some revision }
        else st
  branches.foldl
    (fun s b => { s with base_revisions := setE s.base_revisions b revision }) st1

/-- `InternalRevisionExcluder._writeout`: add the record to the
text-record database and store its text in the rcs-deltas store, which
is the database's delta_db. -/
def writeout (db : DBState) (r : TextRecord) (text : String) : Except Err DBState :=
  match db.add r with
  | .error e => .error e
  | .ok db1 =>
    match db1.delta_db.write r.id text with
    | .error e => .error e
    | .ok dd => .ok { db1 with delta_db := dd }

/-- `_Sink.set_revision_info`: ignore duplicate deltatext blocks; on
trunk, seed the stream at head, otherwise invert the backward delta
(mutating the stream to this revision's content) and emit a
DeltaTextRecord for the previous stream revision whose bytes are the
reverse delta, then make this revision the stream revision; when the
revision is 1.1, also emit a FullTextRecord with the stream content and
drop the stream.  On a branch, emit a forward DeltaTextRecord against
the base revision.  (The unused log argument is omitted.) -/
def set_revision_info (oids : List (String × Nat)) (st : SinkState) (db : DBState)
    (revision text : String) : Except Err (SinkState × DBState) :=
  if revision ∈ st.revisions_seen then .ok (st, db)
  else
    let st0 : SinkState := { st with revisions_seen := revision :: st.revisions_seen }
    match lookupIds oids revision with
    | none => .error .keyError
    | some cvs_rev_id =>
      if isTrunkRevision revision then
        match
          (if st0.head_revision = some revision then
            .ok ({ st0 with stream := some text, stream_revision := some revision },
                 db)
          else
            match st0.stream, st0.stream_revision with
            | some stext, some srev =>
              match invertDiff stext text with
              | .error .malformedDelta => .error .runtimeError
              | .error e => .error e
              | .ok (newText, reverse_delta) =>
                match lookupIds oids srev with
                | none => .error .keyError
                | some sid =>
                  match writeout db
                      { id := sid, refcount := 0, kind := .delta cvs_rev_id }
                      reverse_delta with
                  | .error e => .error e
                  | .ok db1 =>
                      .ok ({ st0 with
                              stream := some newText
                              stream_revision := some revision }, db1)
            | _, _ => .error .attributeError :
            Except Err (SinkState × DBState)) with
        | .error e => .error e
        | .ok (st1, db1) =>
          if st1.revision_1_1 = some revision then
            match st1.stream with
            | none => .error .attributeError
            | some stext =>
              match writeout db1
                  { id := cvs_rev_id, refcount := 0, kind := .fullText } stext with
              | .error e => .error e
              | .ok db2 =>
                  .ok ({ st1 with stream := none, stream_revision := none }, db2)
          else .ok (st1, db1)
      else
        match lookupE st0.base_revisions revision with
        | none => .error .keyError
        | some baseRev =>
          match lookupIds oids baseRev with
          | none => .error .keyError
          | some bid =>
            match writeout db
                { id := cvs_rev_id, refcount := 0, kind := .delta bid } text with
            | .error e => .error e
            | .ok db1 => .ok (st0, db1)

/-- One event delivered by the external rcsparse parser to the sink
(only the fields the sink reads are kept). -/
inductive SinkEvent where
  | head : String → SinkEvent
  | define : String → List String → Option String → SinkEvent
  | revInfo : String → String → SinkEvent
  deriving DecidableEq, Repr

/-- Deliver one parser event to the sink. -/
def applyEvent (oids : List (String × Nat)) (st : SinkState) (db : DBState) :
    SinkEvent → Except Err (SinkState × DBState)
  | .head revision => .ok (set_head_revision st revision, db)
  | .define revision branches next =>
      .ok (define_revision st revision branches next, db)
  | .revInfo revision text => set_revision_info oids st db revision text

/-- Run the sink over a parser event stream. -/
def runSink (oids : List (String × Nat)) :
    List SinkEvent → SinkState → DBState → Except Err (SinkState × DBState)
  | [], st, db => .ok (st, db)
  | e :: rest, st, db =>
    match applyEvent oids st db e with
    | .error err => .error err
    | .ok (st1, db1) => runSink oids rest st1 db1

/-- The serialized form of a TextRecordDatabase in the rcs-trees store:
its record list (what __getstate__ keeps). -/
abbrev TreeStore := List (Nat × List TextRecord)

/-- Lookup in a tree store. -/
def lookupT : TreeStore → Nat → Option (List TextRecord)
  | [], _ => none
  | (k, v) :: rest, key => if k = key then some v else lookupT rest key

/-- Set a file's snapshot in a tree store. -/
def setT : TreeStore → Nat → List TextRecord → TreeStore
  | [], key, v => [(key, v)]
  | (k, w) :: rest, key, v =>
      if k = key then (k, v) :: rest else (k, w) :: setT rest key v

/-- State owned by InternalRevisionExcluder: the rcs-deltas store (a
fully functional IndexedDatabase opened NEW) and the rcs-trees store. -/
structure ExcluderState where
  rcs_deltas : Store Nat
  rcs_trees : TreeStore
  deriving DecidableEq, Repr

/-- The rcs-deltas store as opened by `InternalRevisionExcluder.start`:
a fresh fully functional IndexedDatabase. -/
def freshDeltasStore : Store Nat :=
  { entries := [], readable := true, writable := true, deleteEnabled := true }

/-- `InternalRevisionExcluder.process_file`: build a fresh
TextRecordDatabase over the live rcs-deltas store and a NullDatabase
checkout store, parse the RCS file (here: replay the parser events
through the sink), recompute the refcounts against the file-items view,
free unused records, and persist the record list to the rcs-trees
store. -/
def process_file (E : ExcluderState) (fileId : Nat) (oids : List (String × Nat))
    (events : List SinkEvent) (fi : List FileItem) : Except Err ExcluderState :=
  let db0 : DBState :=
    { text_records := [], delta_db := E.rcs_deltas, checkout_db := nullDatabase,
      deferred_deletes := none }
  match runSink oids events initSink db0 with
  | .error e => .error e
  | .ok (_, db1) =>
    match db1.recompute_refcounts fi with
    | .error e => .error e
    | .ok db2 =>
      match db2.free_unused with
      | .error e => .error e
      | .ok db3 =>
          .ok { rcs_deltas := db3.delta_db,
                rcs_trees := setT E.rcs_trees fileId (db3.text_records.map Prod.snd) }

/-- The CVS keywords recognized by InternalRevisionReader, in the
alternation order of its regular expressions.  No keyword is a prefix
of another, so at most one can match at a given position. -/
def kwList : List String :=
  ["Author", "Date", "Header", "Id", "Locker", "Log", "Name", "RCSfile",
   "Revision", "Source", "State"]

/-- Match one recognized keyword as a prefix of the character list. -/
def matchKw (cs : List Char) : Option (String × List Char) :=
  (kwList.filterMap fun kw =>
    if kw.data.isPrefixOf cs then some (kw, cs.drop kw.data.length) else none).head?

/-- Consume the regex fragment matching colon-text-dollar: characters
other than dollar and newline, then a dollar; return the remainder. -/
def scanKwTail : List Char → Option (List Char)
  | [] => none
  | c :: rest =>
      if c = '$' then some rest
      else if c = '\n' then none
      else scanKwTail rest

/-- The per-revision values substituted by _KeywordExpander.  The
author and date come from external context (metadata database and
timestamp formatting); the others are derived fields of the file and
revision. -/
structure KwValues where
  author : String
  date : String
  rcsfile : String
  revision : String
  source : String
  deriving DecidableEq, Repr

/-- The replacement value for one keyword, following the methods of
_KeywordExpander. -/
def kwValue (v : KwValues) : String → String
  | "Author" => v.author
  | "Date" => v.date
  | "Header" =>
      v.source ++ " " ++ v.revision ++ " " ++ v.date ++ " " ++ v.author ++ " Exp"
  | "Id" =>
      v.rcsfile ++ " " ++ v.revision ++ " " ++ v.date ++ " " ++ v.author ++ " Exp"
  | "Locker" => ""
  | "Log" => "not supported by cvs2svn"
  | "Name" => "not supported by cvs2svn"
  | "RCSfile" => v.rcsfile
  | "Revision" => v.revision
  | "Source" => v.source
  | "State" => "Exp"
  | _ => ""

/-- One left-to-right pass of `_kw_re.sub` (keyword unexpansion): each
match of dollar-keyword-colon-text-dollar is replaced by
dollar-keyword-dollar; on failure to match, scanning resumes after the
dollar. -/
def kwUnexpand : Nat → List Char → List Char
  | 0, cs => cs
  | _ + 1, [] => []
  | fuel + 1, c :: rest =>
      if c = '$' then
        match matchKw rest with
        | some (kw, rest1) =>
          match rest1 with
          | ':' :: rest2 =>
            match scanKwTail rest2 with
            | some rest3 =>
                '$' :: kw.data ++ '$' :: kwUnexpand fuel rest3
            | none => '$' :: kwUnexpand fuel rest
          | _ => '$' :: kwUnexpand fuel rest
        | none => '$' :: kwUnexpand fuel rest
      else c :: kwUnexpand fuel rest

/-- One left-to-right pass of `_kwo_re.sub` with _KeywordExpander: each
match of dollar-keyword with optional colon-text, then dollar, is
replaced by dollar-keyword-colon-space-value-space-dollar. -/
def kwExpand (v : KwValues) : Nat → List Char → List Char
  | 0, cs => cs
  | _ + 1, [] => []
  | fuel + 1, c :: rest =>
      if c = '$' then
        match matchKw rest with
        | some (kw, rest1) =>
          match rest1 with
          | ':' :: rest2 =>
            match scanKwTail rest2 with
            | some rest3 =>
                ('$' :: kw.data ++ ':' :: ' ' :: (kwValue v kw).data)
                  ++ ' ' :: '$' :: kwExpand v fuel rest3
            | none => '$' :: kwExpand v fuel rest
          | '$' :: rest3 =>
              ('$' :: kw.data ++ ':' :: ' ' :: (kwValue v kw).data)
                ++ ' ' :: '$' :: kwExpand v fuel rest3
          | _ => '$' :: kwExpand v fuel rest
        | none => '$' :: kwExpand v fuel rest
      else c :: kwExpand v fuel rest

/-- Apply keyword unexpansion to a string. -/
def kwUnexpandStr (s : String) : String :=
  String.mk (kwUnexpand s.data.length s.data)

/-- Apply keyword expansion to a string. -/
def kwExpandStr (v : KwValues) (s : String) : String :=
  String.mk (kwExpand v s.data.length s.data)

/-- The data of one CVSRevision the reader is asked for: its cvs_rev_id,
its file's id, the file's name and mode, the revision number string,
and the values for keyword expansion. -/
structure CvsRev where
  id : Nat
  fileId : Nat
  filename : String
  rev : String
  mode : String
  kwvals : KwValues
  deriving DecidableEq, Repr

/-- State owned by InternalRevisionReader: the rcs-trees snapshots, the
set of file ids whose records are already loaded, and the live
TextRecordDatabase (whose delta_db is the read-only rcs-deltas store
with deletion disabled and whose checkout_db is the writable
cvs-checkout database). -/
structure ReaderState where
  tree_db : TreeStore
  loaded_files : List Nat
  db : DBState
  deriving DecidableEq, Repr

/-- `InternalRevisionReader._get_text_record`: when the revision's file
has not been loaded yet, add every record of its snapshot to the live
database first; then return the revision's record. -/
def ReaderState.get_text_record (R : ReaderState) (fileId revId : Nat) :
    Except Err (TextRecord × ReaderState) :=
  if fileId ∈ R.loaded_files then
    match lookupR R.db.text_records revId with
    | none => .error .keyError
    | some r => .ok (r, R)
  else
    match lookupT R.tree_db fileId with
    | none => .error .keyError
    | some recs =>
      match recs.foldlM (fun S r => S.add r) R.db with
      | .error e => .error e
      | .ok db1 =>
        match lookupR db1.text_records revId with
        | none => .error .keyError
        | some r =>
            .ok (r, { R with db := db1, loaded_files := fileId :: R.loaded_files })

/-- `InternalRevisionReader.get_content_stream`: load-if-needed, check
the revision's text out (a MalformedDelta escalates to FatalError naming
file and revision), then, unless the file mode is b or o, apply keyword
unexpansion (when suppression is requested or the mode is k) or keyword
expansion.  The checkout fuel is the number of live records plus one,
which bounds the pred_id recursion depth on any acyclic database. -/
def get_content_stream (R : ReaderState) (c : CvsRev)
    (suppress_keyword_substitution : Bool) : Except Err (String × ReaderState) :=
  match R.get_text_record c.fileId c.id with
  | .error e => .error e
  | .ok (_, R1) =>
    match checkout (R1.db.text_records.length + 1) R1.db c.id with
    | .error .malformedDelta =>
        .error (.fatalError ("Malformed RCS delta in " ++ c.filename
          ++ ", revision " ++ c.rev))
    | .error e => .error e
    | .ok (text0, db2) =>
      let text : String :=
        if c.mode ≠ "b" ∧ c.mode ≠ "o" then
          if suppress_keyword_substitution ∨ c.mode = "k" then kwUnexpandStr text0
          else kwExpandStr c.kwvals text0
        else text0
      .ok (text, { R1 with db := db2 })

/-- Issue a sequence of get_content_stream requests (each with its
suppression flag), threading the reader state. -/
def processAll (R : ReaderState) : List (CvsRev × Bool) → Except Err ReaderState
  | [] => .ok R
  | (c, sup) :: rest =>
    match get_content_stream R c sup with
    | .error e => .error e
    | .ok (_, R1) => processAll R1 rest

/-- `InternalRevisionReader.finish`: log any leftover records. -/
def readerFinish (R : ReaderState) : List String :=
  R.db.log_leftovers

/-- The methods defined by class InternalRevisionReader in
checkout_internal.py, in source order. -/
def readerMethods : List String :=
  ["__init__", "register_artifacts", "start", "_get_text_record",
   "get_content_stream", "finish"]

/-! ### Association-list lemmas -/

theorem lookupR_eq_some_mem {recs : RecList} {k : Nat} {r : TextRecord}
    (h : lookupR recs k = some r) : (k, r) ∈ recs := by
  induction recs with
  | nil => simp [lookupR] at h
  | cons p rest ih =>
    obtain ⟨k', r'⟩ := p
    by_cases hk : k' = k
    · subst hk
      simp [lookupR] at h
      simp [h]
    · simp [lookupR, hk] at h
      exact List.mem_cons_of_mem _ (ih h)

theorem lookupR_isSome_of_mem {recs : RecList} {p : Nat × TextRecord}
    (h : p ∈ recs) : (lookupR recs p.1).isSome := by
  induction recs with
  | nil => simp at h
  | cons q rest ih =>
    obtain ⟨k', r'⟩ := q
    rcases List.mem_cons.mp h with h1 | h1
    · subst h1; simp [lookupR]
    · by_cases hk : k' = p.1
      · simp [lookupR, hk]
      · simpa [lookupR, hk] using ih h1

theorem mem_lookupR_of_nodup {recs : RecList} {p : Nat × TextRecord}
    (hn : (recs.map Prod.fst).Nodup) (h : p ∈ recs) :
    lookupR recs p.1 = some p.2 := by
  induction recs with
  | nil => simp at h
  | cons q rest ih =>
    obtain ⟨k', r'⟩ := q
    simp only [List.map_cons, List.nodup_cons] at hn
    rcases List.mem_cons.mp h with h1 | h1
    · subst h1; simp [lookupR]
    · by_cases hk : k' = p.1
      · exfalso
        exact hn.1 (hk ▸ (List.mem_map_of_mem Prod.fst h1))
      · simpa [lookupR, hk] using ih hn.2 h1

theorem lookupR_replaceR_self (recs : RecList) (id : Nat) (r : TextRecord) :
    lookupR (replaceR recs id r) id = (lookupR recs id).map (fun _ => r) := by
  induction recs with
  | nil => simp [lookupR, replaceR]
  | cons p rest ih =>
    obtain ⟨k', r'⟩ := p
    by_cases hk : k' = id <;> simp [lookupR, replaceR, hk, ih]

theorem lookupR_replaceR_ne (recs : RecList) {id k : Nat} (r : TextRecord)
    (h : k ≠ id) : lookupR (replaceR recs id r) k = lookupR recs k := by
  induction recs with
  | nil => simp [lookupR, replaceR]
  | cons p rest ih =>
    obtain ⟨k', r'⟩ := p
    by_cases hk : k' = id
    · subst hk
      simp [lookupR, replaceR, Ne.symm h]
    · by_cases hkk : k' = k
      · subst hkk
        simp [lookupR, replaceR, hk]
      · simp [lookupR, replaceR, hk, hkk, ih]

theorem lookupR_eraseR_ne (recs : RecList) {id k : Nat} (h : k ≠ id) :
    lookupR (eraseR recs id) k = lookupR recs k := by
  induction recs with
  | nil => simp [lookupR, eraseR]
  | cons p rest ih =>
    obtain ⟨k', r'⟩ := p
    by_cases hk : k' = id
    · subst hk
      simp [lookupR, eraseR, Ne.symm h]
    · by_cases hkk : k' = k
      · subst hkk
        simp [lookupR, eraseR, hk]
      · simp [lookupR, eraseR, hk, hkk, ih]

theorem keys_replaceR (recs : RecList) (id : Nat) (r : TextRecord) :
    (replaceR recs id r).map Prod.fst = recs.map Prod.fst := by
  induction recs with
  | nil => simp [replaceR]
  | cons p rest ih =>
    obtain ⟨k', r'⟩ := p
    by_cases hk : k' = id <;> simp [replaceR, hk, ih]

theorem keys_eraseR_sublist (recs : RecList) (id : Nat) :
    List.Sublist ((eraseR recs id).map Prod.fst) (recs.map Prod.fst) := by
  induction recs with
  | nil => simp [eraseR]
  | cons p rest ih =>
    obtain ⟨k', r'⟩ := p
    by_cases hk : k' = id
    · simp only [eraseR, hk, if_pos rfl, List.map_cons]
      exact (List.sublist_cons_self _ _)
    · simp only [eraseR, hk, if_neg hk, List.map_cons]
      exact ih.cons₂ _

theorem nodup_keys_eraseR {recs : RecList} (id : Nat)
    (h : (recs.map Prod.fst).Nodup) : ((eraseR recs id).map Prod.fst).Nodup :=
  (keys_eraseR_sublist recs id).nodup h

theorem nodup_keys_replaceR {recs : RecList} (id : Nat) (r : TextRecord)
    (h : (recs.map Prod.fst).Nodup) :
    ((replaceR recs id r).map Prod.fst).Nodup := by
  rw [keys_replaceR]; exact h

theorem lookupR_eraseR_self {recs : RecList} (id : Nat)
    (hn : (recs.map Prod.fst).Nodup) : lookupR (eraseR recs id) id = none := by
  induction recs with
  | nil => simp [lookupR, eraseR]
  | cons p rest ih =>
    obtain ⟨k', r'⟩ := p
    simp only [List.map_cons, List.nodup_cons] at hn
    by_cases hk : k' = id
    · subst hk
      simp only [eraseR, if_pos rfl]
      cases hr : lookupR rest k' with
      | none => exact hr
      | some r0 =>
        exact absurd (List.mem_map_of_mem Prod.fst (lookupR_eq_some_mem hr)) hn.1
    · simpa [eraseR, lookupR, hk] using ih hn.2

theorem mem_of_mem_eraseR {recs : RecList} {id : Nat} {p : Nat × TextRecord}
    (h : p ∈ eraseR recs id) : p ∈ recs := by
  induction recs with
  | nil => simpa [eraseR] using h
  | cons q rest ih =>
    obtain ⟨k', r'⟩ := q
    by_cases hk : k' = id
    · simp only [eraseR, if_pos hk] at h
      exact List.mem_cons_of_mem _ h
    · simp only [eraseR, if_neg hk] at h
      rcases List.mem_cons.mp h with h1 | h1
      · exact h1 ▸ List.mem_cons_self _ _
      · exact List.mem_cons_of_mem _ (ih h1)

theorem length_eraseR_of_lookup {recs : RecList} {id : Nat} {r : TextRecord}
    (h : lookupR recs id = some r) :
    (eraseR recs id).length + 1 = recs.length := by
  induction recs with
  | nil => simp [lookupR] at h
  | cons p rest ih =>
    obtain ⟨k', r'⟩ := p
    by_cases hk : k' = id
    · simp [eraseR, hk]
    · simp only [lookupR, if_neg hk] at h
      simp [eraseR, hk, ← ih h]

theorem length_replaceR (recs : RecList) (id : Nat) (r : TextRecord) :
    (replaceR recs id r).length = recs.length := by
  induction recs with
  | nil => simp [replaceR]
  | cons p rest ih =>
    obtain ⟨k', r'⟩ := p
    by_cases hk : k' = id <;> simp [replaceR, hk, ih]

/-! ### Child counting -/

/-- Whether a record is a DeltaTextRecord whose pred_id is `y`. -/
def isChildOf (y : Nat) (r : TextRecord) : Bool :=
  match r.kind with
  | .delta p => p = y
  | _ => false

/-- The number of DeltaTextRecords in the database that depend on the
record with id `y` as their delta base. -/
def deltaChildren (recs : RecList) (y : Nat) : Nat :=
  (recs.filter (fun p => isChildOf y p.2)).length

theorem deltaChildren_eraseR {recs : RecList} {id : Nat} {r : TextRecord}
    (h : lookupR recs id = some r) (y : Nat) :
    deltaChildren recs y
      = deltaChildren (eraseR recs id) y + (if isChildOf y r then 1 else 0) := by
  induction recs with
  | nil => simp [lookupR] at h
  | cons p rest ih =>
    obtain ⟨k', r'⟩ := p
    by_cases hk : k' = id
    · simp only [lookupR, if_pos hk] at h
      rw [← Option.some.inj h]
      subst hk
      by_cases hc : isChildOf y r' = true <;>
        simp [deltaChildren, eraseR, List.filter_cons, hc]
    · simp only [lookupR, if_neg hk] at h
      have ihh := ih h
      by_cases hc : isChildOf y r' = true <;>
        · simp [deltaChildren, eraseR, hk, List.filter_cons, hc] at ihh ⊢
          omega

theorem deltaChildren_replaceR {recs : RecList} {id : Nat} {r : TextRecord}
    (h : lookupR recs id = some r) (r' : TextRecord) (y : Nat) :
    deltaChildren (replaceR recs id r') y + (if isChildOf y r then 1 else 0)
      = deltaChildren recs y + (if isChildOf y r' then 1 else 0) := by
  induction recs with
  | nil => simp [lookupR] at h
  | cons p rest ih =>
    obtain ⟨k0, r0⟩ := p
    by_cases hk : k0 = id
    · simp only [lookupR, if_pos hk] at h
      rw [← Option.some.inj h]
      subst hk
      by_cases hc : isChildOf y r0 = true <;> by_cases hc' : isChildOf y r' = true <;>
        simp [deltaChildren, replaceR, List.filter_cons, hc, hc'] <;> omega
    · simp only [lookupR, if_neg hk] at h
      have ihh := ih h
      by_cases hc : isChildOf y r0 = true <;>
        · simp [deltaChildren, replaceR, if_neg hk, List.filter_cons, hc] at ihh ⊢
          omega

theorem two_le_length_of_mem_ne {α : Type} {l : List α} {a b : α}
    (ha : a ∈ l) (hb : b ∈ l) (hab : a ≠ b) : 2 ≤ l.length := by
  induction l with
  | nil => simp at ha
  | cons x rest ih =>
    rcases List.mem_cons.mp ha with ha' | ha' <;> rcases List.mem_cons.mp hb with hb' | hb'
    · exact absurd (ha' ▸ hb'.symm ▸ rfl) hab
    · have : 1 ≤ rest.length := List.length_pos.mpr (List.ne_nil_of_mem hb')
      simp only [List.length_cons]; omega
    · have : 1 ≤ rest.length := List.length_pos.mpr (List.ne_nil_of_mem ha')
      simp only [List.length_cons]; omega
    · have := ih ha' hb'
      simp only [List.length_cons]; omega

theorem deltaChildren_pos_of_mem {recs : RecList} {p : Nat × TextRecord}
    {y : Nat} (hp : p ∈ recs) (hc : isChildOf y p.2) :
    1 ≤ deltaChildren recs y := by
  have : p ∈ recs.filter (fun q => isChildOf y q.2) :=
    List.mem_filter.mpr ⟨hp, by simpa using hc⟩
  exact List.length_pos.mpr (List.ne_nil_of_mem this)

theorem two_le_deltaChildren {recs : RecList} {p q : Nat × TextRecord} {y : Nat}
    (hp : p ∈ recs) (hq : q ∈ recs) (hpq : p.1 ≠ q.1)
    (hcp : isChildOf y p.2) (hcq : isChildOf y q.2) :
    2 ≤ deltaChildren recs y := by
  have hp' : p ∈ recs.filter (fun z => isChildOf y z.2) :=
    List.mem_filter.mpr ⟨hp, by simpa using hcp⟩
  have hq' : q ∈ recs.filter (fun z => isChildOf y z.2) :=
    List.mem_filter.mpr ⟨hq, by simpa using hcq⟩
  exact two_le_length_of_mem_ne hp' hq' (fun h => hpq (congrArg Prod.fst h))

/-! ### Store entry-list lemmas -/

theorem lookupE_setE_self {κ : Type} [DecidableEq κ] (l : List (κ × String))
    (k : κ) (v : String) : lookupE (setE l k v) k = some v := by
  induction l with
  | nil => simp [lookupE, setE]
  | cons p rest ih =>
    obtain ⟨k0, v0⟩ := p
    by_cases hk : k0 = k
    · subst hk; simp [lookupE, setE]
    · simp [lookupE, setE, hk, ih]

theorem lookupE_setE_ne {κ : Type} [DecidableEq κ] (l : List (κ × String))
    {k k' : κ} (v : String) (h : k' ≠ k) :
    lookupE (setE l k v) k' = lookupE l k' := by
  induction l with
  | nil => simp [lookupE, setE, Ne.symm h]
  | cons p rest ih =>
    obtain ⟨k0, v0⟩ := p
    by_cases hk : k0 = k
    · subst hk
      simp [lookupE, setE, Ne.symm h]
    · by_cases hkk : k0 = k'
      · subst hkk
        simp [lookupE, setE, hk]
      · simp [lookupE, setE, hk, hkk, ih]

theorem lookupE_eraseE_ne {κ : Type} [DecidableEq κ] (l : List (κ × String))
    {k k' : κ} (h : k' ≠ k) : lookupE (eraseE l k) k' = lookupE l k' := by
  induction l with
  | nil => simp [lookupE, eraseE]
  | cons p rest ih =>
    obtain ⟨k0, v0⟩ := p
    by_cases hk : k0 = k
    · subst hk
      simp [lookupE, eraseE, Ne.symm h]
    · by_cases hkk : k0 = k'
      · subst hkk
        simp [lookupE, eraseE, hk]
      · simp [lookupE, eraseE, hk, hkk, ih]

theorem lookupE_eq_some_mem {κ : Type} [DecidableEq κ] {l : List (κ × String)}
    {k : κ} {v : String} (h : lookupE l k = some v) : (k, v) ∈ l := by
  induction l with
  | nil => simp [lookupE] at h
  | cons p rest ih =>
    obtain ⟨k0, v0⟩ := p
    by_cases hk : k0 = k
    · subst hk
      simp [lookupE] at h
      simp [h]
    · simp only [lookupE, if_neg hk] at h
      exact List.mem_cons_of_mem _ (ih h)

theorem lookupE_eraseE_self {κ : Type} [DecidableEq κ] {l : List (κ × String)}
    (k : κ) (hn : (l.map Prod.fst).Nodup) : lookupE (eraseE l k) k = none := by
  induction l with
  | nil => simp [lookupE, eraseE]
  | cons p rest ih =>
    obtain ⟨k0, v0⟩ := p
    simp only [List.map_cons, List.nodup_cons] at hn
    by_cases hk : k0 = k
    · subst hk
      simp only [eraseE, if_pos rfl]
      cases hr : lookupE rest k0 with
      | none => exact hr
      | some v1 =>
        exact absurd (List.mem_map_of_mem Prod.fst (lookupE_eq_some_mem hr)) hn.1
    · simpa [eraseE, lookupE, hk] using ih hn.2

theorem mem_of_mem_eraseE {κ : Type} [DecidableEq κ] {l : List (κ × String)}
    {k : κ} {p : κ × String} (h : p ∈ eraseE l k) : p ∈ l := by
  induction l with
  | nil => simpa [eraseE] using h
  | cons q rest ih =>
    obtain ⟨k0, v0⟩ := q
    by_cases hk : k0 = k
    · simp only [eraseE, if_pos hk] at h
      exact List.mem_cons_of_mem _ h
    · simp only [eraseE, if_neg hk] at h
      rcases List.mem_cons.mp h with h1 | h1
      · exact h1 ▸ List.mem_cons_self _ _
      · exact List.mem_cons_of_mem _ (ih h1)

theorem keys_eraseE_sublist {κ : Type} [DecidableEq κ] (l : List (κ × String))
    (k : κ) : List.Sublist ((eraseE l k).map Prod.fst) (l.map Prod.fst) := by
  induction l with
  | nil => simp [eraseE]
  | cons p rest ih =>
    obtain ⟨k0, v0⟩ := p
    by_cases hk : k0 = k
    · simp only [eraseE, if_pos hk, List.map_cons]
      exact List.sublist_cons_self _ _
    · simp only [eraseE, if_neg hk, List.map_cons]
      exact ih.cons₂ _

theorem nodup_keys_eraseE {κ : Type} [DecidableEq κ] {l : List (κ × String)}
    (k : κ) (h : (l.map Prod.fst).Nodup) :
    ((eraseE l k).map Prod.fst).Nodup :=
  (keys_eraseE_sublist l k).nodup h

theorem mem_keys_setE {κ : Type} [DecidableEq κ] {l : List (κ × String)}
    {k x : κ} {v : String} (hx : x ∈ (setE l k v).map Prod.fst) :
    x ∈ l.map Prod.fst ∨ x = k := by
  induction l with
  | nil => simpa [setE] using hx
  | cons q rest ih =>
    obtain ⟨k1, v1⟩ := q
    by_cases hk1 : k1 = k
    · subst hk1
      simp only [setE, ite_true, eq_self_iff_true, List.map_cons] at hx
      exact Or.inl (by simpa using hx)
    · simp only [setE, if_neg hk1, List.map_cons, List.mem_cons] at hx ⊢
      rcases hx with hx | hx
      · exact Or.inl (Or.inl hx)
      · rcases ih hx with hx2 | hx2
        · exact Or.inl (Or.inr hx2)
        · exact Or.inr hx2

theorem nodup_keys_setE {κ : Type} [DecidableEq κ] {l : List (κ × String)}
    (k : κ) (v : String) (h : (l.map Prod.fst).Nodup) :
    ((setE l k v).map Prod.fst).Nodup := by
  induction l with
  | nil => simp [setE]
  | cons p rest ih =>
    obtain ⟨k0, v0⟩ := p
    simp only [List.map_cons, List.nodup_cons] at h
    by_cases hk : k0 = k
    · subst hk
      simp only [setE, ite_true, eq_self_iff_true, List.map_cons, List.nodup_cons]
      exact ⟨h.1, h.2⟩
    · simp only [setE, if_neg hk, List.map_cons, List.nodup_cons]
      refine ⟨fun hmem => ?_, ih h.2⟩
      rcases mem_keys_setE hmem with h2 | h2
      · exact h.1 h2
      · exact hk h2

/-! ### Injectivity of the hex key encoding -/

theorem hexCharVal_hexDigitChar {d : Nat} (h : d < 16) :
    hexCharVal (hexDigitChar d) = d := by
  interval_cases d <;> decide

theorem hexDecodeLE_hexDigitsLE : ∀ fuel n, n ≤ fuel →
    hexDecodeLE ((hexDigitsLE fuel n).map hexDigitChar) = n := by
  intro fuel
  induction fuel with
  | zero => intro n hn; interval_cases n; decide
  | succ fuel ih =>
    intro n hn
    by_cases h0 : n = 0
    · subst h0; simp [hexDigitsLE, hexDecodeLE]
    · have hdiv : n / 16 ≤ fuel := by
        have : n / 16 < n := Nat.div_lt_self (Nat.pos_of_ne_zero h0) (by omega)
        omega
      simp only [hexDigitsLE, if_neg h0, List.map_cons, hexDecodeLE,
        hexCharVal_hexDigitChar (Nat.mod_lt n (by omega)), ih _ hdiv]
      omega

theorem hexKeyDecode_toHexKey (n : Nat) : hexKeyDecode (toHexKey n) = n := by
  by_cases h0 : n = 0
  · subst h0; decide
  · simp only [toHexKey, if_neg h0, hexKeyDecode]
    rw [List.reverse_reverse]
    exact hexDecodeLE_hexDigitsLE n n le_rfl

theorem toHexKey_injective {m n : Nat} (h : toHexKey m = toHexKey n) : m = n := by
  have := congrArg hexKeyDecode h
  rwa [hexKeyDecode_toHexKey, hexKeyDecode_toHexKey] at this

/-! ### Discard cascade lemmas -/

theorem Store.del_disabled {κ : Type} [DecidableEq κ] {s : Store κ} (k : κ)
    (h : s.deleteEnabled = false) : s.del k = s := by
  simp [Store.del, h]

theorem length_eraseR_replaceR {recs : RecList} {id pred : Nat}
    {r p' : TextRecord} (h : lookupR recs id = some r) :
    (eraseR (replaceR recs pred p') id).length + 1 = recs.length := by
  rcases eq_or_ne pred id with he | hne
  · subst he
    have h2 : lookupR (replaceR recs pred p') pred = some p' := by
      rw [lookupR_replaceR_self, h]; rfl
    rw [length_eraseR_of_lookup h2, length_replaceR]
  · have h2 : lookupR (replaceR recs pred p') id = some r := by
      rw [lookupR_replaceR_ne _ _ (Ne.symm hne)]; exact h
    rw [length_eraseR_of_lookup h2, length_replaceR]

theorem runCascade_nil (fuel : Nat) (recs : RecList) (ddb : Store Nat)
    (cdb : Store String) :
    runCascade (fuel + 1) recs ddb cdb [] = some (.ok (recs, ddb, cdb)) := rfl

theorem runCascade_cons_absent {recs : RecList} {id : Nat} (fuel : Nat)
    (ddb : Store Nat) (cdb : Store String) (rest : List Nat)
    (hl : lookupR recs id = none) :
    runCascade (fuel + 1) recs ddb cdb (id :: rest) = some (.error .keyError) := by
  simp [runCascade, hl]

theorem runCascade_cons_nonzero {recs : RecList} {id : Nat} {r : TextRecord}
    (fuel : Nat) (ddb : Store Nat) (cdb : Store String) (rest : List Nat)
    (hl : lookupR recs id = some r) (hrc : r.refcount ≠ 0) :
    runCascade (fuel + 1) recs ddb cdb (id :: rest)
      = some (.error (.internalError (discardErrMsg r))) := by
  simp [runCascade, hl, hrc]

theorem runCascade_cons_full {recs : RecList} {id : Nat} {r : TextRecord}
    (fuel : Nat) (ddb : Store Nat) (cdb : Store String) (rest : List Nat)
    (hl : lookupR recs id = some r) (hrc : r.refcount = 0)
    (hk : r.kind = .fullText) :
    runCascade (fuel + 1) recs ddb cdb (id :: rest)
      = runCascade fuel (eraseR recs id) (ddb.del id) cdb rest := by
  simp [runCascade, hl, hrc, hk]

theorem runCascade_cons_co {recs : RecList} {id : Nat} {r : TextRecord}
    (fuel : Nat) (ddb : Store Nat) (cdb : Store String) (rest : List Nat)
    (hl : lookupR recs id = some r) (hrc : r.refcount = 0)
    (hk : r.kind = .checkedOut) :
    runCascade (fuel + 1) recs ddb cdb (id :: rest)
      = runCascade fuel (eraseR recs id) ddb (cdb.del (toHexKey id)) rest := by
  simp [runCascade, hl, hrc, hk]

theorem runCascade_cons_delta_absent {recs : RecList} {id pred : Nat}
    {r : TextRecord} (fuel : Nat) (ddb : Store Nat) (cdb : Store String)
    (rest : List Nat) (hl : lookupR recs id = some r) (hrc : r.refcount = 0)
    (hk : r.kind = .delta pred) (hp : lookupR recs pred = none) :
    runCascade (fuel + 1) recs ddb cdb (id :: rest) = some (.error .keyError) := by
  simp [runCascade, hl, hrc, hk, hp]

theorem runCascade_cons_delta {recs : RecList} {id pred : Nat}
    {r p : TextRecord} (fuel : Nat) (ddb : Store Nat) (cdb : Store String)
    (rest : List Nat) (hl : lookupR recs id = some r) (hrc : r.refcount = 0)
    (hk : r.kind = .delta pred) (hp : lookupR recs pred = some p) :
    runCascade (fuel + 1) recs ddb cdb (id :: rest)
      = runCascade fuel
          (eraseR (replaceR recs pred { p with refcount := p.refcount - 1 }) id)
          (ddb.del id) cdb
          (if p.refcount - 1 = 0 then pred :: rest else rest) := by
  simp [runCascade, hl, hrc, hk, hp]

theorem runCascade_isSome : ∀ fuel (recs : RecList) ddb cdb work,
    2 * recs.length + work.length < fuel →
    (runCascade fuel recs ddb cdb work).isSome := by
  intro fuel
  induction fuel with
  | zero => intro recs ddb cdb work h; omega
  | succ fuel ih =>
    intro recs ddb cdb work h
    match work with
    | [] => simp [runCascade_nil]
    | id :: rest =>
      cases hl : lookupR recs id with
      | none => simp [runCascade_cons_absent fuel ddb cdb rest hl]
      | some r =>
        by_cases hrc : r.refcount = 0
        · have hlen := length_eraseR_of_lookup hl
          have hwl : 2 * recs.length + rest.length + 1 < fuel + 1 := by
            simp only [List.length_cons] at h
            omega
          cases hk : r.kind with
          | fullText =>
            rw [runCascade_cons_full fuel ddb cdb rest hl hrc hk]
            exact ih _ _ _ _ (by omega)
          | checkedOut =>
            rw [runCascade_cons_co fuel ddb cdb rest hl hrc hk]
            exact ih _ _ _ _ (by omega)
          | delta pred =>
            cases hp : lookupR recs pred with
            | none =>
              simp [runCascade_cons_delta_absent fuel ddb cdb rest hl hrc hk hp]
            | some p =>
              rw [runCascade_cons_delta fuel ddb cdb rest hl hrc hk hp]
              have hlen2 := @length_eraseR_replaceR recs id pred r
                { p with refcount := p.refcount - 1 } hl
              have hwork : (if p.refcount - 1 = 0 then pred :: rest
                  else rest).length ≤ rest.length + 1 := by
                split <;> simp
              exact ih _ _ _ _ (by omega)
        · simp [runCascade_cons_nonzero fuel ddb cdb rest hl hrc]

theorem runCascade_stores_const : ∀ fuel (recs : RecList) (ddb : Store Nat)
    (cdb : Store String) work recs' ddb' cdb',
    ddb.deleteEnabled = false → cdb.deleteEnabled = false →
    runCascade fuel recs ddb cdb work = some (.ok (recs', ddb', cdb')) →
    ddb' = ddb ∧ cdb' = cdb := by
  intro fuel
  induction fuel with
  | zero => intro recs ddb cdb work recs' ddb' cdb' _ _ h; simp [runCascade] at h
  | succ fuel ih =>
    intro recs ddb cdb work recs' ddb' cdb' hd hc h
    match work with
    | [] =>
      rw [runCascade_nil] at h
      simp only [Option.some.injEq, Except.ok.injEq, Prod.mk.injEq] at h
      exact ⟨h.2.1.symm, h.2.2.symm⟩
    | id :: rest =>
      cases hl : lookupR recs id with
      | none => rw [runCascade_cons_absent fuel ddb cdb rest hl] at h; simp at h
      | some r =>
        by_cases hrc : r.refcount = 0
        · cases hk : r.kind with
          | fullText =>
            rw [runCascade_cons_full fuel ddb cdb rest hl hrc hk,
              Store.del_disabled _ hd] at h
            exact ih _ _ _ _ _ _ _ hd hc h
          | checkedOut =>
            rw [runCascade_cons_co fuel ddb cdb rest hl hrc hk,
              Store.del_disabled _ hc] at h
            exact ih _ _ _ _ _ _ _ hd hc h
          | delta pred =>
            cases hp : lookupR recs pred with
            | none =>
              rw [runCascade_cons_delta_absent fuel ddb cdb rest hl hrc hk hp] at h
              simp at h
            | some p =>
              rw [runCascade_cons_delta fuel ddb cdb rest hl hrc hk hp,
                Store.del_disabled _ hd] at h
              exact ih _ _ _ _ _ _ _ hd hc h
        · rw [runCascade_cons_nonzero fuel ddb cdb rest hl hrc] at h
          simp at h

theorem runCascade_all_pos : ∀ fuel (recs : RecList) ddb cdb work recs' ddb' cdb',
    (recs.map Prod.fst).Nodup →
    (∀ p ∈ recs, p.2.refcount ≤ 0 → p.1 ∈ work) →
    runCascade fuel recs ddb cdb work = some (.ok (recs', ddb', cdb')) →
    ∀ p ∈ recs', 0 < p.2.refcount := by
  intro fuel
  induction fuel with
  | zero =>
    intro recs ddb cdb work recs' ddb' cdb' _ _ h
    simp [runCascade] at h
  | succ fuel ih =>
    intro recs ddb cdb work recs' ddb' cdb' hn hP h
    match work with
    | [] =>
      rw [runCascade_nil] at h
      simp only [Option.some.injEq, Except.ok.injEq, Prod.mk.injEq] at h
      obtain ⟨hr, -, -⟩ := h
      subst hr
      intro p hp
      by_contra hneg
      exact absurd (hP p hp (not_lt.mp hneg)) (List.not_mem_nil _)
    | id :: rest =>
      cases hl : lookupR recs id with
      | none => rw [runCascade_cons_absent fuel ddb cdb rest hl] at h; simp at h
      | some r =>
        by_cases hrc : r.refcount = 0
        · cases hk : r.kind with
          | fullText =>
            rw [runCascade_cons_full fuel ddb cdb rest hl hrc hk] at h
            refine ih _ _ _ _ _ _ _ (nodup_keys_eraseR id hn) ?_ h
            intro p hp hple
            have hpmem := mem_of_mem_eraseR hp
            have hpid : p.1 ≠ id := by
              intro he
              have h1 := mem_lookupR_of_nodup (nodup_keys_eraseR id hn) hp
              rw [he, lookupR_eraseR_self id hn] at h1
              exact Option.noConfusion h1
            rcases List.mem_cons.mp (hP p hpmem hple) with h2 | h2
            · exact absurd h2 hpid
            · exact h2
          | checkedOut =>
            rw [runCascade_cons_co fuel ddb cdb rest hl hrc hk] at h
            refine ih _ _ _ _ _ _ _ (nodup_keys_eraseR id hn) ?_ h
            intro p hp hple
            have hpmem := mem_of_mem_eraseR hp
            have hpid : p.1 ≠ id := by
              intro he
              have h1 := mem_lookupR_of_nodup (nodup_keys_eraseR id hn) hp
              rw [he, lookupR_eraseR_self id hn] at h1
              exact Option.noConfusion h1
            rcases List.mem_cons.mp (hP p hpmem hple) with h2 | h2
            · exact absurd h2 hpid
            · exact h2
          | delta pred =>
            cases hp : lookupR recs pred with
            | none =>
              rw [runCascade_cons_delta_absent fuel ddb cdb rest hl hrc hk hp] at h
              simp at h
            | some pr =>
              rw [runCascade_cons_delta fuel ddb cdb rest hl hrc hk hp] at h
              have hnr : ((replaceR recs pred
                  { pr with refcount := pr.refcount - 1 }).map Prod.fst).Nodup :=
                nodup_keys_replaceR _ _ hn
              refine ih _ _ _ _ _ _ _ (nodup_keys_eraseR id hnr) ?_ h
              intro q hq hqle
              have hq1 := mem_of_mem_eraseR hq
              have hqid : q.1 ≠ id := by
                intro he
                have h1 := mem_lookupR_of_nodup (nodup_keys_eraseR id hnr) hq
                rw [he, lookupR_eraseR_self id hnr] at h1
                exact Option.noConfusion h1
              by_cases hqpred : q.1 = pred
              · have h1 := mem_lookupR_of_nodup hnr hq1
                rw [hqpred, lookupR_replaceR_self, hp] at h1
                have hq2 : q.2 = { pr with refcount := pr.refcount - 1 } := by
                  simpa using h1.symm
                by_cases hz : pr.refcount - 1 = 0
                · rw [if_pos hz]
                  exact hqpred ▸ List.mem_cons_self _ _
                · rw [if_neg hz]
                  have hprle : pr.refcount ≤ 0 := by
                    have : q.2.refcount = pr.refcount - 1 := by rw [hq2]
                    omega
                  have hpredmem : (pred, pr) ∈ recs := lookupR_eq_some_mem hp
                  rcases List.mem_cons.mp (hP (pred, pr) hpredmem hprle) with h2 | h2
                  · exact absurd (hqpred ▸ h2) hqid
                  · exact hqpred ▸ h2
              · have h1 := mem_lookupR_of_nodup hnr hq1
                rw [lookupR_replaceR_ne _ _ hqpred] at h1
                have hqmem : (q.1, q.2) ∈ recs := lookupR_eq_some_mem h1
                have hqle' : (q.1, q.2).2.refcount ≤ 0 := hqle
                rcases List.mem_cons.mp (hP (q.1, q.2) hqmem hqle') with h2 | h2
                · exact absurd h2 hqid
                · split
                  · exact List.mem_cons_of_mem _ h2
                  · exact h2
        · rw [runCascade_cons_nonzero fuel ddb cdb rest hl hrc] at h
          simp at h

/-! ### A linear delta chain and its discard cascade -/

/-- The inner records of a linear delta chain: record k for every k
below the tip, each with refcount 1 (it is needed by its successor);
record 0 is the FullTextRecord root. -/
def innerChain : Nat → RecList
  | 0 => []
  | k + 1 =>
      (k, { id := k, refcount := 1,
            kind := if k = 0 then RecKind.fullText else RecKind.delta (k - 1) })
        :: innerChain k

/-- A linear delta chain of records 0..n: the tip n has refcount 0 and
each record below is the delta base of its successor. -/
def chainRecs (n : Nat) : RecList :=
  (n, { id := n, refcount := 0,
        kind := if n = 0 then RecKind.fullText else RecKind.delta (n - 1) })
    :: innerChain n

theorem chain_step (n : Nat) (fuel : Nat) (dd : Store Nat) (cd : Store String) :
    runCascade (fuel + 1) (chainRecs (n + 1)) dd cd [n + 1]
      = runCascade fuel (chainRecs n) (dd.del (n + 1)) cd [n] := by
  have hl : lookupR (chainRecs (n + 1)) (n + 1)
      = some { id := n + 1, refcount := 0, kind := RecKind.delta n } := by
    simp [chainRecs, lookupR]
  have hp : lookupR (chainRecs (n + 1)) n
      = some { id := n, refcount := 1,
               kind := if n = 0 then RecKind.fullText else RecKind.delta (n - 1) } := by
    simp [chainRecs, innerChain, lookupR, Nat.succ_ne_self]
  rw [runCascade_cons_delta fuel dd cd [] hl rfl rfl hp]
  have hrecs : eraseR (replaceR (chainRecs (n + 1)) n
      { id := n, refcount := 0,
        kind := if n = 0 then RecKind.fullText else RecKind.delta (n - 1) }) (n + 1)
      = chainRecs n := by
    simp [chainRecs, innerChain, replaceR, eraseR, Nat.succ_ne_self]
  simp [hrecs]

theorem runCascade_chain : ∀ n fuel (dd : Store Nat) (cd : Store String),
    n + 2 ≤ fuel →
    ∃ dd', runCascade fuel (chainRecs n) dd cd [n] = some (.ok ([], dd', cd)) := by
  intro n
  induction n with
  | zero =>
    intro fuel dd cd hf
    match fuel, hf with
    | fuel + 2, _ =>
      have hl : lookupR (chainRecs 0) 0
          = some { id := 0, refcount := 0, kind := RecKind.fullText } := by
        simp [chainRecs, lookupR]
      rw [runCascade_cons_full (fuel + 1) dd cd [] hl rfl rfl]
      have he : eraseR (chainRecs 0) 0 = [] := by
        simp [chainRecs, innerChain, eraseR]
      rw [he, runCascade_nil]
      exact ⟨dd.del 0, rfl⟩
  | succ n ih =>
    intro fuel dd cd hf
    match fuel, hf with
    | fuel + 1, _ =>
      rw [chain_step]
      exact ih fuel (dd.del (n + 1)) cd (by omega)

theorem innerChain_length (n : Nat) : (innerChain n).length = n := by
  induction n with
  | zero => rfl
  | succ n ih => simp [innerChain, ih]

theorem chainRecs_length (n : Nat) : (chainRecs n).length = n + 1 := by
  simp [chainRecs, innerChain_length]

/-- Claim C2: `TextRecordDatabase.discard` runs an iterative worklist
cascade.  (i) The fuel it hands the loop is always sufficient, so the
loop terminates for every database state and id list; (ii) discarding
the tip of a linear delta chain of any length empties the database
(in particular a 10000-long chain completes, with no native recursion
involved); (iii) a discard issued while a cascade is active only
appends the ids to the worklist (Python extends at the end of the list,
which is the front of the pop-ordered model) and returns immediately. -/
theorem claim_C2 :
    (∀ (recs : RecList) (ddb : Store Nat) (cdb : Store String) (ids : List Nat),
      (runCascade (2 * recs.length + ids.length + 1) recs ddb cdb
        ids.reverse).isSome)
    ∧ (∀ (n : Nat) (ddb : Store Nat) (cdb : Store String),
        ∃ S', DBState.discard
            { text_records := chainRecs n, delta_db := ddb, checkout_db := cdb,
              deferred_deletes := none } [n] = .ok S'
          ∧ S'.text_records = [])
    ∧ (∀ (S : DBState) (lst ids : List Nat), S.deferred_deletes = some lst →
        S.discard ids
          = .ok { S with deferred_deletes := some (ids.reverse ++ lst) }) := by
  refine ⟨?_, ?_, ?_⟩
  · intro recs ddb cdb ids
    exact runCascade_isSome _ _ _ _ _ (by simp [List.length_reverse])
  · intro n ddb cdb
    obtain ⟨dd', hrun⟩ := runCascade_chain n
      (2 * (chainRecs n).length + [n].length + 1) ddb cdb
      (by simp [chainRecs_length]; omega)
    refine ⟨{ text_records := [], delta_db := dd', checkout_db := cdb,
              deferred_deletes := none }, ?_, rfl⟩
    simp only [DBState.discard, List.reverse_cons, List.reverse_nil,
      List.nil_append]
    rw [hrun]
  · intro S lst ids h
    simp [DBState.discard, h]

/-- Claim C2 witness: the three parts at a chain of length 4, and a
deferred append with concrete ids. -/
theorem claim_C2_witness :
    (runCascade (2 * (chainRecs 3).length + [3].length + 1) (chainRecs 3)
        freshDeltasStore nullDatabase [3].reverse).isSome
    ∧ (∃ S', DBState.discard
          { text_records := chainRecs 3, delta_db := freshDeltasStore,
            checkout_db := nullDatabase, deferred_deletes := none } [3] = .ok S'
        ∧ S'.text_records = [])
    ∧ DBState.discard
        { text_records := [], delta_db := freshDeltasStore,
          checkout_db := nullDatabase, deferred_deletes := some [7] } [4, 5]
        = .ok { text_records := [], delta_db := freshDeltasStore,
                checkout_db := nullDatabase,
                deferred_deletes := some ([4, 5].reverse ++ [7]) } :=
  ⟨claim_C2.1 (chainRecs 3) freshDeltasStore nullDatabase [3],
   claim_C2.2.1 3 freshDeltasStore nullDatabase,
   claim_C2.2.2 _ [7] [4, 5] rfl⟩

/-- Claim C9 counterexample: `TextRecordDatabase.add` with a duplicate
id fails with a bare AssertionError (Python assert), which is not an
InternalError and carries no message naming the record or refcount; the
claim that all three invariant violations raise InternalError is
therefore false. -/
theorem claim_C9_counterexample :
    DBState.add
        { text_records := [(1, { id := 1, refcount := 0, kind := RecKind.fullText })],
          delta_db := nullDatabase, checkout_db := nullDatabase,
          deferred_deletes := none }
        { id := 1, refcount := 0, kind := RecKind.fullText }
      = .error .assertionError
    ∧ Err.assertionError.isInternalError = false := by
  constructor
  · rfl
  · rfl

/-- Claim C9 as amended: `discard` of a record with nonzero refcount
raises InternalError with a message rendering the record (its str(),
which names ids in hex and the refcount) and the refcount; `add` of a
duplicate id and `replace` of a missing id fail fast via Python
assertions (AssertionError), without a descriptive message. -/
theorem claim_C9 :
    (∀ (S : DBState) (id : Nat) (r : TextRecord),
      S.deferred_deletes = none → lookupR S.text_records id = some r →
      r.refcount ≠ 0 →
      S.discard [id] = .error (.internalError (discardErrMsg r)))
    ∧ (∀ (S : DBState) (r : TextRecord),
        (lookupR S.text_records r.id).isSome →
        S.add r = .error .assertionError)
    ∧ (∀ (S : DBState) (r : TextRecord),
        lookupR S.text_records r.id = none →
        S.replace r = .error .assertionError) := by
  refine ⟨?_, ?_, ?_⟩
  · intro S id r hdef hl hrc
    have hrun := runCascade_cons_nonzero
      (2 * S.text_records.length + [id].length) S.delta_db S.checkout_db [] hl hrc
    simp only [DBState.discard, hdef, List.reverse_cons, List.reverse_nil,
      List.nil_append]
    rw [hrun]
  · intro S r h
    cases hl : lookupR S.text_records r.id with
    | none => rw [hl] at h; simp at h
    | some r0 => simp [DBState.add, hl]
  · intro S r h
    simp [DBState.replace, h]

/-- Claim C9 witness: the three amended behaviours at concrete inputs. -/
theorem claim_C9_witness :
    DBState.discard
        { text_records := [(1, { id := 1, refcount := 5, kind := RecKind.fullText })],
          delta_db := nullDatabase, checkout_db := nullDatabase,
          deferred_deletes := none } [1]
      = .error (.internalError
          (discardErrMsg { id := 1, refcount := 5, kind := RecKind.fullText }))
    ∧ DBState.add
        { text_records := [(1, { id := 1, refcount := 0, kind := RecKind.fullText })],
          delta_db := nullDatabase, checkout_db := nullDatabase,
          deferred_deletes := none }
        { id := 1, refcount := 2, kind := RecKind.checkedOut }
      = .error .assertionError
    ∧ DBState.replace
        { text_records := [], delta_db := nullDatabase,
          checkout_db := nullDatabase, deferred_deletes := none }
        { id := 1, refcount := 2, kind := RecKind.checkedOut }
      = .error .assertionError :=
  ⟨claim_C9.1 _ 1 _ rfl rfl (by decide),
   claim_C9.2.1 _ _ (by decide),
   claim_C9.2.2 _ _ (by decide)⟩

theorem add_ok_fields {S S' : DBState} {r : TextRecord} (h : S.add r = .ok S') :
    S' = { S with text_records := (r.id, r) :: S.text_records } := by
  unfold DBState.add at h
  cases hl : lookupR S.text_records r.id with
  | some r0 => rw [hl] at h; exact absurd h (by simp)
  | none =>
    rw [hl] at h
    exact (Except.ok.inj h).symm

theorem foldl_add_stores : ∀ (l : List TextRecord) (S0 S : DBState),
    l.foldlM (fun S r => S.add r) S0 = .ok S →
    S.delta_db = S0.delta_db ∧ S.checkout_db = S0.checkout_db
      ∧ S.deferred_deletes = S0.deferred_deletes := by
  intro l
  induction l with
  | nil =>
    intro S0 S h
    simp only [List.foldlM_nil] at h
    obtain rfl : S0 = S := Except.ok.inj h
    exact ⟨rfl, rfl, rfl⟩
  | cons r rest ih =>
    intro S0 S h
    simp only [List.foldlM_cons] at h
    cases ha : S0.add r with
    | error e =>
      rw [ha] at h
      exact Except.noConfusion
        (h : (Except.error e : Except Err DBState) = .ok S)
    | ok S1 =>
      rw [ha] at h
      have h1 := ih S1 S h
      rw [add_ok_fields ha] at h1
      exact h1

theorem checkout_step_full {S : DBState} {id : Nat} {r : TextRecord} (fuel : Nat)
    (hl : lookupR S.text_records id = some r) (hk : r.kind = .fullText) :
    checkout (fuel + 1) S id =
      match S.delta_db.read id with
      | .error e => .error e
      | .ok text =>
        match decrementRefcount S id with
        | .error e => .error e
        | .ok S1 => .ok (text, S1) := by
  simp [checkout, hl, hk]

theorem checkout_step_co {S : DBState} {id : Nat} {r : TextRecord} (fuel : Nat)
    (hl : lookupR S.text_records id = some r) (hk : r.kind = .checkedOut) :
    checkout (fuel + 1) S id =
      match S.checkout_db.read (toHexKey id) with
      | .error e => .error e
      | .ok text =>
        match decrementRefcount S id with
        | .error e => .error e
        | .ok S1 => .ok (text, S1) := by
  simp [checkout, hl, hk]

theorem checkout_step_delta {S : DBState} {id pred : Nat} {r : TextRecord}
    (fuel : Nat) (hl : lookupR S.text_records id = some r)
    (hk : r.kind = .delta pred) :
    checkout (fuel + 1) S id =
      match checkout fuel S pred with
      | .error e => .error e
      | .ok (base_text, S1) =>
        match S1.delta_db.read id with
        | .error e => .error e
        | .ok delta_text =>
          match applyDiff base_text delta_text with
          | .error e => .error e
          | .ok text =>
            match lookupR S1.text_records id with
            | none => .error .keyError
            | some r1 =>
              if r1.refcount - 1 = 0 then
                .ok (text, { S1 with text_records := eraseR S1.text_records id })
              else
                match S1.checkout_db.write (toHexKey id) text with
                | .error e => .error e
                | .ok cdb =>
                  match DBState.replace { S1 with checkout_db := cdb }
                      { id := id, refcount := r1.refcount - 1,
                        kind := .checkedOut } with
                  | .error e => .error e
                  | .ok S2 => .ok (text, S2) := by
  simp only [checkout, hl, hk]

theorem checkout_no_read : ∀ (fuel : Nat) (S : DBState) (id : Nat) (t : String)
    (S' : DBState), S.delta_db.readable = false → S.checkout_db.readable = false →
    checkout fuel S id ≠ .ok (t, S') := by
  intro fuel
  induction fuel with
  | zero => intro S id t S' _ _ h; simp [checkout] at h
  | succ fuel ih =>
    intro S id t S' hd hc h
    cases hl : lookupR S.text_records id with
    | none =>
      rw [show checkout (fuel + 1) S id = .error .keyError by
        simp [checkout, hl]] at h
      simp at h
    | some r =>
      cases hk : r.kind with
      | fullText =>
        rw [checkout_step_full fuel hl hk,
          show S.delta_db.read id = .error .attributeError by
            simp [Store.read, hd]] at h
        simp at h
      | checkedOut =>
        rw [checkout_step_co fuel hl hk,
          show S.checkout_db.read (toHexKey id) = .error .attributeError by
            simp [Store.read, hc]] at h
        simp at h
      | delta pred =>
        rw [checkout_step_delta fuel hl hk] at h
        cases hco : checkout fuel S pred with
        | error e => rw [hco] at h; simp at h
        | ok res =>
          obtain ⟨b, S1⟩ := res
          exact ih S pred b S1 hd hc hco

/-- Claim C10: a TextRecordDatabase rebuilt by deserialization has both
backing stores bound to a NullDatabase and no cascade active; discard
on any database whose stores have deletion disabled leaves both stores
untouched when it succeeds; and checkout can never succeed while both
stores are unreadable, whatever the record variants, because every
checkout path ends in a store read. -/
theorem claim_C10 :
    (∀ (records : List TextRecord) (S : DBState),
      DBState.setstate records = .ok S →
      S.delta_db = nullDatabase ∧ S.checkout_db = nullDatabase
        ∧ S.deferred_deletes = none)
    ∧ (∀ (S S' : DBState) (ids : List Nat),
        S.delta_db.deleteEnabled = false → S.checkout_db.deleteEnabled = false →
        S.discard ids = .ok S' →
        S'.delta_db = S.delta_db ∧ S'.checkout_db = S.checkout_db)
    ∧ (∀ (fuel : Nat) (S : DBState) (id : Nat) (t : String) (S' : DBState),
        S.delta_db.readable = false → S.checkout_db.readable = false →
        checkout fuel S id ≠ .ok (t, S')) := by
  refine ⟨?_, ?_, checkout_no_read⟩
  · intro records S h
    exact foldl_add_stores records _ S h
  · intro S S' ids hd hc h
    unfold DBState.discard at h
    cases hdef : S.deferred_deletes with
    | some lst =>
      rw [hdef] at h
      obtain rfl := Except.ok.inj h
      exact ⟨rfl, rfl⟩
    | none =>
      rw [hdef] at h
      cases hrun : runCascade (2 * S.text_records.length + ids.length + 1)
          S.text_records S.delta_db S.checkout_db ids.reverse with
      | none => rw [hrun] at h; simp at h
      | some res =>
        rw [hrun] at h
        cases res with
        | error e => simp at h
        | ok triple =>
          obtain ⟨recs', ddb', cdb'⟩ := triple
          obtain ⟨hdd, hcd⟩ := runCascade_stores_const _ _ _ _ _ _ _ _ hd hc hrun
          obtain rfl := Except.ok.inj h
          exact ⟨hdd, hcd⟩

/-- Claim C10 witness: deserializing two records yields null stores with
no cascade active; discarding the zero-refcount record succeeds without
touching either store; a checkout of either record fails. -/
theorem claim_C10_witness :
    (DBState.setstate [{ id := 1, refcount := 1, kind := RecKind.fullText },
        { id := 2, refcount := 0, kind := RecKind.checkedOut }]
      = .ok { text_records :=
                [(2, { id := 2, refcount := 0, kind := RecKind.checkedOut }),
                 (1, { id := 1, refcount := 1, kind := RecKind.fullText })],
              delta_db := nullDatabase, checkout_db := nullDatabase,
              deferred_deletes := none })
    ∧ ({ text_records :=
           [(2, { id := 2, refcount := 0, kind := RecKind.checkedOut }),
            (1, { id := 1, refcount := 1, kind := RecKind.fullText })],
         delta_db := nullDatabase, checkout_db := nullDatabase,
         deferred_deletes := none } : DBState).delta_db = nullDatabase
    ∧ (∀ S', DBState.discard
          { text_records :=
              [(2, { id := 2, refcount := 0, kind := RecKind.checkedOut }),
               (1, { id := 1, refcount := 1, kind := RecKind.fullText })],
            delta_db := nullDatabase, checkout_db := nullDatabase,
            deferred_deletes := none } [2] = .ok S' →
        S'.delta_db = nullDatabase ∧ S'.checkout_db = nullDatabase)
    ∧ (∀ t S', checkout 5
          { text_records :=
              [(2, { id := 2, refcount := 0, kind := RecKind.checkedOut }),
               (1, { id := 1, refcount := 1, kind := RecKind.fullText })],
            delta_db := nullDatabase, checkout_db := nullDatabase,
            deferred_deletes := none } 1 ≠ .ok (t, S')) := by
  refine ⟨by rfl, by rfl, ?_, ?_⟩
  · intro S' h
    exact claim_C10.2.1 _ S' [2] (by decide) (by decide) h
  · intro t S'
    exact claim_C10.2.2 5 _ 1 t S' (by decide) (by decide)

/-- Claim C1: checking out a DeltaTextRecord with refcount at least one
first obtains the predecessor's fulltext by the recursive checkout
(which decrements the predecessor), applies this record's delta text
read from the delta store to it, and decrements this record's
refcount: if the refcount is now zero the record is deleted from the
database with the fulltext stored nowhere and without `free` (neither
store is touched, so the DeltaStore entry survives); otherwise the
fulltext is written to the checkout store under the lowercase hex key
of the id and the record is replaced by a CheckedOutTextRecord carrying
the remaining refcount.  In both cases the computed fulltext is
returned. -/
theorem claim_C1 {S S1 : DBState} {id pred : Nat} {r : TextRecord}
    {base_text delta_text text : String} (fuel : Nat)
    (hl : lookupR S.text_records id = some r)
    (hk : r.kind = .delta pred)
    (hrc : 1 ≤ r.refcount)
    (hpred : checkout fuel S pred = .ok (base_text, S1))
    (hdt : S1.delta_db.read id = .ok delta_text)
    (happ : applyDiff base_text delta_text = .ok text)
    (hl1 : lookupR S1.text_records id = some r)
    (hw : S1.checkout_db.writable = true) :
    checkout (fuel + 1) S id =
      if r.refcount = 1 then
        .ok (text, { S1 with text_records := eraseR S1.text_records id })
      else
        .ok (text,
          { S1 with
              text_records := replaceR S1.text_records id
                { id := id, refcount := r.refcount - 1, kind := .checkedOut }
              checkout_db := { S1.checkout_db with
                entries := setE S1.checkout_db.entries (toHexKey id) text } }) := by
  simp only [checkout_step_delta fuel hl hk, hpred, hdt, happ, hl1]
  by_cases h1 : r.refcount = 1
  · rw [if_pos h1, if_pos (by omega)]
  · rw [if_neg h1, if_neg (by omega)]
    rw [show S1.checkout_db.write (toHexKey id) text
        = .ok { S1.checkout_db with
            entries := setE S1.checkout_db.entries (toHexKey id) text } by
      simp [Store.write, hw]]
    simp [DBState.replace, hl1]

/-- A small output-pass database: record 1 is a FullTextRecord with
refcount 2, record 2 a DeltaTextRecord based on it with refcount 2. -/
def outState : DBState :=
  { text_records :=
      [(1, { id := 1, refcount := 2, kind := RecKind.fullText }),
       (2, { id := 2, refcount := 2, kind := RecKind.delta 1 })],
    delta_db := { entries := [(1, "a\n"), (2, "")], readable := true,
                  writable := false, deleteEnabled := false },
    checkout_db := { entries := [], readable := true, writable := true,
                     deleteEnabled := true },
    deferred_deletes := none }

/-- The state after `checkout 5 outState 1`: record 1 decremented to
refcount 1, everything else unchanged. -/
def outState1 : DBState :=
  { outState with text_records :=
      [(1, { id := 1, refcount := 1, kind := RecKind.fullText }),
       (2, { id := 2, refcount := 2, kind := RecKind.delta 1 })] }

/-- Claim C1 witness: checking out record 2 of `outState` (an empty RCS
delta leaves the base text unchanged) goes through the predecessor
checkout, stores the fulltext under the hex key of 2 and replaces
record 2 by a CheckedOutTextRecord with refcount 1. -/
theorem claim_C1_witness :
    checkout (5 + 1) outState 2 =
      if (2 : Int) = 1 then
        .ok ("a\n", { outState1 with
          text_records := eraseR outState1.text_records 2 })
      else
        .ok ("a\n", { outState1 with
            text_records := replaceR outState1.text_records 2
              { id := 2, refcount := (2 : Int) - 1, kind := .checkedOut }
            checkout_db := { outState1.checkout_db with
              entries := setE outState1.checkout_db.entries (toHexKey 2) "a\n" } }) :=
  @claim_C1 outState outState1 2 1
    { id := 2, refcount := 2, kind := RecKind.delta 1 } "a\n" "" "a\n" 5
    (by decide) (by decide) (by decide) (by decide) (by decide) (by decide)
    (by decide) (by decide)

/-! ### Recompute-refcounts characterization -/

/-- The key-and-kind projection of a record list; recompute_refcounts
only changes refcounts, so this projection is invariant. -/
def kindsOf (recs : RecList) : List (Nat × RecKind) :=
  recs.map (fun p => (p.1, p.2.kind))

/-- Whether a kind is a delta depending on `y`. -/
def isChildKind (y : Nat) : RecKind → Bool
  | .delta p => p = y
  | _ => false

theorem deltaChildren_eq_kinds (recs : RecList) (y : Nat) :
    deltaChildren recs y
      = ((kindsOf recs).filter (fun p => isChildKind y p.2)).length := by
  induction recs with
  | nil => rfl
  | cons p rest ih =>
    obtain ⟨k, r⟩ := p
    have : isChildOf y r = isChildKind y r.kind := by
      cases hk : r.kind <;> simp [isChildOf, isChildKind, hk]
    by_cases hc : isChildOf y r = true <;>
      simp [deltaChildren, kindsOf, List.filter_cons, hc, ← this, ih] <;>
      simpa [deltaChildren, kindsOf] using ih

theorem deltaChildren_congr {recs1 recs2 : RecList}
    (h : kindsOf recs1 = kindsOf recs2) (y : Nat) :
    deltaChildren recs1 y = deltaChildren recs2 y := by
  rw [deltaChildren_eq_kinds, deltaChildren_eq_kinds, h]

theorem deltaChildren_cons (k : Nat) (r : TextRecord) (rest : RecList) (y : Nat) :
    deltaChildren ((k, r) :: rest) y
      = (if isChildOf y r then 1 else 0) + deltaChildren rest y := by
  by_cases hc : isChildOf y r = true <;>
    simp [deltaChildren, List.filter_cons, hc, Nat.add_comm]

theorem lookupR_zeroed (recs : RecList) (k : Nat) :
    lookupR (recs.map (fun p => (p.1, { p.2 with refcount := 0 }))) k
      = (lookupR recs k).map (fun r => { r with refcount := 0 }) := by
  induction recs with
  | nil => simp [lookupR]
  | cons p rest ih =>
    obtain ⟨k0, r0⟩ := p
    by_cases hk : k0 = k <;> simp [lookupR, hk, ih]

theorem kindsOf_zeroed (recs : RecList) :
    kindsOf (recs.map (fun p => (p.1, { p.2 with refcount := 0 }))) = kindsOf recs := by
  induction recs with
  | nil => rfl
  | cons p rest ih => simpa [kindsOf] using congrArg (List.cons _) (by simpa [kindsOf] using ih)

theorem kindsOf_replaceR_same {recs : RecList} {k : Nat} {r r' : TextRecord}
    (hl : lookupR recs k = some r) (hkind : r'.kind = r.kind) :
    kindsOf (replaceR recs k r') = kindsOf recs := by
  induction recs with
  | nil => rfl
  | cons p rest ih =>
    obtain ⟨k0, r0⟩ := p
    by_cases hk : k0 = k
    · simp only [lookupR, if_pos hk] at hl
      obtain rfl : r0 = r := Option.some.inj hl
      simp [replaceR, hk, kindsOf, hkind]
    · simp only [lookupR, if_neg hk] at hl
      simp [replaceR, hk, kindsOf]
      exact (by simpa [kindsOf] using ih hl)

theorem bump_ok {recs recs' : RecList} {k : Nat}
    (h : bumpRefcount recs k = .ok recs') :
    ∃ r, lookupR recs k = some r
      ∧ recs' = replaceR recs k { r with refcount := r.refcount + 1 } := by
  unfold bumpRefcount at h
  cases hl : lookupR recs k with
  | none => rw [hl] at h; exact absurd h (by simp)
  | some r =>
    rw [hl] at h
    exact ⟨r, rfl, (Except.ok.inj h).symm⟩

theorem incDeps_kinds : ∀ (todo : List (Nat × TextRecord)) (acc acc' : RecList),
    incDeps todo acc = .ok acc' → kindsOf acc' = kindsOf acc := by
  intro todo
  induction todo with
  | nil =>
    intro acc acc' h
    simp only [incDeps] at h
    rw [← Except.ok.inj h]
  | cons p rest ih =>
    intro acc acc' h
    obtain ⟨k0, r0⟩ := p
    cases hk : r0.kind with
    | delta pred =>
      simp only [incDeps, hk] at h
      cases hb : bumpRefcount acc pred with
      | error e => rw [hb] at h; exact absurd h (by simp)
      | ok acc1 =>
        rw [hb] at h
        obtain ⟨q, hq, rfl⟩ := bump_ok hb
        rw [ih _ acc' h]
        exact kindsOf_replaceR_same hq rfl
    | fullText =>
      simp only [incDeps, hk] at h
      exact ih acc acc' h
    | checkedOut =>
      simp only [incDeps, hk] at h
      exact ih acc acc' h

theorem incDeps_lookup : ∀ (todo : List (Nat × TextRecord)) (acc acc' : RecList),
    incDeps todo acc = .ok acc' →
    ∀ k r, lookupR acc k = some r →
      lookupR acc' k
        = some { r with refcount := r.refcount + (deltaChildren todo k : Int) } := by
  intro todo
  induction todo with
  | nil =>
    intro acc acc' h k r hl
    simp only [incDeps] at h
    rw [← Except.ok.inj h, hl]
    simp [deltaChildren]
  | cons p rest ih =>
    intro acc acc' h k r hl
    obtain ⟨k0, r0⟩ := p
    rw [deltaChildren_cons]
    cases hk : r0.kind with
    | delta pred =>
      simp only [incDeps, hk] at h
      cases hb : bumpRefcount acc pred with
      | error e => rw [hb] at h; exact absurd h (by simp)
      | ok acc1 =>
        rw [hb] at h
        obtain ⟨q, hq, rfl⟩ := bump_ok hb
        by_cases hkp : k = pred
        · subst hkp
          have hqr : q = r := Option.some.inj (hq.symm.trans hl)
          subst hqr
          have hl1 : lookupR (replaceR acc k { q with refcount := q.refcount + 1 }) k
              = some { q with refcount := q.refcount + 1 } := by
            rw [lookupR_replaceR_self, hq]; rfl
          have h2 := ih _ _ h k _ hl1
          rw [h2]
          have hchild : isChildOf k r0 = true := by simp [isChildOf, hk]
          simp only [hchild, if_true]
          congr 1
          simp only [TextRecord.mk.injEq]
          refine ⟨trivial, ?_, trivial⟩
          push_cast
          ring
        · have hl1 : lookupR (replaceR acc pred { q with refcount := q.refcount + 1 }) k
              = some r := by
            rw [lookupR_replaceR_ne _ _ hkp]; exact hl
          have := ih _ _ h k _ hl1
          rw [this]
          have hchild : isChildOf k r0 = false := by
            simp [isChildOf, hk]
            exact fun hc => absurd hc.symm hkp
          simp [hchild]
    | fullText =>
      simp only [incDeps, hk] at h
      have := ih _ _ h k _ hl
      rw [this]
      have hchild : isChildOf k r0 = false := by simp [isChildOf, hk]
      simp [hchild]
    | checkedOut =>
      simp only [incDeps, hk] at h
      have := ih _ _ h k _ hl
      rw [this]
      have hchild : isChildOf k r0 = false := by simp [isChildOf, hk]
      simp [hchild]

/-- The number of content-bearing file-items revisions with id `k`. -/
def consumerCount (fi : List FileItem) (k : Nat) : Nat :=
  (fi.filter (fun it => it.isModification && it.id == k)).length

theorem consumerCount_cons (it : FileItem) (rest : List FileItem) (k : Nat) :
    consumerCount (it :: rest) k
      = (if it.isModification && it.id == k then 1 else 0)
        + consumerCount rest k := by
  by_cases hc : (it.isModification && it.id == k) = true <;>
    simp [consumerCount, List.filter_cons, hc, Nat.add_comm]

theorem incConsumers_kinds : ∀ (fi : List FileItem) (acc acc' : RecList),
    incConsumers fi acc = .ok acc' → kindsOf acc' = kindsOf acc := by
  intro fi
  induction fi with
  | nil =>
    intro acc acc' h
    simp only [incConsumers] at h
    rw [← Except.ok.inj h]
  | cons it rest ih =>
    intro acc acc' h
    by_cases hm : it.isModification = true
    · simp only [incConsumers, hm, if_true] at h
      cases hb : bumpRefcount acc it.id with
      | error e => rw [hb] at h; exact absurd h (by simp)
      | ok acc1 =>
        rw [hb] at h
        obtain ⟨q, hq, rfl⟩ := bump_ok hb
        rw [ih _ acc' h]
        exact kindsOf_replaceR_same hq rfl
    · simp only [incConsumers, hm, if_false] at h
      exact ih acc acc' h

theorem incConsumers_lookup : ∀ (fi : List FileItem) (acc acc' : RecList),
    incConsumers fi acc = .ok acc' →
    ∀ k r, lookupR acc k = some r →
      lookupR acc' k
        = some { r with refcount := r.refcount + (consumerCount fi k : Int) } := by
  intro fi
  induction fi with
  | nil =>
    intro acc acc' h k r hl
    simp only [incConsumers] at h
    rw [← Except.ok.inj h, hl]
    simp [consumerCount]
  | cons it rest ih =>
    intro acc acc' h k r hl
    rw [consumerCount_cons]
    by_cases hm : it.isModification = true
    · simp only [incConsumers, hm, if_true] at h
      cases hb : bumpRefcount acc it.id with
      | error e => rw [hb] at h; exact absurd h (by simp)
      | ok acc1 =>
        rw [hb] at h
        obtain ⟨q, hq, rfl⟩ := bump_ok hb
        by_cases hkp : k = it.id
        · have hqr : q = r := by
            rw [hkp] at hl
            exact Option.some.inj (hq.symm.trans hl)
          subst hqr
          have hl1 : lookupR (replaceR acc it.id { q with refcount := q.refcount + 1 }) k
              = some { q with refcount := q.refcount + 1 } := by
            rw [hkp, lookupR_replaceR_self, hq]; rfl
          have h2 := ih _ _ h k _ hl1
          rw [h2]
          have hcond : (it.isModification && it.id == k) = true := by
            simp [hm, hkp]
          simp only [hcond, if_true]
          congr 1
          simp only [TextRecord.mk.injEq]
          refine ⟨trivial, ?_, trivial⟩
          push_cast
          ring
        · have hl1 : lookupR (replaceR acc it.id { q with refcount := q.refcount + 1 }) k
              = some r := by
            rw [lookupR_replaceR_ne _ _ hkp]; exact hl
          have h2 := ih _ _ h k _ hl1
          rw [h2]
          have hcond : (it.isModification && it.id == k) = false := by
            simp
            intro
            exact fun hc => absurd hc.symm hkp
          simp [hcond]
    · simp only [incConsumers, hm, if_false] at h
      have h2 := ih _ _ h k _ hl
      rw [h2]
      have hcond : (it.isModification && it.id == k) = false := by
        simp [hm]
      simp [hcond]

theorem consumerCount_nodup : ∀ {fi : List FileItem},
    (fi.map FileItem.id).Nodup → ∀ k,
    consumerCount fi k
      = if fi.any (fun it => it.isModification && it.id == k) then 1 else 0 := by
  intro fi
  induction fi with
  | nil => intro _ k; simp [consumerCount]
  | cons it rest ih =>
    intro hn k
    simp only [List.map_cons, List.nodup_cons] at hn
    rw [consumerCount_cons]
    by_cases hc : (it.isModification && it.id == k) = true
    · have hzero : consumerCount rest k = 0 := by
        have : rest.filter (fun x => x.isModification && x.id == k) = [] := by
          rw [List.filter_eq_nil]
          intro a ha
          simp only [Bool.and_eq_true, beq_iff_eq, not_and]
          intro _ haid
          have hidk : it.id = k := by
            have := hc
            simp only [Bool.and_eq_true, beq_iff_eq] at this
            exact this.2
          exact hn.1 (by rw [← hidk] at haid; exact haid ▸ List.mem_map_of_mem FileItem.id ha)
        simp [consumerCount, this]
      have hany : (it :: rest).any (fun x => x.isModification && x.id == k) = true := by
        simp only [List.any_cons, Bool.or_eq_true]
        exact Or.inl hc
      rw [hzero, hany, if_pos rfl, hc, if_pos rfl]
    · have hcf : (it.isModification && it.id == k) = false := by
        simpa using hc
      have hfalse : ¬(it.isModification = true ∧ it.id = k) := by
        intro hcontra
        exact hc (by simp [hcontra.1, hcontra.2])
      rw [hcf, ih hn.2 k]
      simp [hfalse]

/-- Claim C4: immediately after `recompute_refcounts(file_items)` and
before any discard, the database keeps the same ids and variants, and
the refcount of every record equals the number of DeltaTextRecords in
the database whose pred_id is that record's id, plus one when the
file-items view contains a content-bearing revision with that id (the
view lists each revision id at most once). -/
theorem claim_C4 {S S' : DBState} {fi : List FileItem}
    (hfi : (fi.map FileItem.id).Nodup)
    (h : S.recompute_refcounts fi = .ok S') :
    kindsOf S'.text_records = kindsOf S.text_records
    ∧ ∀ k r, lookupR S.text_records k = some r →
        lookupR S'.text_records k = some { r with refcount :=
          (deltaChildren S'.text_records k : Int)
            + (if fi.any (fun it => it.isModification && it.id == k) then 1
               else 0) } := by
  cases h1 : incDeps (S.text_records.map (fun p => (p.1, { p.2 with refcount := 0 })))
      (S.text_records.map (fun p => (p.1, { p.2 with refcount := 0 }))) with
  | error e =>
    have he : S.recompute_refcounts fi = .error e := by
      simp only [DBState.recompute_refcounts, h1]
    rw [he] at h
    exact absurd h (by simp)
  | ok recs1 =>
    cases h2 : incConsumers fi recs1 with
    | error e =>
      have he : S.recompute_refcounts fi = .error e := by
        simp only [DBState.recompute_refcounts, h1, h2]
      rw [he] at h
      exact absurd h (by simp)
    | ok recs2 =>
      have hre : S.recompute_refcounts fi = .ok { S with text_records := recs2 } := by
        simp only [DBState.recompute_refcounts, h1, h2]
      rw [hre] at h
      obtain rfl : { S with text_records := recs2 } = S' := Except.ok.inj h
      have hk1 := incDeps_kinds _ _ _ h1
      have hk2 := incConsumers_kinds _ _ _ h2
      have hkz := kindsOf_zeroed S.text_records
      have hkinds : kindsOf recs2 = kindsOf S.text_records := by
        rw [hk2, hk1, hkz]
      refine ⟨hkinds, ?_⟩
      intro k r hl
      have hlz : lookupR (S.text_records.map
          (fun p => (p.1, { p.2 with refcount := 0 }))) k
          = some { r with refcount := 0 } := by
        rw [lookupR_zeroed, hl]; rfl
      have hl1 := incDeps_lookup _ _ _ h1 k _ hlz
      have hl2 := incConsumers_lookup _ _ _ h2 k _ hl1
      rw [show ({ S with text_records := recs2 } : DBState).text_records
          = recs2 from rfl, hl2]
      have hcc : deltaChildren (S.text_records.map
          (fun p => (p.1, { p.2 with refcount := 0 }))) k
          = deltaChildren recs2 k :=
        deltaChildren_congr (by rw [hkz, ← hkinds]) k
      congr 1
      simp only [TextRecord.mk.injEq]
      refine ⟨trivial, ?_, trivial⟩
      rw [← hcc, consumerCount_nodup hfi k]
      push_cast
      ring

/-- A two-record database before refcount recomputation (stale
refcounts 9). -/
def S4base : DBState :=
  { text_records :=
      [(1, { id := 1, refcount := 9, kind := RecKind.fullText }),
       (2, { id := 2, refcount := 9, kind := RecKind.delta 1 })],
    delta_db := nullDatabase, checkout_db := nullDatabase,
    deferred_deletes := none }

/-- File-items view for the witness: revision 2 is content-bearing,
revision 1 is a pure deletion. -/
def fi4 : List FileItem := [{ id := 2, isModification := true },
                            { id := 1, isModification := false }]

/-- `S4base` after recompute_refcounts: record 1 is needed once (by the
delta of record 2), record 2 once (by the consumer). -/
def S4after : DBState :=
  { S4base with text_records :=
      [(1, { id := 1, refcount := 1, kind := RecKind.fullText }),
       (2, { id := 2, refcount := 1, kind := RecKind.delta 1 })] }

/-- Claim C4 witness: the recomputation postcondition at the concrete
two-record database. -/
theorem claim_C4_witness :
    (kindsOf S4after.text_records = kindsOf S4base.text_records)
    ∧ lookupR S4after.text_records 1
        = some { ({ id := 1, refcount := 9, kind := RecKind.fullText }
            : TextRecord) with
            refcount := (deltaChildren S4after.text_records 1 : Int)
              + (if fi4.any (fun it => it.isModification && it.id == 1) then 1
                 else 0) }
    ∧ lookupR S4after.text_records 2
        = some { ({ id := 2, refcount := 9, kind := RecKind.delta 1 }
            : TextRecord) with
            refcount := (deltaChildren S4after.text_records 2 : Int)
              + (if fi4.any (fun it => it.isModification && it.id == 2) then 1
                 else 0) } :=
  ⟨(@claim_C4 S4base S4after fi4 (by decide) (by decide)).1,
   (@claim_C4 S4base S4after fi4 (by decide) (by decide)).2 1 _ (by decide),
   (@claim_C4 S4base S4after fi4 (by decide) (by decide)).2 2 _ (by decide)⟩

theorem mem_replaceR_or {recs : RecList} {k : Nat} {r' : TextRecord}
    {p : Nat × TextRecord} (h : p ∈ replaceR recs k r') :
    p ∈ recs ∨ p.2 = r' := by
  induction recs with
  | nil => simpa [replaceR] using h
  | cons q rest ih =>
    obtain ⟨k0, r0⟩ := q
    by_cases hk : k0 = k
    · simp only [replaceR, if_pos hk] at h
      rcases List.mem_cons.mp h with h1 | h1
      · exact Or.inr (by rw [h1])
      · exact Or.inl (List.mem_cons_of_mem _ h1)
    · simp only [replaceR, if_neg hk] at h
      rcases List.mem_cons.mp h with h1 | h1
      · exact Or.inl (h1 ▸ List.mem_cons_self _ _)
      · rcases ih h1 with h2 | h2
        · exact Or.inl (List.mem_cons_of_mem _ h2)
        · exact Or.inr h2

theorem incDeps_nonneg : ∀ (todo : List (Nat × TextRecord)) (acc acc' : RecList),
    incDeps todo acc = .ok acc' → (∀ p ∈ acc, 0 ≤ p.2.refcount) →
    ∀ p ∈ acc', 0 ≤ p.2.refcount := by
  intro todo
  induction todo with
  | nil =>
    intro acc acc' h hpos
    simp only [incDeps] at h
    rw [← Except.ok.inj h]
    exact hpos
  | cons q rest ih =>
    intro acc acc' h hpos
    obtain ⟨k0, r0⟩ := q
    cases hk : r0.kind with
    | delta pred =>
      simp only [incDeps, hk] at h
      cases hb : bumpRefcount acc pred with
      | error e => rw [hb] at h; exact absurd h (by simp)
      | ok acc1 =>
        rw [hb] at h
        obtain ⟨q0, hq, rfl⟩ := bump_ok hb
        refine ih _ _ h ?_
        intro p hp
        rcases mem_replaceR_or hp with h1 | h1
        · exact hpos p h1
        · have := hpos _ (lookupR_eq_some_mem hq)
          rw [h1]
          simp only at this ⊢
          omega
    | fullText => simp only [incDeps, hk] at h; exact ih _ _ h hpos
    | checkedOut => simp only [incDeps, hk] at h; exact ih _ _ h hpos

theorem incConsumers_nonneg : ∀ (fi : List FileItem) (acc acc' : RecList),
    incConsumers fi acc = .ok acc' → (∀ p ∈ acc, 0 ≤ p.2.refcount) →
    ∀ p ∈ acc', 0 ≤ p.2.refcount := by
  intro fi
  induction fi with
  | nil =>
    intro acc acc' h hpos
    simp only [incConsumers] at h
    rw [← Except.ok.inj h]
    exact hpos
  | cons it rest ih =>
    intro acc acc' h hpos
    by_cases hm : it.isModification = true
    · simp only [incConsumers, hm, if_true] at h
      cases hb : bumpRefcount acc it.id with
      | error e => rw [hb] at h; exact absurd h (by simp)
      | ok acc1 =>
        rw [hb] at h
        obtain ⟨q0, hq, rfl⟩ := bump_ok hb
        refine ih _ _ h ?_
        intro p hp
        rcases mem_replaceR_or hp with h1 | h1
        · exact hpos p h1
        · have := hpos _ (lookupR_eq_some_mem hq)
          rw [h1]
          simp only at this ⊢
          omega
    · simp only [incConsumers, hm, if_false] at h
      exact ih _ _ h hpos

theorem keys_of_kindsOf (recs : RecList) :
    (kindsOf recs).map Prod.fst = recs.map Prod.fst := by
  induction recs with
  | nil => rfl
  | cons p rest ih => simpa [kindsOf] using ih

theorem recompute_fields {S S1 : DBState} {fi : List FileItem}
    (h : S.recompute_refcounts fi = .ok S1) :
    S1.delta_db = S.delta_db ∧ S1.checkout_db = S.checkout_db
    ∧ S1.deferred_deletes = S.deferred_deletes
    ∧ kindsOf S1.text_records = kindsOf S.text_records
    ∧ (∀ p ∈ S1.text_records, 0 ≤ p.2.refcount) := by
  cases h1 : incDeps (S.text_records.map (fun p => (p.1, { p.2 with refcount := 0 })))
      (S.text_records.map (fun p => (p.1, { p.2 with refcount := 0 }))) with
  | error e =>
    have he : S.recompute_refcounts fi = .error e := by
      simp only [DBState.recompute_refcounts, h1]
    rw [he] at h
    exact absurd h (by simp)
  | ok recs1 =>
    cases h2 : incConsumers fi recs1 with
    | error e =>
      have he : S.recompute_refcounts fi = .error e := by
        simp only [DBState.recompute_refcounts, h1, h2]
      rw [he] at h
      exact absurd h (by simp)
    | ok recs2 =>
      have hre : S.recompute_refcounts fi = .ok { S with text_records := recs2 } := by
        simp only [DBState.recompute_refcounts, h1, h2]
      rw [hre] at h
      obtain rfl : { S with text_records := recs2 } = S1 := Except.ok.inj h
      have hz : ∀ p ∈ S.text_records.map
          (fun p => (p.1, { p.2 with refcount := 0 })), 0 ≤ p.2.refcount := by
        intro p hp
        obtain ⟨q, -, rfl⟩ := List.mem_map.mp hp
        simp
      refine ⟨rfl, rfl, rfl, ?_, ?_⟩
      · rw [show ({ S with text_records := recs2 } : DBState).text_records
            = recs2 from rfl, incConsumers_kinds _ _ _ h2, incDeps_kinds _ _ _ h1,
          kindsOf_zeroed]
      · exact incConsumers_nonneg _ _ _ h2 (incDeps_nonneg _ _ _ h1 hz)

/-- Claim C3: for a per-file database with distinct record ids and no
cascade in progress, after `recompute_refcounts(file_items)` followed
by `free_unused()`, every surviving record has a strictly positive
refcount. -/
theorem claim_C3 {S S1 S2 : DBState} {fi : List FileItem}
    (hn : (S.text_records.map Prod.fst).Nodup)
    (hdef : S.deferred_deletes = none)
    (h1 : S.recompute_refcounts fi = .ok S1)
    (h2 : S1.free_unused = .ok S2) :
    ∀ p ∈ S2.text_records, 0 < p.2.refcount := by
  obtain ⟨-, -, hdef1, hkinds, hnonneg⟩ := recompute_fields h1
  have hn1 : (S1.text_records.map Prod.fst).Nodup := by
    rw [← keys_of_kindsOf, hkinds, keys_of_kindsOf]
    exact hn
  rw [hdef] at hdef1
  unfold DBState.free_unused DBState.discard at h2
  rw [hdef1] at h2
  cases hrun : runCascade
      (2 * S1.text_records.length
        + ((S1.text_records.filter (fun p => p.2.refcount = 0)).map Prod.fst).length
        + 1)
      S1.text_records S1.delta_db S1.checkout_db
      ((S1.text_records.filter (fun p => p.2.refcount = 0)).map Prod.fst).reverse with
  | none => rw [hrun] at h2; exact absurd h2 (by simp)
  | some res =>
    rw [hrun] at h2
    cases res with
    | error e => exact absurd h2 (by simp)
    | ok triple =>
      obtain ⟨recs', ddb', cdb'⟩ := triple
      obtain rfl : ({ text_records := recs'
                      delta_db := ddb'
                      checkout_db := cdb'
                      deferred_deletes := none } : DBState) = S2 :=
        Except.ok.inj h2
      refine runCascade_all_pos _ _ _ _ _ _ _ _ hn1 ?_ hrun
      intro p hp hple
      have hz : p.2.refcount = 0 := le_antisymm hple (hnonneg p hp)
      rw [List.mem_reverse]
      exact List.mem_map_of_mem Prod.fst
        (List.mem_filter.mpr ⟨hp, by simp [hz]⟩)

/-- Claim C3 witness: recompute followed by free_unused on the concrete
two-record database leaves both records with refcount 1. -/
theorem claim_C3_witness :
    0 < (({ id := 1, refcount := 1, kind := RecKind.fullText }) : TextRecord).refcount :=
  @claim_C3 S4base S4after S4after fi4
    (by decide) (by decide) (by decide) (by decide)
    (1, { id := 1, refcount := 1, kind := RecKind.fullText }) (by decide)

/-- Claim C5: for a non-head trunk revision arriving while the running
stream represents stream_revision, `set_revision_info` computes the
reverse delta with invert_diff (the stream mutates to this revision's
content), emits a DeltaTextRecord whose id is the stream revision's id
and whose pred_id is this revision's id, storing the reverse delta
bytes, and makes this revision the stream revision; when the revision
is revision 1.1 it additionally emits a FullTextRecord for it with the
current stream content and drops the stream. -/
theorem claim_C5 {oids : List (String × Nat)} {st : SinkState}
    {db db1 db2 : DBState}
    {revision text stext srev newText reverse_delta : String}
    {cvs_rev_id sid : Nat}
    (hseen : revision ∉ st.revisions_seen)
    (htrunk : isTrunkRevision revision = true)
    (hhead : st.head_revision ≠ some revision)
    (hstream : st.stream = some stext)
    (hsrev : st.stream_revision = some srev)
    (hoid : lookupIds oids revision = some cvs_rev_id)
    (hsid : lookupIds oids srev = some sid)
    (hinv : invertDiff stext text = .ok (newText, reverse_delta))
    (hw1 : writeout db { id := sid, refcount := 0, kind := .delta cvs_rev_id }
        reverse_delta = .ok db1)
    (hw2 : st.revision_1_1 = some revision →
      writeout db1 { id := cvs_rev_id, refcount := 0, kind := .fullText }
        newText = .ok db2) :
    set_revision_info oids st db revision text =
      (if st.revision_1_1 = some revision then
        .ok ({ st with revisions_seen := revision :: st.revisions_seen
                       stream := none
                       stream_revision := none }, db2)
      else
        .ok ({ st with revisions_seen := revision :: st.revisions_seen
                       stream := some newText
                       stream_revision := some revision }, db1)) := by
  by_cases h11 : st.revision_1_1 = some revision
  · rw [if_pos h11]
    simp only [set_revision_info, if_neg hseen, hoid, htrunk, if_true,
      if_neg hhead, hstream, hsrev, hinv, hsid, hw1, if_pos h11, hw2 h11]
  · rw [if_neg h11]
    simp only [set_revision_info, if_neg hseen, hoid, htrunk, if_true,
      if_neg hhead, hstream, hsrev, hinv, hsid, hw1, if_neg h11]

/-- Sink state for the C5 witness: head 1.2 already seen as fulltext,
the stream holding its content. -/
def sink5 : SinkState :=
  { base_revisions := [], head_revision := some "1.2",
    revision_1_1 := some "1.1", revisions_seen := ["1.2"],
    stream := some "c\n", stream_revision := some "1.2" }

/-- Original-ids map for the C5 witness. -/
def oids5 : List (String × Nat) := [("1.2", 12), ("1.1", 11)]

/-- Recorder database for the C5 witness, before revision 1.1 arrives. -/
def db5 : DBState :=
  { text_records := [], delta_db := freshDeltasStore,
    checkout_db := nullDatabase, deferred_deletes := none }

/-- `db5` after the DeltaTextRecord for 1.2 is written out. -/
def db5a : DBState :=
  { text_records := [(12, { id := 12, refcount := 0, kind := RecKind.delta 11 })],
    delta_db := { freshDeltasStore with entries := [(12, "d1 1\na1 1\nc\n")] },
    checkout_db := nullDatabase, deferred_deletes := none }

/-- `db5a` after the FullTextRecord for 1.1 is written out. -/
def db5b : DBState :=
  { text_records :=
      [(11, { id := 11, refcount := 0, kind := RecKind.fullText }),
       (12, { id := 12, refcount := 0, kind := RecKind.delta 11 })],
    delta_db := { freshDeltasStore with
      entries := [(12, "d1 1\na1 1\nc\n"), (11, "b\n")] },
    checkout_db := nullDatabase, deferred_deletes := none }

/-- Claim C5 witness: revision 1.1 (non-head, trunk, equal to
revision_1_1) arrives with the backward delta from 1.2; the reverse
delta is stored for 1.2, the fulltext for 1.1, and the stream is
dropped. -/
theorem claim_C5_witness :
    set_revision_info oids5 sink5 db5 "1.1" "d1 1\na1 1\nb\n" =
      (if sink5.revision_1_1 = some "1.1" then
        .ok ({ sink5 with revisions_seen := "1.1" :: sink5.revisions_seen
                          stream := none
                          stream_revision := none }, db5b)
      else
        .ok ({ sink5 with revisions_seen := "1.1" :: sink5.revisions_seen
                          stream := some "b\n"
                          stream_revision := some "1.1" }, db5a)) :=
  @claim_C5 oids5 sink5 db5 db5a db5b "1.1" "d1 1\na1 1\nb\n" "c\n" "1.2"
    "b\n" "d1 1\na1 1\nc\n" 11 12
    (by decide) (by decide) (by decide) (by decide) (by decide)
    (by decide) (by decide) (by decide) (by decide) (by decide)

theorem ok_pair_inj {α β : Type} {x x' : α} {y y' : β}
    (h : (Except.ok (x, y) : Except Err (α × β)) = .ok (x', y')) :
    x = x' ∧ y = y' := by
  have h2 := Except.ok.inj h
  exact ⟨congrArg Prod.fst h2, congrArg Prod.snd h2⟩

theorem writeout_cdb {db db' : DBState} {r : TextRecord} {t : String}
    (h : writeout db r t = .ok db') : db'.checkout_db = db.checkout_db := by
  cases ha : db.add r with
  | error e =>
    rw [show writeout db r t = .error e by simp [writeout, ha]] at h
    exact absurd h (by simp)
  | ok db1 =>
    cases hw : db1.delta_db.write r.id t with
    | error e =>
      rw [show writeout db r t = .error e by simp [writeout, ha, hw]] at h
      exact absurd h (by simp)
    | ok dd =>
      rw [show writeout db r t = .ok { db1 with delta_db := dd } by
        simp [writeout, ha, hw]] at h
      obtain rfl := Except.ok.inj h
      rw [show ({ db1 with delta_db := dd } : DBState).checkout_db
          = db1.checkout_db from rfl, add_ok_fields ha]

theorem set_revision_info_cdb {oids : List (String × Nat)} {st : SinkState}
    {db : DBState} {revision text : String} {st' : SinkState} {db' : DBState}
    (h : set_revision_info oids st db revision text = .ok (st', db')) :
    db'.checkout_db = db.checkout_db := by
  by_cases hseen : revision ∈ st.revisions_seen
  · simp only [set_revision_info, if_pos hseen] at h
    obtain ⟨-, rfl⟩ := ok_pair_inj h
    rfl
  · cases hoid : lookupIds oids revision with
    | none =>
      simp only [set_revision_info, if_neg hseen, hoid] at h
      exact absurd h (by simp)
    | some cid =>
      by_cases htrunk : isTrunkRevision revision = true
      · by_cases hhead : st.head_revision = some revision
        · by_cases h11 : st.revision_1_1 = some revision
          · simp only [set_revision_info, if_neg hseen, hoid, htrunk, if_true,
              if_pos hhead, if_pos h11] at h
            cases hw2 : writeout db
                { id := cid, refcount := 0, kind := RecKind.fullText } text with
            | error e => rw [hw2] at h; exact absurd h (by simp)
            | ok db2 =>
              rw [hw2] at h
              obtain ⟨-, rfl⟩ := ok_pair_inj h
              exact writeout_cdb hw2
          · simp only [set_revision_info, if_neg hseen, hoid, htrunk, if_true,
              if_pos hhead, if_neg h11] at h
            obtain ⟨-, rfl⟩ := ok_pair_inj h
            rfl
        · cases hstream : st.stream with
          | none =>
            cases hsrev : st.stream_revision <;>
              · simp only [set_revision_info, if_neg hseen, hoid, htrunk,
                  if_true, if_neg hhead, hstream, hsrev] at h
                exact absurd h (by simp)
          | some stext =>
            cases hsrev : st.stream_revision with
            | none =>
              simp only [set_revision_info, if_neg hseen, hoid, htrunk,
                if_true, if_neg hhead, hstream, hsrev] at h
              exact absurd h (by simp)
            | some srev =>
              cases hinv : invertDiff stext text with
              | error e =>
                simp only [set_revision_info, if_neg hseen, hoid, htrunk,
                  if_true, if_neg hhead, hstream, hsrev, hinv] at h
                cases e <;> simp at h
              | ok pr =>
                obtain ⟨newText, rdelta⟩ := pr
                cases hsid : lookupIds oids srev with
                | none =>
                  simp only [set_revision_info, if_neg hseen, hoid, htrunk,
                    if_true, if_neg hhead, hstream, hsrev, hinv, hsid] at h
                  exact absurd h (by simp)
                | some sid =>
                  cases hw1 : writeout db
                      { id := sid, refcount := 0, kind := RecKind.delta cid }
                      rdelta with
                  | error e =>
                    simp only [set_revision_info, if_neg hseen, hoid, htrunk,
                      if_true, if_neg hhead, hstream, hsrev, hinv, hsid,
                      hw1] at h
                    exact absurd h (by simp)
                  | ok db1 =>
                    by_cases h11 : st.revision_1_1 = some revision
                    · simp only [set_revision_info, if_neg hseen, hoid, htrunk,
                        if_true, if_neg hhead, hstream, hsrev, hinv, hsid, hw1,
                        if_pos h11] at h
                      cases hw2 : writeout db1
                          { id := cid, refcount := 0, kind := RecKind.fullText }
                          newText with
                      | error e => rw [hw2] at h; exact absurd h (by simp)
                      | ok db2 =>
                        rw [hw2] at h
                        obtain ⟨-, rfl⟩ := ok_pair_inj h
                        rw [writeout_cdb hw2, writeout_cdb hw1]
                    · simp only [set_revision_info, if_neg hseen, hoid, htrunk,
                        if_true, if_neg hhead, hstream, hsrev, hinv, hsid, hw1,
                        if_neg h11] at h
                      obtain ⟨-, rfl⟩ := ok_pair_inj h
                      exact writeout_cdb hw1
      · cases hbase : lookupE st.base_revisions revision with
        | none =>
          simp only [set_revision_info, if_neg hseen, hoid, htrunk, hbase] at h
          exact absurd h (by simp)
        | some baseRev =>
          cases hbid : lookupIds oids baseRev with
          | none =>
            simp only [set_revision_info, if_neg hseen, hoid, htrunk, hbase,
              hbid] at h
            exact absurd h (by simp)
          | some bid =>
            cases hw : writeout db
                { id := cid, refcount := 0, kind := RecKind.delta bid } text with
            | error e =>
              simp only [set_revision_info, if_neg hseen, hoid, htrunk, hbase,
                hbid, hw] at h
              exact absurd h (by simp)
            | ok db1 =>
              simp only [set_revision_info, if_neg hseen, hoid, htrunk, hbase,
                hbid, hw] at h
              obtain ⟨-, rfl⟩ := ok_pair_inj h
              exact writeout_cdb hw

theorem runSink_cdb : ∀ (events : List SinkEvent) (oids : List (String × Nat))
    (st : SinkState) (db : DBState) (st' : SinkState) (db' : DBState),
    runSink oids events st db = .ok (st', db') →
    db'.checkout_db = db.checkout_db := by
  intro events
  induction events with
  | nil =>
    intro oids st db st' db' h
    simp only [runSink] at h
    obtain ⟨-, rfl⟩ := ok_pair_inj h
    rfl
  | cons e rest ih =>
    intro oids st db st' db' h
    simp only [runSink] at h
    cases ha : applyEvent oids st db e with
    | error err => rw [ha] at h; exact absurd h (by simp)
    | ok pr =>
      obtain ⟨st1, db1⟩ := pr
      rw [ha] at h
      have h1 := ih oids st1 db1 st' db' h
      rw [h1]
      cases e with
      | head revision =>
        obtain ⟨-, rfl⟩ := ok_pair_inj ha.symm.symm
        rfl
      | define revision branches next =>
        obtain ⟨-, rfl⟩ := ok_pair_inj ha.symm.symm
        rfl
      | revInfo revision text => exact set_revision_info_cdb ha

theorem runCascade_cdb_const : ∀ fuel (recs : RecList) (ddb : Store Nat)
    (cdb : Store String) work recs' ddb' cdb',
    cdb.deleteEnabled = false →
    runCascade fuel recs ddb cdb work = some (.ok (recs', ddb', cdb')) →
    cdb' = cdb := by
  intro fuel
  induction fuel with
  | zero => intro recs ddb cdb work recs' ddb' cdb' _ h; simp [runCascade] at h
  | succ fuel ih =>
    intro recs ddb cdb work recs' ddb' cdb' hc h
    match work with
    | [] =>
      rw [runCascade_nil] at h
      simp only [Option.some.injEq, Except.ok.injEq, Prod.mk.injEq] at h
      exact h.2.2.symm
    | id :: rest =>
      cases hl : lookupR recs id with
      | none => rw [runCascade_cons_absent fuel ddb cdb rest hl] at h; simp at h
      | some r =>
        by_cases hrc : r.refcount = 0
        · cases hk : r.kind with
          | fullText =>
            rw [runCascade_cons_full fuel ddb cdb rest hl hrc hk] at h
            exact ih _ _ _ _ _ _ _ hc h
          | checkedOut =>
            rw [runCascade_cons_co fuel ddb cdb rest hl hrc hk,
              Store.del_disabled _ hc] at h
            exact ih _ _ _ _ _ _ _ hc h
          | delta pred =>
            cases hp : lookupR recs pred with
            | none =>
              rw [runCascade_cons_delta_absent fuel ddb cdb rest hl hrc hk hp] at h
              simp at h
            | some p =>
              rw [runCascade_cons_delta fuel ddb cdb rest hl hrc hk hp] at h
              exact ih _ _ _ _ _ _ _ hc h
        · rw [runCascade_cons_nonzero fuel ddb cdb rest hl hrc] at h
          simp at h

theorem discard_cdb {S S' : DBState} {ids : List Nat}
    (hc : S.checkout_db.deleteEnabled = false) (h : S.discard ids = .ok S') :
    S'.checkout_db = S.checkout_db := by
  unfold DBState.discard at h
  cases hdef : S.deferred_deletes with
  | some lst =>
    rw [hdef] at h
    obtain rfl := Except.ok.inj h
    rfl
  | none =>
    rw [hdef] at h
    cases hrun : runCascade (2 * S.text_records.length + ids.length + 1)
        S.text_records S.delta_db S.checkout_db ids.reverse with
    | none => rw [hrun] at h; simp at h
    | some res =>
      rw [hrun] at h
      cases res with
      | error e => exact absurd h (by simp)
      | ok triple =>
        obtain ⟨recs', ddb', cdb'⟩ := triple
        obtain rfl := Except.ok.inj h
        exact runCascade_cdb_const _ _ _ _ _ _ _ _ hc hrun

/-- Parser events of a two-revision trunk file: head 1.2 with fulltext,
then 1.1 as a backward delta. -/
def ev7 : List SinkEvent :=
  [.head "1.2", .define "1.2" [] (some "1.1"), .define "1.1" [] none,
   .revInfo "1.2" "c\n", .revInfo "1.1" "d1 1\na1 1\nb\n"]

/-- Claim C7 counterexample: running the filter pass over the
two-revision file with a file-items view that keeps only revision 1.1
returns a DeltaStore holding the fulltext of 1.1 --- the pass started
from an empty DeltaStore, wrote both texts into it and deleted the
unused delta again when freeing record 12, so the DeltaStore is
modified during the pass; no TextRecordDatabase snapshot is loaded from
a TreeStore, and only the checkout store is a null store.  This
refutes the claim that the pass loads snapshots from the TreeStore,
rebinds both backing stores to null stores and never modifies the
DeltaStore. -/
theorem claim_C7_counterexample :
    process_file { rcs_deltas := freshDeltasStore, rcs_trees := [] } 1
        [("1.2", 12), ("1.1", 11)] ev7 [{ id := 11, isModification := true }]
      = .ok { rcs_deltas := { entries := [(11, "b\n")], readable := true,
                              writable := true, deleteEnabled := true },
              rcs_trees := [(1, [{ id := 11, refcount := 1,
                                   kind := RecKind.fullText }])] }
    ∧ freshDeltasStore.entries = ([] : List (Nat × String)) := by
  exact ⟨by decide, rfl⟩

/-- Claim C7 as amended: during the filter pass, `process_file`
re-parses the RCS file into a fresh TextRecordDatabase whose delta
store is the live (writable, deletable) rcs-deltas store and whose
checkout store alone is a NullDatabase; it recomputes refcounts
against the pruned file-items view, frees unused records (which does
delete their rcs-deltas entries), keeps the checkout store a null
store throughout, and persists the pruned record list to the
rcs-trees store. -/
theorem claim_C7 {E : ExcluderState} {fileId : Nat} {oids : List (String × Nat)}
    {events : List SinkEvent} {fi : List FileItem} {E' : ExcluderState}
    (h : process_file E fileId oids events fi = .ok E') :
    ∃ st db1 db2 db3,
      runSink oids events initSink
        { text_records := [], delta_db := E.rcs_deltas,
          checkout_db := nullDatabase, deferred_deletes := none } = .ok (st, db1)
      ∧ db1.recompute_refcounts fi = .ok db2
      ∧ db2.free_unused = .ok db3
      ∧ db1.checkout_db = nullDatabase
      ∧ db3.checkout_db = nullDatabase
      ∧ E' = { rcs_deltas := db3.delta_db,
               rcs_trees := setT E.rcs_trees fileId
                 (db3.text_records.map Prod.snd) } := by
  cases hrun : runSink oids events initSink
      { text_records := [], delta_db := E.rcs_deltas,
        checkout_db := nullDatabase, deferred_deletes := none } with
  | error e =>
    rw [show process_file E fileId oids events fi = .error e by
      simp [process_file, hrun]] at h
    exact absurd h (by simp)
  | ok pr =>
    obtain ⟨st, db1⟩ := pr
    have hcdb1 : db1.checkout_db = nullDatabase := runSink_cdb _ _ _ _ _ _ hrun
    cases hrec : db1.recompute_refcounts fi with
    | error e =>
      rw [show process_file E fileId oids events fi = .error e by
        simp [process_file, hrun, hrec]] at h
      exact absurd h (by simp)
    | ok db2 =>
      have hcdb2 : db2.checkout_db = db1.checkout_db :=
        (recompute_fields hrec).2.1
      cases hfree : db2.free_unused with
      | error e =>
        rw [show process_file E fileId oids events fi = .error e by
          simp [process_file, hrun, hrec, hfree]] at h
        exact absurd h (by simp)
      | ok db3 =>
        have hcdb3 : db3.checkout_db = db2.checkout_db := by
          refine discard_cdb ?_ hfree
          rw [hcdb2, hcdb1]
          rfl
        rw [show process_file E fileId oids events fi
            = .ok { rcs_deltas := db3.delta_db,
                    rcs_trees := setT E.rcs_trees fileId
                      (db3.text_records.map Prod.snd) } by
          simp [process_file, hrun, hrec, hfree]] at h
        exact ⟨st, db1, db2, db3, rfl, hrec, hfree, hcdb1,
          by rw [hcdb3, hcdb2, hcdb1], (Except.ok.inj h).symm⟩

/-- Claim C7 witness: the amended decomposition at the concrete
two-revision scenario. -/
theorem claim_C7_witness :
    ∃ st db1 db2 db3,
      runSink [("1.2", 12), ("1.1", 11)] ev7 initSink
        { text_records := [], delta_db := freshDeltasStore,
          checkout_db := nullDatabase, deferred_deletes := none } = .ok (st, db1)
      ∧ db1.recompute_refcounts [{ id := 11, isModification := true }] = .ok db2
      ∧ db2.free_unused = .ok db3
      ∧ db1.checkout_db = nullDatabase
      ∧ db3.checkout_db = nullDatabase
      ∧ ({ rcs_deltas := { entries := [(11, "b\n")], readable := true,
                           writable := true, deleteEnabled := true },
           rcs_trees := [(1, [{ id := 11, refcount := 1,
                                kind := RecKind.fullText }])] } : ExcluderState)
        = { rcs_deltas := db3.delta_db,
            rcs_trees := setT [] 1 (db3.text_records.map Prod.snd) } :=
  @claim_C7 { rcs_deltas := freshDeltasStore, rcs_trees := [] } 1
    [("1.2", 12), ("1.1", 11)] ev7 [{ id := 11, isModification := true }]
    { rcs_deltas := { entries := [(11, "b\n")], readable := true,
                      writable := true, deleteEnabled := true },
      rcs_trees := [(1, [{ id := 11, refcount := 1,
                           kind := RecKind.fullText }])] }
    (by decide)

/-- Claim C8 counterexample: the class InternalRevisionReader defines no
skip_content method --- its methods are exactly the ones listed in
`readerMethods` --- so no skip_content operation is exposed to the
output pass. -/
theorem claim_C8_counterexample : "skip_content" ∉ readerMethods := by
  decide

/-- Claim C8 as amended: the output-pass RevisionReader exposes no
skip_content operation (its methods are init, register_artifacts,
start, the private record loader, get_content_stream and finish); a
revision that the pipeline never requests keeps its refcount, so its
record survives and `log_leftovers` at finish() reports it. -/
theorem claim_C8 :
    "skip_content" ∉ readerMethods
    ∧ (∀ R : ReaderState, R.db.text_records ≠ [] → readerFinish R ≠ []) := by
  refine ⟨by decide, ?_⟩
  intro R h
  unfold readerFinish DBState.log_leftovers
  cases hrec : R.db.text_records with
  | nil => exact absurd hrec h
  | cons p rest => simp [hrec]

/-- Claim C8 witness: the method-list fact together with a leftover
record being reported at finish. -/
theorem claim_C8_witness :
    "skip_content" ∉ readerMethods
    ∧ readerFinish
        { tree_db := [], loaded_files := [],
          db := { text_records :=
                    [(1, { id := 1, refcount := 1, kind := RecKind.fullText })],
                  delta_db := nullDatabase, checkout_db := nullDatabase,
                  deferred_deletes := none } } ≠ [] :=
  ⟨claim_C8.1, claim_C8.2 _ (by decide)⟩

/-! ### Further list lemmas for the output-pass invariant -/

theorem eraseR_replaceR_self (recs : RecList) (k : Nat) (r' : TextRecord) :
    eraseR (replaceR recs k r') k = eraseR recs k := by
  induction recs with
  | nil => rfl
  | cons p rest ih =>
    obtain ⟨k0, r0⟩ := p
    by_cases hk : k0 = k <;> simp [replaceR, eraseR, hk, ih]

theorem mem_eraseR_of_mem_ne {recs : RecList} {k : Nat} {p : Nat × TextRecord}
    (hp : p ∈ recs) (hne : p.1 ≠ k) : p ∈ eraseR recs k := by
  induction recs with
  | nil => simp at hp
  | cons q rest ih =>
    obtain ⟨k0, r0⟩ := q
    rcases List.mem_cons.mp hp with h1 | h1
    · have hk0 : k0 ≠ k := by
        rw [h1] at hne
        exact hne
      simp only [eraseR, if_neg hk0]
      exact h1 ▸ List.mem_cons_self _ _
    · by_cases hk : k0 = k
      · simp only [eraseR, if_pos hk]
        exact h1
      · simp only [eraseR, if_neg hk]
        exact List.mem_cons_of_mem _ (ih h1)

theorem mem_replaceR_of_mem_ne {recs : RecList} {k : Nat} {r' : TextRecord}
    {p : Nat × TextRecord} (hp : p ∈ recs) (hne : p.1 ≠ k) :
    p ∈ replaceR recs k r' := by
  induction recs with
  | nil => simp at hp
  | cons q rest ih =>
    obtain ⟨k0, r0⟩ := q
    rcases List.mem_cons.mp hp with h1 | h1
    · have hk0 : k0 ≠ k := by
        rw [h1] at hne
        exact hne
      simp only [replaceR, if_neg hk0]
      exact h1 ▸ List.mem_cons_self _ _
    · by_cases hk : k0 = k
      · simp only [replaceR, if_pos hk]
        exact List.mem_cons_of_mem _ h1
      · simp only [replaceR, if_neg hk]
        exact List.mem_cons_of_mem _ (ih h1)

theorem mem_replaceR_cases {recs : RecList} {k : Nat} {r' : TextRecord}
    {p : Nat × TextRecord} (hn : (recs.map Prod.fst).Nodup)
    (hp : p ∈ replaceR recs k r') :
    (p.1 ≠ k ∧ p ∈ recs) ∨ (p.1 = k ∧ p.2 = r') := by
  by_cases hk : p.1 = k
  · have h1 := mem_lookupR_of_nodup (nodup_keys_replaceR k r' hn) hp
    rw [hk, lookupR_replaceR_self] at h1
    cases hl : lookupR recs k with
    | none => rw [hl] at h1; exact absurd h1 (by simp)
    | some r0 =>
      rw [hl] at h1
      exact Or.inr ⟨hk, (Option.some.inj h1).symm⟩
  · have h1 := mem_lookupR_of_nodup (nodup_keys_replaceR k r' hn) hp
    rw [lookupR_replaceR_ne _ _ hk] at h1
    exact Or.inl ⟨hk, lookupR_eq_some_mem h1⟩

theorem lookupE_isSome_of_mem {κ : Type} [DecidableEq κ] {l : List (κ × String)}
    {p : κ × String} (h : p ∈ l) : (lookupE l p.1).isSome := by
  induction l with
  | nil => simp at h
  | cons q rest ih =>
    obtain ⟨k0, v0⟩ := q
    rcases List.mem_cons.mp h with h1 | h1
    · subst h1; simp [lookupE]
    · by_cases hk : k0 = p.1
      · simp [lookupE, hk]
      · simpa [lookupE, hk] using ih h1

theorem mem_setE_or {κ : Type} [DecidableEq κ] {l : List (κ × String)}
    {k : κ} {v : String} {e : κ × String} (h : e ∈ setE l k v) :
    e ∈ l ∨ e = (k, v) := by
  induction l with
  | nil => simpa [setE] using h
  | cons q rest ih =>
    obtain ⟨k0, v0⟩ := q
    by_cases hk : k0 = k
    · simp only [setE, if_pos hk] at h
      rcases List.mem_cons.mp h with h1 | h1
      · exact Or.inr (by rw [h1, hk])
      · exact Or.inl (List.mem_cons_of_mem _ h1)
    · simp only [setE, if_neg hk] at h
      rcases List.mem_cons.mp h with h1 | h1
      · exact Or.inl (h1 ▸ List.mem_cons_self _ _)
      · rcases ih h1 with h2 | h2
        · exact Or.inl (List.mem_cons_of_mem _ h2)
        · exact Or.inr h2

theorem exists_max_rank (rank : Nat → Nat) :
    ∀ (recs : RecList), recs ≠ [] →
    ∃ p ∈ recs, ∀ q ∈ recs, rank q.1 ≤ rank p.1 := by
  intro recs
  induction recs with
  | nil => intro h; exact absurd rfl h
  | cons p rest ih =>
    intro _
    by_cases hr : rest = []
    · subst hr
      refine ⟨p, List.mem_cons_self _ _, ?_⟩
      intro q hq
      rcases List.mem_cons.mp hq with h1 | h1
      · rw [h1]
      · simp at h1
    · obtain ⟨m, hm, hmax⟩ := ih hr
      by_cases hcmp : rank p.1 ≤ rank m.1
      · refine ⟨m, List.mem_cons_of_mem _ hm, ?_⟩
        intro q hq
        rcases List.mem_cons.mp hq with h1 | h1
        · rw [h1]; exact hcmp
        · exact hmax q h1
      · refine ⟨p, List.mem_cons_self _ _, ?_⟩
        intro q hq
        rcases List.mem_cons.mp hq with h1 | h1
        · rw [h1]
        · exact le_trans (hmax q h1) (by omega)

theorem filter_rank_step {recs : RecList} {y : Nat} {ry : TextRecord}
    (rank : Nat → Nat) {B : Nat} (hn : (recs.map Prod.fst).Nodup)
    (hy : (y, ry) ∈ recs) (hlt : rank y < B) :
    (recs.filter (fun p => rank p.1 < rank y)).length + 1
      ≤ (recs.filter (fun p => rank p.1 < B)).length := by
  have hpairs : recs.Nodup := List.Nodup.of_map Prod.fst hn
  have hnotin : (y, ry) ∉ recs.filter (fun p => rank p.1 < rank y) := by
    intro hmem
    have := (List.mem_filter.mp hmem).2
    simp at this
  have hl1nodup : ((y, ry) :: recs.filter (fun p => rank p.1 < rank y)).Nodup :=
    List.nodup_cons.mpr ⟨hnotin, hpairs.filter _⟩
  have hsub : ((y, ry) :: recs.filter (fun p => rank p.1 < rank y))
      ⊆ recs.filter (fun p => rank p.1 < B) := by
    intro q hq
    rcases List.mem_cons.mp hq with h1 | h1
    · subst h1
      exact List.mem_filter.mpr ⟨hy, by simpa using hlt⟩
    · have h2 := List.mem_filter.mp h1
      refine List.mem_filter.mpr ⟨h2.1, ?_⟩
      have := h2.2
      simp only [decide_eq_true_eq] at this ⊢
      omega
  have := (List.subperm_of_subset hl1nodup hsub).length_le
  simpa using this

/-! ### The output-pass invariant -/

/-- The variant after a checkout: a DeltaTextRecord becomes a
CheckedOutTextRecord; the other variants keep their tag. -/
def transKind : RecKind → RecKind
  | .delta _ => .checkedOut
  | k => k

/-- Invariant of the live TextRecordDatabase during the output pass,
relative to a ghost assignment `content` of every revision's fulltext,
a ghost `rank` decreasing along pred_id edges, and the list `pending`
of revisions that will still be requested exactly once.  The refcount
of each record is one per still-pending request plus one per
DeltaTextRecord depending on it; the delta store is read-only with
deletion disabled and holds each record's seed text; the checkout
store is fully functional and holds exactly the fulltexts of the
CheckedOutTextRecords. -/
structure OutInv (content : Nat → String) (rank : Nat → Nat)
    (pending : List Nat) (S : DBState) : Prop where
  nodup : (S.text_records.map Prod.fst).Nodup
  defNone : S.deferred_deletes = none
  ddbRead : S.delta_db.readable = true
  ddbNoDel : S.delta_db.deleteEnabled = false
  cdbRead : S.checkout_db.readable = true
  cdbWrite : S.checkout_db.writable = true
  cdbDel : S.checkout_db.deleteEnabled = true
  cdbNodup : (S.checkout_db.entries.map Prod.fst).Nodup
  rankOk : ∀ p ∈ S.text_records, ∀ pd, p.2.kind = RecKind.delta pd →
    rank pd < rank p.1
  closed : ∀ p ∈ S.text_records, ∀ pd, p.2.kind = RecKind.delta pd →
    (lookupR S.text_records pd).isSome
  refEq : ∀ p ∈ S.text_records,
    p.2.refcount = (if p.1 ∈ pending then 1 else 0)
      + (deltaChildren S.text_records p.1 : Int)
  pos : ∀ p ∈ S.text_records, 1 ≤ p.2.refcount
  pendLive : ∀ id ∈ pending, (lookupR S.text_records id).isSome
  pendNodup : pending.Nodup
  ddbFull : ∀ p ∈ S.text_records, p.2.kind = RecKind.fullText →
    lookupE S.delta_db.entries p.1 = some (content p.1)
  ddbDelta : ∀ p ∈ S.text_records, ∀ pd, p.2.kind = RecKind.delta pd →
    ∃ d, lookupE S.delta_db.entries p.1 = some d
      ∧ applyDiff (content pd) d = .ok (content p.1)
  cdbCo : ∀ p ∈ S.text_records, p.2.kind = RecKind.checkedOut →
    lookupE S.checkout_db.entries (toHexKey p.1) = some (content p.1)
  cdbKeys : ∀ e ∈ S.checkout_db.entries,
    ∃ p ∈ S.text_records, p.2.kind = RecKind.checkedOut ∧ toHexKey p.1 = e.1

/-- State of the database after one checkout call on record `x` (which
held record value `rx` beforehand): the invariant holds except that
one unit of `x`'s demand has been consumed and x's record has been
removed (when its refcount was one) or transitioned; records of higher
rank are untouched; the delta store is untouched; every surviving
DeltaTextRecord already existed identically before the call; the
delta-children counts of records of rank at least `rank x` are
unchanged. -/
structure PostCK (content : Nat → String) (rank : Nat → Nat)
    (pending : List Nat) (x : Nat) (rx : TextRecord) (S S' : DBState) : Prop where
  nodup : (S'.text_records.map Prod.fst).Nodup
  defNone : S'.deferred_deletes = none
  ddbEq : S'.delta_db = S.delta_db
  cdbRead : S'.checkout_db.readable = true
  cdbWrite : S'.checkout_db.writable = true
  cdbDel : S'.checkout_db.deleteEnabled = true
  cdbNodup : (S'.checkout_db.entries.map Prod.fst).Nodup
  rankOk : ∀ p ∈ S'.text_records, ∀ pd, p.2.kind = RecKind.delta pd →
    rank pd < rank p.1
  closedW : ∀ p ∈ S'.text_records, ∀ pd, p.2.kind = RecKind.delta pd →
    (lookupR S'.text_records pd).isSome ∨ pd = x
  refEqW : ∀ p ∈ S'.text_records, p.1 ≠ x →
    p.2.refcount = (if p.1 ∈ pending then 1 else 0)
      + (deltaChildren S'.text_records p.1 : Int)
  posW : ∀ p ∈ S'.text_records, p.1 ≠ x → 1 ≤ p.2.refcount
  pendLiveW : ∀ id ∈ pending, id ≠ x → (lookupR S'.text_records id).isSome
  ddbFull : ∀ p ∈ S'.text_records, p.2.kind = RecKind.fullText →
    lookupE S'.delta_db.entries p.1 = some (content p.1)
  ddbDelta : ∀ p ∈ S'.text_records, ∀ pd, p.2.kind = RecKind.delta pd →
    ∃ d, lookupE S'.delta_db.entries p.1 = some d
      ∧ applyDiff (content pd) d = .ok (content p.1)
  cdbCo : ∀ p ∈ S'.text_records, p.2.kind = RecKind.checkedOut →
    lookupE S'.checkout_db.entries (toHexKey p.1) = some (content p.1)
  cdbKeys : ∀ e ∈ S'.checkout_db.entries,
    ∃ p ∈ S'.text_records, p.2.kind = RecKind.checkedOut ∧ toHexKey p.1 = e.1
  status : (rx.refcount = 1 ∧ lookupR S'.text_records x = none)
    ∨ (rx.refcount ≠ 1 ∧ ∃ r', lookupR S'.text_records x = some r'
        ∧ r'.refcount = rx.refcount - 1 ∧ r'.kind = transKind rx.kind)
  atX : ∀ r', lookupR S'.text_records x = some r' →
    r'.refcount = (if x ∈ pending then 1 else 0)
      + (deltaChildren S'.text_records x : Int) - 1
  frame : ∀ k, rank x < rank k →
    lookupR S'.text_records k = lookupR S.text_records k
  shrink : ∀ p ∈ S'.text_records, ∀ pd, p.2.kind = RecKind.delta pd →
    p.1 ≠ x ∧ lookupR S.text_records p.1 = some p.2
  childHigh : ∀ k, rank x ≤ rank k →
    deltaChildren S'.text_records k = deltaChildren S.text_records k

theorem Store.read_ok {κ : Type} [DecidableEq κ] {s : Store κ} {k : κ}
    {v : String} (hr : s.readable = true) (hv : lookupE s.entries k = some v) :
    s.read k = .ok v := by
  simp [Store.read, hr, hv]

theorem Store.write_ok {κ : Type} [DecidableEq κ] {s : Store κ} (k : κ)
    (v : String) (hw : s.writable = true) :
    s.write k v = .ok { s with entries := setE s.entries k v } := by
  simp [Store.write, hw]

theorem Store.del_enabled {κ : Type} [DecidableEq κ] {s : Store κ} (k : κ)
    (hd : s.deleteEnabled = true) :
    s.del k = { s with entries := eraseE s.entries k } := by
  simp [Store.del, hd]

theorem discard_single_full {S : DBState} {id : Nat} {r : TextRecord}
    (hd : S.deferred_deletes = none) (hl : lookupR S.text_records id = some r)
    (hrc : r.refcount = 0) (hk : r.kind = .fullText) :
    S.discard [id] = .ok
      { text_records := eraseR S.text_records id,
        delta_db := S.delta_db.del id,
        checkout_db := S.checkout_db,
        deferred_deletes := none } := by
  have hstep := runCascade_cons_full (2 * S.text_records.length + 1)
    S.delta_db S.checkout_db [] hl hrc hk
  simp only [DBState.discard, hd, List.reverse_cons, List.reverse_nil,
    List.nil_append, List.length_cons, List.length_nil, Nat.zero_add]
  rw [hstep, runCascade_nil]

theorem discard_single_co {S : DBState} {id : Nat} {r : TextRecord}
    (hd : S.deferred_deletes = none) (hl : lookupR S.text_records id = some r)
    (hrc : r.refcount = 0) (hk : r.kind = .checkedOut) :
    S.discard [id] = .ok
      { text_records := eraseR S.text_records id,
        delta_db := S.delta_db,
        checkout_db := S.checkout_db.del (toHexKey id),
        deferred_deletes := none } := by
  have hstep := runCascade_cons_co (2 * S.text_records.length + 1)
    S.delta_db S.checkout_db [] hl hrc hk
  simp only [DBState.discard, hd, List.reverse_cons, List.reverse_nil,
    List.nil_append, List.length_cons, List.length_nil, Nat.zero_add]
  rw [hstep, runCascade_nil]

theorem decrement_last_full {S : DBState} {id : Nat} {r : TextRecord}
    (hd : S.deferred_deletes = none) (hl : lookupR S.text_records id = some r)
    (hrc : r.refcount = 1) (hk : r.kind = .fullText) :
    decrementRefcount S id = .ok
      { text_records := eraseR S.text_records id,
        delta_db := S.delta_db.del id,
        checkout_db := S.checkout_db,
        deferred_deletes := none } := by
  have hz : ({ r with refcount := r.refcount - 1 } : TextRecord).refcount = 0 := by
    simp [hrc]
  simp only [decrementRefcount, hl]
  rw [if_pos hz]
  have hl' : lookupR (replaceR S.text_records id { r with refcount := r.refcount - 1 })
      id = some { r with refcount := r.refcount - 1 } := by
    rw [lookupR_replaceR_self, hl]; rfl
  rw [discard_single_full (S := { S with text_records := replaceR S.text_records id { r with refcount := r.refcount - 1 } }) hd hl' hz hk]
  simp [eraseR_replaceR_self]

theorem decrement_last_co {S : DBState} {id : Nat} {r : TextRecord}
    (hd : S.deferred_deletes = none) (hl : lookupR S.text_records id = some r)
    (hrc : r.refcount = 1) (hk : r.kind = .checkedOut) :
    decrementRefcount S id = .ok
      { text_records := eraseR S.text_records id,
        delta_db := S.delta_db,
        checkout_db := S.checkout_db.del (toHexKey id),
        deferred_deletes := none } := by
  have hz : ({ r with refcount := r.refcount - 1 } : TextRecord).refcount = 0 := by
    simp [hrc]
  simp only [decrementRefcount, hl]
  rw [if_pos hz]
  have hl' : lookupR (replaceR S.text_records id { r with refcount := r.refcount - 1 })
      id = some { r with refcount := r.refcount - 1 } := by
    rw [lookupR_replaceR_self, hl]; rfl
  rw [discard_single_co (S := { S with text_records := replaceR S.text_records id { r with refcount := r.refcount - 1 } }) hd hl' hz hk]
  simp [eraseR_replaceR_self]

theorem decrement_nonzero {S : DBState} {id : Nat} {r : TextRecord}
    (hl : lookupR S.text_records id = some r) (hrc : r.refcount ≠ 1) :
    decrementRefcount S id = .ok
      { S with text_records :=
          replaceR S.text_records id { r with refcount := r.refcount - 1 } } := by
  have hz : ({ r with refcount := r.refcount - 1 } : TextRecord).refcount ≠ 0 := by
    simp only [ne_eq, sub_eq_zero]
    exact hrc
  simp [decrementRefcount, hl, hz]

theorem ne_of_mem_eraseR {recs : RecList} {x : Nat} {p : Nat × TextRecord}
    (hn : (recs.map Prod.fst).Nodup) (hp : p ∈ eraseR recs x) : p.1 ≠ x := by
  intro he
  have h1 := lookupR_isSome_of_mem hp
  rw [he, lookupR_eraseR_self x hn] at h1
  simp at h1

/-- Checkout of a FullTextRecord: the fulltext is read from the delta
store, the refcount decremented, and the record removed when the
refcount reached zero. -/
theorem postCK_full {content : Nat → String} {rank : Nat → Nat}
    {pending : List Nat} {S : DBState} {x : Nat} {rx : TextRecord}
    (hInv : OutInv content rank pending S)
    (hl : lookupR S.text_records x = some rx)
    (hk : rx.kind = RecKind.fullText) (fuel : Nat) :
    ∃ S', checkout (fuel + 1) S x = .ok (content x, S')
      ∧ PostCK content rank pending x rx S S' := by
  have hmem : (x, rx) ∈ S.text_records := lookupR_eq_some_mem hl
  have hread : S.delta_db.read x = .ok (content x) :=
    Store.read_ok hInv.ddbRead (hInv.ddbFull (x, rx) hmem hk)
  by_cases hrc : rx.refcount = 1
  · -- last reference: the record is freed and removed
    have hdec := decrement_last_full hInv.defNone hl hrc hk
    have hch : ∀ y, deltaChildren (eraseR S.text_records x) y
        = deltaChildren S.text_records y := by
      intro y
      have h1 := deltaChildren_eraseR hl y
      have h2 : isChildOf y rx = false := by simp [isChildOf, hk]
      simp [h2] at h1
      omega
    refine ⟨{ text_records := eraseR S.text_records x, delta_db := S.delta_db, checkout_db := S.checkout_db, deferred_deletes := none }, ?_, ?_⟩
    · rw [checkout_step_full fuel hl hk]
      simp only [hread, hdec, Store.del_disabled x hInv.ddbNoDel]
    refine ⟨?_, ?_, ?_, ?_, ?_, ?_, ?_, ?_, ?_, ?_, ?_, ?_, ?_, ?_, ?_, ?_, ?_, ?_, ?_, ?_, ?_⟩
    · exact nodup_keys_eraseR x hInv.nodup
    · rfl
    · rfl
    · exact hInv.cdbRead
    · exact hInv.cdbWrite
    · exact hInv.cdbDel
    · exact hInv.cdbNodup
    · intro p hp pd hpd
      exact hInv.rankOk p (mem_of_mem_eraseR hp) pd hpd
    · intro p hp pd hpd
      by_cases hpx : pd = x
      · exact Or.inr hpx
      · refine Or.inl ?_
        dsimp only
        rw [lookupR_eraseR_ne _ hpx]
        exact hInv.closed p (mem_of_mem_eraseR hp) pd hpd
    · intro p hp _
      dsimp only
      rw [hch]
      exact hInv.refEq p (mem_of_mem_eraseR hp)
    · intro p hp _
      exact hInv.pos p (mem_of_mem_eraseR hp)
    · intro id hid hne
      dsimp only
      rw [lookupR_eraseR_ne _ hne]
      exact hInv.pendLive id hid
    · intro p hp hpk
      exact hInv.ddbFull p (mem_of_mem_eraseR hp) hpk
    · intro p hp pd hpd
      exact hInv.ddbDelta p (mem_of_mem_eraseR hp) pd hpd
    · intro p hp hpk
      exact hInv.cdbCo p (mem_of_mem_eraseR hp) hpk
    · intro e he
      obtain ⟨q, hq, hqk, hqh⟩ := hInv.cdbKeys e he
      have hqx : q.1 ≠ x := by
        intro hx
        have h5 := mem_lookupR_of_nodup hInv.nodup hq
        rw [hx, hl] at h5
        rw [← Option.some.inj h5] at hqk
        rw [hk] at hqk
        exact absurd hqk (by simp)
      exact ⟨q, mem_eraseR_of_mem_ne hq hqx, hqk, hqh⟩
    · exact Or.inl ⟨hrc, lookupR_eraseR_self x hInv.nodup⟩
    · intro r' h
      dsimp only at h
      rw [lookupR_eraseR_self x hInv.nodup] at h
      exact absurd h (by simp)
    · intro k hkk
      have hkx : k ≠ x := by rintro rfl; exact lt_irrefl _ hkk
      dsimp only
      rw [lookupR_eraseR_ne _ hkx]
    · intro p hp pd hpd
      exact ⟨ne_of_mem_eraseR hInv.nodup hp,
        mem_lookupR_of_nodup hInv.nodup (mem_of_mem_eraseR hp)⟩
    · intro k _
      exact hch k
  · -- further references remain: only the refcount drops
    have hdec := decrement_nonzero hl hrc
    have hch : ∀ y, deltaChildren (replaceR S.text_records x
        { rx with refcount := rx.refcount - 1 }) y
        = deltaChildren S.text_records y := by
      intro y
      have h1 := deltaChildren_replaceR hl ({ rx with refcount := rx.refcount - 1 }) y
      have h2 : isChildOf y ({ rx with refcount := rx.refcount - 1 } : TextRecord)
          = isChildOf y rx := by
        simp [isChildOf]
      rw [h2] at h1
      omega
    refine ⟨{ S with text_records := replaceR S.text_records x { rx with refcount := rx.refcount - 1 } }, ?_, ?_⟩
    · rw [checkout_step_full fuel hl hk]
      simp only [hread, hdec]
    refine ⟨?_, ?_, ?_, ?_, ?_, ?_, ?_, ?_, ?_, ?_, ?_, ?_, ?_, ?_, ?_, ?_, ?_, ?_, ?_, ?_, ?_⟩
    · exact nodup_keys_replaceR x _ hInv.nodup
    · exact hInv.defNone
    · rfl
    · exact hInv.cdbRead
    · exact hInv.cdbWrite
    · exact hInv.cdbDel
    · exact hInv.cdbNodup
    · intro p hp pd hpd
      rcases mem_replaceR_cases hInv.nodup hp with ⟨hne, hmem2⟩ | ⟨hpx, hpr⟩
      · exact hInv.rankOk p hmem2 pd hpd
      · have h3 : rx.kind = RecKind.delta pd := by rw [hpr] at hpd; exact hpd
        rw [hk] at h3
        exact absurd h3 (by simp)
    · intro p hp pd hpd
      rcases mem_replaceR_cases hInv.nodup hp with ⟨hne, hmem2⟩ | ⟨hpx, hpr⟩
      · by_cases hpdx : pd = x
        · exact Or.inr hpdx
        · refine Or.inl ?_
          dsimp only
          rw [lookupR_replaceR_ne _ _ hpdx]
          exact hInv.closed p hmem2 pd hpd
      · have h3 : rx.kind = RecKind.delta pd := by rw [hpr] at hpd; exact hpd
        rw [hk] at h3
        exact absurd h3 (by simp)
    · intro p hp hpne
      rcases mem_replaceR_cases hInv.nodup hp with ⟨hne, hmem2⟩ | ⟨hpx, hpr⟩
      · dsimp only
        rw [hch]
        exact hInv.refEq p hmem2
      · exact absurd hpx hpne
    · intro p hp hpne
      rcases mem_replaceR_cases hInv.nodup hp with ⟨hne, hmem2⟩ | ⟨hpx, hpr⟩
      · exact hInv.pos p hmem2
      · exact absurd hpx hpne
    · intro id hid hne
      dsimp only
      rw [lookupR_replaceR_ne _ _ hne]
      exact hInv.pendLive id hid
    · intro p hp hpk
      rcases mem_replaceR_cases hInv.nodup hp with ⟨hne, hmem2⟩ | ⟨hpx, hpr⟩
      · exact hInv.ddbFull p hmem2 hpk
      · rw [hpx]
        exact hInv.ddbFull (x, rx) hmem hk
    · intro p hp pd hpd
      rcases mem_replaceR_cases hInv.nodup hp with ⟨hne, hmem2⟩ | ⟨hpx, hpr⟩
      · exact hInv.ddbDelta p hmem2 pd hpd
      · have h3 : rx.kind = RecKind.delta pd := by rw [hpr] at hpd; exact hpd
        rw [hk] at h3
        exact absurd h3 (by simp)
    · intro p hp hpk
      rcases mem_replaceR_cases hInv.nodup hp with ⟨hne, hmem2⟩ | ⟨hpx, hpr⟩
      · exact hInv.cdbCo p hmem2 hpk
      · have h3 : rx.kind = RecKind.checkedOut := by rw [hpr] at hpk; exact hpk
        rw [hk] at h3
        exact absurd h3 (by simp)
    · intro e he
      obtain ⟨q, hq, hqk, hqh⟩ := hInv.cdbKeys e he
      have hqx : q.1 ≠ x := by
        intro hx
        have h5 := mem_lookupR_of_nodup hInv.nodup hq
        rw [hx, hl] at h5
        rw [← Option.some.inj h5] at hqk
        rw [hk] at hqk
        exact absurd hqk (by simp)
      exact ⟨q, mem_replaceR_of_mem_ne hq hqx, hqk, hqh⟩
    · refine Or.inr ⟨hrc, { rx with refcount := rx.refcount - 1 }, ?_, rfl, ?_⟩
      · dsimp only
        rw [lookupR_replaceR_self, hl]
        rfl
      · show rx.kind = transKind rx.kind
        rw [hk]
        rfl
    · intro r' h
      dsimp only at h
      rw [lookupR_replaceR_self, hl] at h
      rw [← Option.some.inj h]
      dsimp only
      rw [hch x]
      have h7 := hInv.refEq (x, rx) hmem
      dsimp only at h7
      show rx.refcount - 1 = _
      omega
    · intro k hkk
      have hkx : k ≠ x := by rintro rfl; exact lt_irrefl _ hkk
      dsimp only
      rw [lookupR_replaceR_ne _ _ hkx]
    · intro p hp pd hpd
      rcases mem_replaceR_cases hInv.nodup hp with ⟨hne, hmem2⟩ | ⟨hpx, hpr⟩
      · exact ⟨hne, mem_lookupR_of_nodup hInv.nodup hmem2⟩
      · have h3 : rx.kind = RecKind.delta pd := by rw [hpr] at hpd; exact hpd
        rw [hk] at h3
        exact absurd h3 (by simp)
    · intro k _
      exact hch k

/-- Checkout of a CheckedOutTextRecord: the fulltext is read back from
the checkout store, the refcount decremented, and, when it reached
zero, the record removed together with its checkout-store entry. -/
theorem postCK_co {content : Nat → String} {rank : Nat → Nat}
    {pending : List Nat} {S : DBState} {x : Nat} {rx : TextRecord}
    (hInv : OutInv content rank pending S)
    (hl : lookupR S.text_records x = some rx)
    (hk : rx.kind = RecKind.checkedOut) (fuel : Nat) :
    ∃ S', checkout (fuel + 1) S x = .ok (content x, S')
      ∧ PostCK content rank pending x rx S S' := by
  have hmem : (x, rx) ∈ S.text_records := lookupR_eq_some_mem hl
  have hread : S.checkout_db.read (toHexKey x) = .ok (content x) :=
    Store.read_ok hInv.cdbRead (hInv.cdbCo (x, rx) hmem hk)
  by_cases hrc : rx.refcount = 1
  · -- last reference: the record and its checkout entry are removed
    have hdec := decrement_last_co hInv.defNone hl hrc hk
    have hch : ∀ y, deltaChildren (eraseR S.text_records x) y
        = deltaChildren S.text_records y := by
      intro y
      have h1 := deltaChildren_eraseR hl y
      have h2 : isChildOf y rx = false := by simp [isChildOf, hk]
      simp [h2] at h1
      omega
    refine ⟨{ text_records := eraseR S.text_records x, delta_db := S.delta_db, checkout_db := { S.checkout_db with entries := eraseE S.checkout_db.entries (toHexKey x) }, deferred_deletes := none }, ?_, ?_⟩
    · rw [checkout_step_co fuel hl hk]
      simp only [hread, hdec, Store.del_enabled (toHexKey x) hInv.cdbDel]
    refine ⟨?_, ?_, ?_, ?_, ?_, ?_, ?_, ?_, ?_, ?_, ?_, ?_, ?_, ?_, ?_, ?_, ?_, ?_, ?_, ?_, ?_⟩
    · exact nodup_keys_eraseR x hInv.nodup
    · rfl
    · rfl
    · exact hInv.cdbRead
    · exact hInv.cdbWrite
    · exact hInv.cdbDel
    · exact nodup_keys_eraseE (toHexKey x) hInv.cdbNodup
    · intro p hp pd hpd
      exact hInv.rankOk p (mem_of_mem_eraseR hp) pd hpd
    · intro p hp pd hpd
      by_cases hpx : pd = x
      · exact Or.inr hpx
      · refine Or.inl ?_
        dsimp only
        rw [lookupR_eraseR_ne _ hpx]
        exact hInv.closed p (mem_of_mem_eraseR hp) pd hpd
    · intro p hp _
      dsimp only
      rw [hch]
      exact hInv.refEq p (mem_of_mem_eraseR hp)
    · intro p hp _
      exact hInv.pos p (mem_of_mem_eraseR hp)
    · intro id hid hne
      dsimp only
      rw [lookupR_eraseR_ne _ hne]
      exact hInv.pendLive id hid
    · intro p hp hpk
      exact hInv.ddbFull p (mem_of_mem_eraseR hp) hpk
    · intro p hp pd hpd
      exact hInv.ddbDelta p (mem_of_mem_eraseR hp) pd hpd
    · intro p hp hpk
      have hpx := ne_of_mem_eraseR hInv.nodup hp
      have hhex : toHexKey p.1 ≠ toHexKey x := fun h => hpx (toHexKey_injective h)
      dsimp only
      rw [lookupE_eraseE_ne _ hhex]
      exact hInv.cdbCo p (mem_of_mem_eraseR hp) hpk
    · intro e he
      dsimp only at he
      obtain ⟨q, hq, hqk, hqh⟩ := hInv.cdbKeys e (mem_of_mem_eraseE he)
      have hqx : q.1 ≠ x := by
        intro hx
        have h5 := lookupE_isSome_of_mem he
        rw [show e.1 = toHexKey x by rw [← hqh, hx]] at h5
        rw [lookupE_eraseE_self (toHexKey x) hInv.cdbNodup] at h5
        simp at h5
      exact ⟨q, mem_eraseR_of_mem_ne hq hqx, hqk, hqh⟩
    · exact Or.inl ⟨hrc, lookupR_eraseR_self x hInv.nodup⟩
    · intro r' h
      dsimp only at h
      rw [lookupR_eraseR_self x hInv.nodup] at h
      exact absurd h (by simp)
    · intro k hkk
      have hkx : k ≠ x := by rintro rfl; exact lt_irrefl _ hkk
      dsimp only
      rw [lookupR_eraseR_ne _ hkx]
    · intro p hp pd hpd
      exact ⟨ne_of_mem_eraseR hInv.nodup hp,
        mem_lookupR_of_nodup hInv.nodup (mem_of_mem_eraseR hp)⟩
    · intro k _
      exact hch k
  · -- further references remain: only the refcount drops
    have hdec := decrement_nonzero hl hrc
    have hch : ∀ y, deltaChildren (replaceR S.text_records x
        { rx with refcount := rx.refcount - 1 }) y
        = deltaChildren S.text_records y := by
      intro y
      have h1 := deltaChildren_replaceR hl ({ rx with refcount := rx.refcount - 1 }) y
      have h2 : isChildOf y ({ rx with refcount := rx.refcount - 1 } : TextRecord)
          = isChildOf y rx := by
        simp [isChildOf]
      rw [h2] at h1
      omega
    refine ⟨{ S with text_records := replaceR S.text_records x { rx with refcount := rx.refcount - 1 } }, ?_, ?_⟩
    · rw [checkout_step_co fuel hl hk]
      simp only [hread, hdec]
    refine ⟨?_, ?_, ?_, ?_, ?_, ?_, ?_, ?_, ?_, ?_, ?_, ?_, ?_, ?_, ?_, ?_, ?_, ?_, ?_, ?_, ?_⟩
    · exact nodup_keys_replaceR x _ hInv.nodup
    · exact hInv.defNone
    · rfl
    · exact hInv.cdbRead
    · exact hInv.cdbWrite
    · exact hInv.cdbDel
    · exact hInv.cdbNodup
    · intro p hp pd hpd
      rcases mem_replaceR_cases hInv.nodup hp with ⟨hne, hmem2⟩ | ⟨hpx, hpr⟩
      · exact hInv.rankOk p hmem2 pd hpd
      · have h3 : rx.kind = RecKind.delta pd := by rw [hpr] at hpd; exact hpd
        rw [hk] at h3
        exact absurd h3 (by simp)
    · intro p hp pd hpd
      rcases mem_replaceR_cases hInv.nodup hp with ⟨hne, hmem2⟩ | ⟨hpx, hpr⟩
      · by_cases hpdx : pd = x
        · exact Or.inr hpdx
        · refine Or.inl ?_
          dsimp only
          rw [lookupR_replaceR_ne _ _ hpdx]
          exact hInv.closed p hmem2 pd hpd
      · have h3 : rx.kind = RecKind.delta pd := by rw [hpr] at hpd; exact hpd
        rw [hk] at h3
        exact absurd h3 (by simp)
    · intro p hp hpne
      rcases mem_replaceR_cases hInv.nodup hp with ⟨hne, hmem2⟩ | ⟨hpx, hpr⟩
      · dsimp only
        rw [hch]
        exact hInv.refEq p hmem2
      · exact absurd hpx hpne
    · intro p hp hpne
      rcases mem_replaceR_cases hInv.nodup hp with ⟨hne, hmem2⟩ | ⟨hpx, hpr⟩
      · exact hInv.pos p hmem2
      · exact absurd hpx hpne
    · intro id hid hne
      dsimp only
      rw [lookupR_replaceR_ne _ _ hne]
      exact hInv.pendLive id hid
    · intro p hp hpk
      rcases mem_replaceR_cases hInv.nodup hp with ⟨hne, hmem2⟩ | ⟨hpx, hpr⟩
      · exact hInv.ddbFull p hmem2 hpk
      · have h3 : rx.kind = RecKind.fullText := by rw [hpr] at hpk; exact hpk
        rw [hk] at h3
        exact absurd h3 (by simp)
    · intro p hp pd hpd
      rcases mem_replaceR_cases hInv.nodup hp with ⟨hne, hmem2⟩ | ⟨hpx, hpr⟩
      · exact hInv.ddbDelta p hmem2 pd hpd
      · have h3 : rx.kind = RecKind.delta pd := by rw [hpr] at hpd; exact hpd
        rw [hk] at h3
        exact absurd h3 (by simp)
    · intro p hp hpk
      rcases mem_replaceR_cases hInv.nodup hp with ⟨hne, hmem2⟩ | ⟨hpx, hpr⟩
      · exact hInv.cdbCo p hmem2 hpk
      · rw [hpx]
        exact hInv.cdbCo (x, rx) hmem hk
    · intro e he
      obtain ⟨q, hq, hqk, hqh⟩ := hInv.cdbKeys e he
      by_cases hqx : q.1 = x
      · refine ⟨(x, { rx with refcount := rx.refcount - 1 }), ?_, ?_, ?_⟩
        · exact lookupR_eq_some_mem (show lookupR (replaceR S.text_records x { rx with refcount := rx.refcount - 1 }) x = some { rx with refcount := rx.refcount - 1 } by rw [lookupR_replaceR_self, hl]; rfl)
        · show rx.kind = RecKind.checkedOut
          exact hk
        · rw [← hqx]
          exact hqh
      · exact ⟨q, mem_replaceR_of_mem_ne hq hqx, hqk, hqh⟩
    · refine Or.inr ⟨hrc, { rx with refcount := rx.refcount - 1 }, ?_, rfl, ?_⟩
      · dsimp only
        rw [lookupR_replaceR_self, hl]
        rfl
      · show rx.kind = transKind rx.kind
        rw [hk]
        rfl
    · intro r' h
      dsimp only at h
      rw [lookupR_replaceR_self, hl] at h
      rw [← Option.some.inj h]
      dsimp only
      rw [hch x]
      have h7 := hInv.refEq (x, rx) hmem
      dsimp only at h7
      show rx.refcount - 1 = _
      omega
    · intro k hkk
      have hkx : k ≠ x := by rintro rfl; exact lt_irrefl _ hkk
      dsimp only
      rw [lookupR_replaceR_ne _ _ hkx]
    · intro p hp pd hpd
      rcases mem_replaceR_cases hInv.nodup hp with ⟨hne, hmem2⟩ | ⟨hpx, hpr⟩
      · exact ⟨hne, mem_lookupR_of_nodup hInv.nodup hmem2⟩
      · have h3 : rx.kind = RecKind.delta pd := by rw [hpr] at hpd; exact hpd
        rw [hk] at h3
        exact absurd h3 (by simp)
    · intro k _
      exact hch k

/-- Checkout of any record under the output-pass invariant: the call
returns exactly the ghost content of the revision and establishes the
after-checkout characterization `PostCK`.  The fuel must exceed the
number of records of strictly smaller rank. -/
theorem checkoutCK {content : Nat → String} {rank : Nat → Nat}
    {pending : List Nat} :
    ∀ (fuel : Nat) (S : DBState) (x : Nat) (rx : TextRecord),
    OutInv content rank pending S →
    lookupR S.text_records x = some rx →
    (S.text_records.filter (fun p => rank p.1 < rank x)).length < fuel →
    ∃ S', checkout fuel S x = .ok (content x, S')
      ∧ PostCK content rank pending x rx S S' := by
  intro fuel
  induction fuel with
  | zero =>
    intro S x rx _ _ hcnt
    omega
  | succ fuel ih =>
    intro S x rx hInv hl hcnt
    have hmem : (x, rx) ∈ S.text_records := lookupR_eq_some_mem hl
    cases hk : rx.kind with
    | fullText => exact postCK_full hInv hl hk fuel
    | checkedOut => exact postCK_co hInv hl hk fuel
    | delta y =>
      obtain ⟨ry, hly⟩ := Option.isSome_iff_exists.mp (hInv.closed (x, rx) hmem y hk)
      have hrank : rank y < rank x := hInv.rankOk (x, rx) hmem y hk
      have hyx : y ≠ x := by rintro rfl; exact lt_irrefl _ hrank
      have hymem : (y, ry) ∈ S.text_records := lookupR_eq_some_mem hly
      have hcnt2 : (S.text_records.filter (fun p => rank p.1 < rank y)).length
          < fuel := by
        have := filter_rank_step rank hInv.nodup hymem hrank
        omega
      obtain ⟨S1, hco, hpost⟩ := ih S y ry hInv hly hcnt2
      obtain ⟨d, hld, happ⟩ := hInv.ddbDelta (x, rx) hmem y hk
      have hread : S1.delta_db.read x = .ok d := by
        rw [hpost.ddbEq]
        exact Store.read_ok hInv.ddbRead hld
      have hlx1 : lookupR S1.text_records x = some rx := by
        rw [hpost.frame x hrank]
        exact hl
      have hcx : isChildOf y rx = true := by simp [isChildOf, hk]
      -- when y's record was removed, x was its only delta child
      have hchy1 : ry.refcount = 1 → y ∉ pending
          ∧ deltaChildren S.text_records y = 1 := by
        intro hry1
        have h7 := hInv.refEq (y, ry) hymem
        have h8 : 1 ≤ deltaChildren S.text_records y :=
          deltaChildren_pos_of_mem hmem hcx
        dsimp only at h7
        by_cases hyp : y ∈ pending
        · rw [if_pos hyp, hry1] at h7
          omega
        · rw [if_neg hyp, hry1] at h7
          exact ⟨hyp, by omega⟩
      have hOnly : ry.refcount = 1 → ∀ p ∈ S1.text_records, p.1 ≠ x →
          p.2.kind = RecKind.delta y → False := by
        intro hry1 p hp hpx hpd
        obtain ⟨hpy, hlSp⟩ := hpost.shrink p hp y hpd
        have hpmemS : (p.1, p.2) ∈ S.text_records := lookupR_eq_some_mem hlSp
        have hcp : isChildOf y p.2 = true := by simp [isChildOf, hpd]
        have h9 := two_le_deltaChildren hpmemS hmem (by simpa using hpx) hcp hcx
        have h10 := (hchy1 hry1).2
        omega
      by_cases hrc : rx.refcount = 1
      · -- the delta record is consumed and removed
        refine ⟨{ S1 with text_records := eraseR S1.text_records x }, ?_, ?_⟩
        · rw [checkout_step_delta fuel hl hk]
          simp only [hco, hread, happ, hlx1]
          rw [if_pos (show rx.refcount - 1 = 0 by omega)]
        refine ⟨?_, ?_, ?_, ?_, ?_, ?_, ?_, ?_, ?_, ?_, ?_, ?_, ?_, ?_, ?_, ?_, ?_, ?_, ?_, ?_, ?_⟩
        · exact nodup_keys_eraseR x hpost.nodup
        · exact hpost.defNone
        · exact hpost.ddbEq
        · exact hpost.cdbRead
        · exact hpost.cdbWrite
        · exact hpost.cdbDel
        · exact hpost.cdbNodup
        · intro p hp pd hpd
          exact hpost.rankOk p (mem_of_mem_eraseR hp) pd hpd
        · intro p hp pd hpd
          have hpmem1 := mem_of_mem_eraseR hp
          have hpx := ne_of_mem_eraseR hpost.nodup hp
          by_cases hpdx : pd = x
          · exact Or.inr hpdx
          · rcases hpost.closedW p hpmem1 pd hpd with h9 | h9
            · refine Or.inl ?_
              dsimp only
              rw [lookupR_eraseR_ne _ hpdx]
              exact h9
            · subst h9
              rcases hpost.status with ⟨hry1, _⟩ | ⟨_, r'y, hlr'y, _, _⟩
              · exact (hOnly hry1 p hpmem1 hpx hpd).elim
              · refine Or.inl ?_
                dsimp only
                rw [lookupR_eraseR_ne _ hyx, hlr'y]
                rfl
        · intro p hp hpne
          have hpmem1 := mem_of_mem_eraseR hp
          have hchk := deltaChildren_eraseR hlx1 p.1
          by_cases hpy : p.1 = y
          · rcases hpost.status with ⟨hry1, hnone⟩ | ⟨hryne, r'y, hlr'y, hr'rc, hr'k⟩
            · exfalso
              have h9 := lookupR_isSome_of_mem hpmem1
              rw [hpy, hnone] at h9
              simp at h9
            · have hp2 : p.2 = r'y := by
                have h10 := mem_lookupR_of_nodup hpost.nodup hpmem1
                rw [hpy, hlr'y] at h10
                exact (Option.some.inj h10).symm
              have h11 := hpost.atX r'y hlr'y
              have h12 : isChildOf p.1 rx = true := by rw [hpy]; exact hcx
              rw [h12] at hchk
              rw [hpy] at hchk
              simp only [if_pos rfl, if_true] at hchk
              dsimp only
              rw [hp2, hpy]
              omega
          · have h12 : isChildOf p.1 rx = false := by
              simp [isChildOf, hk, Ne.symm hpy]
            rw [h12] at hchk
            simp only [if_neg (by simp : ¬(False : Prop)), Bool.false_eq_true, if_false, Nat.add_zero] at hchk
            have h13 := hpost.refEqW p hpmem1 hpy
            dsimp only
            rw [← hchk]
            exact h13
        · intro p hp hpne
          have hpmem1 := mem_of_mem_eraseR hp
          by_cases hpy : p.1 = y
          · rcases hpost.status with ⟨hry1, hnone⟩ | ⟨hryne, r'y, hlr'y, hr'rc, hr'k⟩
            · exfalso
              have h9 := lookupR_isSome_of_mem hpmem1
              rw [hpy, hnone] at h9
              simp at h9
            · have hp2 : p.2 = r'y := by
                have h10 := mem_lookupR_of_nodup hpost.nodup hpmem1
                rw [hpy, hlr'y] at h10
                exact (Option.some.inj h10).symm
              have h14 := hInv.pos (y, ry) hymem
              rw [hp2, hr'rc]
              dsimp only at h14
              omega
          · exact hpost.posW p hpmem1 hpy
        · intro id hid hne
          by_cases hidy : id = y
          · subst hidy
            rcases hpost.status with ⟨hry1, _⟩ | ⟨_, r'y, hlr'y, _, _⟩
            · exact absurd hid (hchy1 hry1).1
            · dsimp only
              rw [lookupR_eraseR_ne _ hyx, hlr'y]
              rfl
          · dsimp only
            rw [lookupR_eraseR_ne _ hne]
            exact hpost.pendLiveW id hid hidy
        · intro p hp hpk
          exact hpost.ddbFull p (mem_of_mem_eraseR hp) hpk
        · intro p hp pd hpd
          exact hpost.ddbDelta p (mem_of_mem_eraseR hp) pd hpd
        · intro p hp hpk
          exact hpost.cdbCo p (mem_of_mem_eraseR hp) hpk
        · intro e he
          obtain ⟨q, hq, hqk, hqh⟩ := hpost.cdbKeys e he
          have hqx : q.1 ≠ x := by
            intro hx
            have h5 := mem_lookupR_of_nodup hpost.nodup hq
            rw [hx, hlx1] at h5
            rw [← Option.some.inj h5] at hqk
            rw [hk] at hqk
            exact absurd hqk (by simp)
          exact ⟨q, mem_eraseR_of_mem_ne hq hqx, hqk, hqh⟩
        · exact Or.inl ⟨hrc, lookupR_eraseR_self x hpost.nodup⟩
        · intro r' h
          dsimp only at h
          rw [lookupR_eraseR_self x hpost.nodup] at h
          exact absurd h (by simp)
        · intro k hkk
          have hkx : k ≠ x := by rintro rfl; exact lt_irrefl _ hkk
          dsimp only
          rw [lookupR_eraseR_ne _ hkx]
          exact hpost.frame k (lt_trans hrank hkk)
        · intro p hp pd hpd
          have hpmem1 := mem_of_mem_eraseR hp
          exact ⟨ne_of_mem_eraseR hpost.nodup hp,
            (hpost.shrink p hpmem1 pd hpd).2⟩
        · intro k hkk
          have hky : k ≠ y := by rintro rfl; omega
          have hchk := deltaChildren_eraseR hlx1 k
          have h12 : isChildOf k rx = false := by
            simp [isChildOf, hk, Ne.symm hky]
          rw [h12] at hchk
          have h14 := hpost.childHigh k (by omega)
          dsimp only
          simp only [Bool.false_eq_true, if_false, Nat.add_zero] at hchk
          omega
      · -- the delta record transitions to a CheckedOutTextRecord
        have h0 : ¬rx.refcount - 1 = 0 := fun h0 => hrc (by omega)
        refine ⟨{ text_records := replaceR S1.text_records x { id := x, refcount := rx.refcount - 1, kind := RecKind.checkedOut }, delta_db := S1.delta_db, checkout_db := { S1.checkout_db with entries := setE S1.checkout_db.entries (toHexKey x) (content x) }, deferred_deletes := S1.deferred_deletes }, ?_, ?_⟩
        · rw [checkout_step_delta fuel hl hk]
          simp only [hco, hread, happ, hlx1, if_neg h0,
            Store.write_ok (toHexKey x) (content x) hpost.cdbWrite,
            DBState.replace, lookupR_replaceR_self]
        refine ⟨?_, ?_, ?_, ?_, ?_, ?_, ?_, ?_, ?_, ?_, ?_, ?_, ?_, ?_, ?_, ?_, ?_, ?_, ?_, ?_, ?_⟩
        · exact nodup_keys_replaceR x _ hpost.nodup
        · exact hpost.defNone
        · exact hpost.ddbEq
        · exact hpost.cdbRead
        · exact hpost.cdbWrite
        · exact hpost.cdbDel
        · exact nodup_keys_setE (toHexKey x) (content x) hpost.cdbNodup
        · intro p hp pd hpd
          rcases mem_replaceR_cases hpost.nodup hp with ⟨hne, hmem2⟩ | ⟨hpx, hpr⟩
          · exact hpost.rankOk p hmem2 pd hpd
          · rw [hpr] at hpd
            simp at hpd
        · intro p hp pd hpd
          rcases mem_replaceR_cases hpost.nodup hp with ⟨hne, hmem2⟩ | ⟨hpx, hpr⟩
          · by_cases hpdx : pd = x
            · exact Or.inr hpdx
            · rcases hpost.closedW p hmem2 pd hpd with h9 | h9
              · refine Or.inl ?_
                dsimp only
                rw [lookupR_replaceR_ne _ _ hpdx]
                exact h9
              · subst h9
                rcases hpost.status with ⟨hry1, _⟩ | ⟨_, r'y, hlr'y, _, _⟩
                · exact (hOnly hry1 p hmem2 hne hpd).elim
                · refine Or.inl ?_
                  dsimp only
                  rw [lookupR_replaceR_ne _ _ hyx, hlr'y]
                  rfl
          · rw [hpr] at hpd
            simp at hpd
        · intro p hp hpne
          rcases mem_replaceR_cases hpost.nodup hp with ⟨hne, hmem2⟩ | ⟨hpx, hpr⟩
          · have hchk := deltaChildren_replaceR hlx1
              ({ id := x, refcount := rx.refcount - 1, kind := RecKind.checkedOut }) p.1
            have hnew : isChildOf p.1 ({ id := x, refcount := rx.refcount - 1, kind := RecKind.checkedOut } : TextRecord) = false := rfl
            rw [hnew] at hchk
            simp only [Bool.false_eq_true, if_false, Nat.add_zero] at hchk
            by_cases hpy : p.1 = y
            · rcases hpost.status with ⟨hry1, hnone⟩ | ⟨hryne, r'y, hlr'y, hr'rc, hr'k⟩
              · exfalso
                have h9 := lookupR_isSome_of_mem hmem2
                rw [hpy, hnone] at h9
                simp at h9
              · have hp2 : p.2 = r'y := by
                  have h10 := mem_lookupR_of_nodup hpost.nodup hmem2
                  rw [hpy, hlr'y] at h10
                  exact (Option.some.inj h10).symm
                have h11 := hpost.atX r'y hlr'y
                have h12 : isChildOf p.1 rx = true := by rw [hpy]; exact hcx
                rw [h12] at hchk
                rw [hpy] at hchk
                simp only [if_pos rfl, if_true] at hchk
                dsimp only
                rw [hp2, hpy]
                omega
            · have h12 : isChildOf p.1 rx = false := by
                simp [isChildOf, hk, Ne.symm hpy]
              rw [h12] at hchk
              simp only [Bool.false_eq_true, if_false, Nat.add_zero] at hchk
              have h13 := hpost.refEqW p hmem2 hpy
              dsimp only
              rw [hchk]
              exact h13
          · exact absurd hpx hpne
        · intro p hp hpne
          rcases mem_replaceR_cases hpost.nodup hp with ⟨hne, hmem2⟩ | ⟨hpx, hpr⟩
          · by_cases hpy : p.1 = y
            · rcases hpost.status with ⟨hry1, hnone⟩ | ⟨hryne, r'y, hlr'y, hr'rc, hr'k⟩
              · exfalso
                have h9 := lookupR_isSome_of_mem hmem2
                rw [hpy, hnone] at h9
                simp at h9
              · have hp2 : p.2 = r'y := by
                  have h10 := mem_lookupR_of_nodup hpost.nodup hmem2
                  rw [hpy, hlr'y] at h10
                  exact (Option.some.inj h10).symm
                have h14 := hInv.pos (y, ry) hymem
                rw [hp2, hr'rc]
                dsimp only at h14
                omega
            · exact hpost.posW p hmem2 hpy
          · exact absurd hpx hpne
        · intro id hid hne
          by_cases hidy : id = y
          · subst hidy
            rcases hpost.status with ⟨hry1, _⟩ | ⟨_, r'y, hlr'y, _, _⟩
            · exact absurd hid (hchy1 hry1).1
            · dsimp only
              rw [lookupR_replaceR_ne _ _ hyx, hlr'y]
              rfl
          · dsimp only
            rw [lookupR_replaceR_ne _ _ hne]
            exact hpost.pendLiveW id hid hidy
        · intro p hp hpk
          rcases mem_replaceR_cases hpost.nodup hp with ⟨hne, hmem2⟩ | ⟨hpx, hpr⟩
          · exact hpost.ddbFull p hmem2 hpk
          · rw [hpr] at hpk
            simp at hpk
        · intro p hp pd hpd
          rcases mem_replaceR_cases hpost.nodup hp with ⟨hne, hmem2⟩ | ⟨hpx, hpr⟩
          · exact hpost.ddbDelta p hmem2 pd hpd
          · rw [hpr] at hpd
            simp at hpd
        · intro p hp hpk
          rcases mem_replaceR_cases hpost.nodup hp with ⟨hne, hmem2⟩ | ⟨hpx, hpr⟩
          · have hhex : toHexKey p.1 ≠ toHexKey x := fun h => hne (toHexKey_injective h)
            dsimp only
            rw [lookupE_setE_ne _ _ hhex]
            exact hpost.cdbCo p hmem2 hpk
          · dsimp only
            rw [hpx]
            rw [lookupE_setE_self]
        · intro e he
          dsimp only at he
          rcases mem_setE_or he with h9 | h9
          · obtain ⟨q, hq, hqk, hqh⟩ := hpost.cdbKeys e h9
            have hqx : q.1 ≠ x := by
              intro hx
              have h5 := mem_lookupR_of_nodup hpost.nodup hq
              rw [hx, hlx1] at h5
              rw [← Option.some.inj h5] at hqk
              rw [hk] at hqk
              exact absurd hqk (by simp)
            exact ⟨q, mem_replaceR_of_mem_ne hq hqx, hqk, hqh⟩
          · refine ⟨(x, { id := x, refcount := rx.refcount - 1, kind := RecKind.checkedOut }), ?_, rfl, ?_⟩
            · refine lookupR_eq_some_mem (r := { id := x, refcount := rx.refcount - 1, kind := RecKind.checkedOut }) ?_
              rw [lookupR_replaceR_self, hlx1]
              rfl
            · rw [h9]
        · refine Or.inr ⟨hrc, { id := x, refcount := rx.refcount - 1, kind := RecKind.checkedOut }, ?_, rfl, ?_⟩
          · dsimp only
            rw [lookupR_replaceR_self, hlx1]
            rfl
          · rw [hk]
            rfl
        · intro r' h
          dsimp only at h
          rw [lookupR_replaceR_self, hlx1] at h
          rw [← Option.some.inj h]
          have hchk := deltaChildren_replaceR hlx1
            ({ id := x, refcount := rx.refcount - 1, kind := RecKind.checkedOut }) x
          have hnew : isChildOf x ({ id := x, refcount := rx.refcount - 1, kind := RecKind.checkedOut } : TextRecord) = false := rfl
          rw [hnew] at hchk
          have h12 : isChildOf x rx = false := by
            simp [isChildOf, hk, hyx]
          rw [h12] at hchk
          simp only [Bool.false_eq_true, if_false, Nat.add_zero] at hchk
          have h14 := hpost.childHigh x (by omega)
          have h7 := hInv.refEq (x, rx) hmem
          dsimp only at h7 ⊢
          rw [hchk, h14]
          show rx.refcount - 1 = _
          omega
        · intro k hkk
          have hkx : k ≠ x := by rintro rfl; exact lt_irrefl _ hkk
          dsimp only
          rw [lookupR_replaceR_ne _ _ hkx]
          exact hpost.frame k (lt_trans hrank hkk)
        · intro p hp pd hpd
          rcases mem_replaceR_cases hpost.nodup hp with ⟨hne, hmem2⟩ | ⟨hpx, hpr⟩
          · exact ⟨hne, (hpost.shrink p hmem2 pd hpd).2⟩
          · rw [hpr] at hpd
            simp at hpd
        · intro k hkk
          have hky : k ≠ y := by rintro rfl; omega
          have hchk := deltaChildren_replaceR hlx1
            ({ id := x, refcount := rx.refcount - 1, kind := RecKind.checkedOut }) k
          have hnew : isChildOf k ({ id := x, refcount := rx.refcount - 1, kind := RecKind.checkedOut } : TextRecord) = false := rfl
          rw [hnew] at hchk
          have h12 : isChildOf k rx = false := by
            simp [isChildOf, hk, Ne.symm hky]
          rw [h12] at hchk
          simp only [Bool.false_eq_true, if_false, Nat.add_zero] at hchk
          have h14 := hpost.childHigh k (by omega)
          dsimp only
          omega

theorem isChildOf_eq {y : Nat} {r : TextRecord} (h : isChildOf y r = true) :
    r.kind = RecKind.delta y := by
  cases hk : r.kind with
  | fullText =>
    simp only [isChildOf, hk] at h
    exact absurd h (by simp)
  | checkedOut =>
    simp only [isChildOf, hk] at h
    exact absurd h (by simp)
  | delta pd =>
    simp only [isChildOf, hk, decide_eq_true_eq] at h
    rw [h]

/-- After a pending revision has been checked out, the output-pass
invariant holds again with that revision removed from the pending
list. -/
theorem outInv_of_postCK {content : Nat → String} {rank : Nat → Nat}
    {pending : List Nat} {S S' : DBState} {x : Nat} {rx : TextRecord}
    (hInv : OutInv content rank pending S)
    (hl : lookupR S.text_records x = some rx)
    (hx : x ∈ pending)
    (hpost : PostCK content rank pending x rx S S') :
    OutInv content rank (pending.erase x) S' := by
  have hmem : (x, rx) ∈ S.text_records := lookupR_eq_some_mem hl
  refine ⟨?_, ?_, ?_, ?_, ?_, ?_, ?_, ?_, ?_, ?_, ?_, ?_, ?_, ?_, ?_, ?_, ?_, ?_⟩
  · exact hpost.nodup
  · exact hpost.defNone
  · rw [hpost.ddbEq]
    exact hInv.ddbRead
  · rw [hpost.ddbEq]
    exact hInv.ddbNoDel
  · exact hpost.cdbRead
  · exact hpost.cdbWrite
  · exact hpost.cdbDel
  · exact hpost.cdbNodup
  · exact hpost.rankOk
  · intro p hp pd hpd
    rcases hpost.closedW p hp pd hpd with h1 | h1
    · exact h1
    · rw [h1]
      rcases hpost.status with ⟨hrc1, _⟩ | ⟨_, r', hlr', _, _⟩
      · exfalso
        have h2 := hInv.refEq (x, rx) hmem
        dsimp only at h2
        rw [if_pos hx, hrc1] at h2
        have h3 : deltaChildren S.text_records x = 0 := by omega
        have h4 := hpost.childHigh x (le_refl _)
        have h5 : isChildOf x p.2 = true := by simp [isChildOf, hpd, h1]
        have h6 := deltaChildren_pos_of_mem hp h5
        omega
      · rw [hlr']
        rfl
  · intro p hp
    by_cases hpx : p.1 = x
    · have h1 : lookupR S'.text_records x = some p.2 := by
        rw [← hpx]
        exact mem_lookupR_of_nodup hpost.nodup hp
      have h2 := hpost.atX p.2 h1
      rw [if_pos hx] at h2
      have h3 : p.1 ∉ pending.erase x := by
        rw [hpx]
        exact hInv.pendNodup.not_mem_erase
      rw [if_neg h3, hpx]
      omega
    · have h1 := hpost.refEqW p hp hpx
      have h2 : (p.1 ∈ pending.erase x) = (p.1 ∈ pending) := by
        simp [List.mem_erase_of_ne hpx]
      simp only [h2]
      exact h1
  · intro p hp
    by_cases hpx : p.1 = x
    · rcases hpost.status with ⟨_, hnone⟩ | ⟨hrcne, r', hlr', hrrc, _⟩
      · exfalso
        have h1 := lookupR_isSome_of_mem hp
        rw [hpx, hnone] at h1
        simp at h1
      · have hp2 : p.2 = r' := by
          have h1 := mem_lookupR_of_nodup hpost.nodup hp
          rw [hpx, hlr'] at h1
          exact (Option.some.inj h1).symm
        have h2 := hInv.pos (x, rx) hmem
        dsimp only at h2
        rw [hp2, hrrc]
        omega
    · exact hpost.posW p hp hpx
  · intro id hid
    have h1 := (hInv.pendNodup.mem_erase_iff).mp hid
    exact hpost.pendLiveW id h1.2 h1.1
  · exact hInv.pendNodup.erase x
  · exact hpost.ddbFull
  · exact hpost.ddbDelta
  · exact hpost.cdbCo
  · exact hpost.cdbKeys

/-- A get_content_stream request for a pending revision of a loaded
file succeeds and re-establishes the output-pass invariant with that
revision no longer pending. -/
theorem get_content_stream_ok {content : Nat → String} {rank : Nat → Nat}
    {pending : List Nat} {R : ReaderState} {c : CvsRev} (sup : Bool)
    (hInv : OutInv content rank pending R.db)
    (hload : c.fileId ∈ R.loaded_files)
    (hx : c.id ∈ pending) :
    ∃ t R', get_content_stream R c sup = .ok (t, R')
      ∧ R'.loaded_files = R.loaded_files
      ∧ OutInv content rank (pending.erase c.id) R'.db := by
  obtain ⟨rx, hl⟩ := Option.isSome_iff_exists.mp (hInv.pendLive c.id hx)
  have hgtr : R.get_text_record c.fileId c.id = .ok (rx, R) := by
    simp [ReaderState.get_text_record, hload, hl]
  have hcnt : (R.db.text_records.filter (fun p => rank p.1 < rank c.id)).length
      < R.db.text_records.length + 1 := by
    have := List.length_filter_le (fun p => rank p.1 < rank c.id) R.db.text_records
    omega
  obtain ⟨S', hck, hpost⟩ :=
    checkoutCK (R.db.text_records.length + 1) R.db c.id rx hInv hl hcnt
  refine ⟨if c.mode ≠ "b" ∧ c.mode ≠ "o" then (if sup ∨ c.mode = "k" then kwUnexpandStr (content c.id) else kwExpandStr c.kwvals (content c.id)) else content c.id, { R with db := S' }, ?_, rfl, outInv_of_postCK hInv hl hx hpost⟩
  simp only [get_content_stream, hgtr, hck]

/-- Draining a pending list by a permutation of requests empties the
pending list while preserving the invariant. -/
theorem processAll_drain {content : Nat → String} {rank : Nat → Nat} :
    ∀ (reqs : List (CvsRev × Bool)) (R : ReaderState) (pending : List Nat),
    OutInv content rank pending R.db →
    (∀ cb ∈ reqs, cb.1.fileId ∈ R.loaded_files) →
    (reqs.map (fun cb => cb.1.id)).Perm pending →
    ∃ R', processAll R reqs = .ok R'
      ∧ OutInv content rank [] R'.db := by
  intro reqs
  induction reqs with
  | nil =>
    intro R pending hInv _ hperm
    have h1 : pending = [] := hperm.symm.eq_nil
    subst h1
    exact ⟨R, rfl, hInv⟩
  | cons cb rest ih =>
    intro R pending hInv hfiles hperm
    obtain ⟨c, sup⟩ := cb
    have hmap : (c.id :: rest.map (fun cb => cb.1.id)).Perm pending := by
      simpa using hperm
    have hsplit := List.cons_perm_iff_perm_erase.mp hmap
    obtain ⟨t, R1, hok, hload1, hInv1⟩ := get_content_stream_ok sup hInv
      (hfiles (c, sup) (List.mem_cons_self _ _)) hsplit.1
    have hfiles1 : ∀ cb ∈ rest, cb.1.fileId ∈ R1.loaded_files := by
      intro cb hcb
      rw [hload1]
      exact hfiles cb (List.mem_cons_of_mem _ hcb)
    obtain ⟨R', hrun, hInvF⟩ := ih R1 (pending.erase c.id) hInv1 hfiles1 hsplit.2
    refine ⟨R', ?_, hInvF⟩
    simp only [processAll, hok, hrun]

/-- With nothing pending, the invariant forces the database and the
checkout store to be empty: a nonempty record list would have a
maximal-rank record whose positive refcount demands a delta child of
even higher rank. -/
theorem outInv_drained {content : Nat → String} {rank : Nat → Nat} {S : DBState}
    (hInv : OutInv content rank [] S) :
    S.text_records = [] ∧ S.checkout_db.entries = [] := by
  have hrecs : S.text_records = [] := by
    by_contra hne
    obtain ⟨p, hp, hmax⟩ := exists_max_rank rank S.text_records hne
    have h1 := hInv.refEq p hp
    have h2 := hInv.pos p hp
    rw [if_neg (List.not_mem_nil p.1)] at h1
    have h3 : 1 ≤ deltaChildren S.text_records p.1 := by omega
    have h4 : S.text_records.filter (fun q => isChildOf p.1 q.2) ≠ [] := by
      intro h5
      rw [deltaChildren, h5] at h3
      simp at h3
    obtain ⟨q, hq⟩ := List.exists_mem_of_ne_nil _ h4
    have hq2 := List.mem_filter.mp hq
    have hq3 : q.2.kind = RecKind.delta p.1 := isChildOf_eq (by simpa using hq2.2)
    have h6 := hInv.rankOk q hq2.1 p.1 hq3
    have h7 := hmax q hq2.1
    omega
  refine ⟨hrecs, ?_⟩
  cases hcdb : S.checkout_db.entries with
  | nil => rfl
  | cons e es =>
    exfalso
    obtain ⟨q, hq, _, _⟩ := hInv.cdbKeys e (by rw [hcdb]; exact List.mem_cons_self _ _)
    rw [hrecs] at hq
    simp at hq

/-- C6: during the output pass, when every surviving revision held in
the live TextRecordDatabase (its pending list) is requested exactly
once via get_content_stream, in any order, every request succeeds,
every refcount reaches zero so every TextRecord is removed from the
database, the checkout store holds no leftover entry, and
log_leftovers at finish() reports nothing. -/
theorem claim_C6 {content : Nat → String} {rank : Nat → Nat}
    {R : ReaderState} {pending : List Nat} {reqs : List (CvsRev × Bool)}
    (hInv : OutInv content rank pending R.db)
    (hfiles : ∀ cb ∈ reqs, cb.1.fileId ∈ R.loaded_files)
    (hperm : (reqs.map (fun cb => cb.1.id)).Perm pending) :
    ∃ R', processAll R reqs = .ok R'
      ∧ R'.db.text_records = []
      ∧ R'.db.checkout_db.entries = []
      ∧ readerFinish R' = [] := by
  obtain ⟨R', hrun, hInvF⟩ := processAll_drain reqs R pending hInv hfiles hperm
  obtain ⟨h1, h2⟩ := outInv_drained hInvF
  refine ⟨R', hrun, h1, h2, ?_⟩
  simp [readerFinish, DBState.log_leftovers, h1]

/-- A two-revision database for exercising the full-consumption
theorem: revision 1 a fulltext (refcount 2: one pending request plus
one delta child), revision 2 a delta against it (refcount 1). -/
def dbW6 : DBState where
  text_records :=
    [(1, { id := 1, refcount := 2, kind := RecKind.fullText }),
     (2, { id := 2, refcount := 1, kind := RecKind.delta 1 })]
  delta_db :=
    { entries := [(1, "a\n"), (2, "")], readable := true, writable := false, deleteEnabled := false }
  checkout_db :=
    { entries := [], readable := true, writable := true, deleteEnabled := true }
  deferred_deletes := none

/-- Reader state holding `dbW6` with file 7 already loaded. -/
def RW6 : ReaderState :=
  { tree_db := [], loaded_files := [7], db := dbW6 }

/-- Keyword values for the witness requests. -/
def kwW6 : KwValues :=
  { author := "", date := "", rcsfile := "", revision := "", source := "" }

/-- Both revisions of file 7 requested once each, child first. -/
def reqsW6 : List (CvsRev × Bool) :=
  [({ id := 2, fileId := 7, filename := "f", rev := "1.2", mode := "b", kwvals := kwW6 }, false),
   ({ id := 1, fileId := 7, filename := "f", rev := "1.1", mode := "b", kwvals := kwW6 }, true)]

theorem invW6 : OutInv (fun _ => "a\n") (fun k => k) [1, 2] RW6.db := by
  refine ⟨by decide, by decide, by decide, by decide, by decide, by decide,
    by decide, by decide, ?_, ?_, by decide, by decide,
    by decide, by decide, by decide, ?_, by decide, by decide⟩
  · intro p hp pd hpd
    rcases List.mem_cons.mp hp with h1 | h1
    · subst h1
      simp at hpd
    · rcases List.mem_cons.mp h1 with h2 | h2
      · subst h2
        have hpd1 : pd = 1 := by simpa using hpd.symm
        subst hpd1
        decide
      · simp at h2
  · intro p hp pd hpd
    rcases List.mem_cons.mp hp with h1 | h1
    · subst h1
      simp at hpd
    · rcases List.mem_cons.mp h1 with h2 | h2
      · subst h2
        have hpd1 : pd = 1 := by simpa using hpd.symm
        subst hpd1
        decide
      · simp at h2
  · intro p hp pd hpd
    rcases List.mem_cons.mp hp with h1 | h1
    · subst h1
      simp at hpd
    · rcases List.mem_cons.mp h1 with h2 | h2
      · subst h2
        have hpd1 : pd = 1 := by simpa using hpd.symm
        subst hpd1
        exact ⟨"", by decide, by decide⟩
      · simp at h2

theorem claim_C6_witness :
    ∃ R', processAll RW6 reqsW6 = .ok R'
      ∧ R'.db.text_records = []
      ∧ R'.db.checkout_db.entries = []
      ∧ readerFinish R' = [] :=
  @claim_C6 (fun _ => "a\n") (fun k => k) RW6 [1, 2] reqsW6 invW6
    (by decide) (by decide)
